import Mathlib

/-!
Shallow embedding of the prime-field arithmetic engine generated by
`ff_derive` (src/ff_derive/src/lib.rs).  The derive macro emits, for a
fixed limb count, unrolled code over little-endian arrays of 64-bit
words; here limb vectors are little-endian lists of natural numbers,
each limb strictly below `2 ^ 64`, and machine arithmetic is modelled
with explicit `% 2 ^ 64`.
-/

namespace FF

/-- Width of one limb: every limb is a 64-bit word. -/
def B : Nat := 2 ^ 64

/-- Integer value of a little-endian limb vector. -/
def val : List Nat → Nat
  | [] => 0
  | d :: l => d + B * val l

/-- All limbs fit in 64 bits. -/
def Norm (l : List Nat) : Prop := ∀ x ∈ l, x < B

instance (l : List Nat) : Decidable (Norm l) :=
  inferInstanceAs (Decidable (∀ x ∈ l, x < B))

/-- Little-endian base-`2 ^ 64` digits of `v`, padded or truncated to
exactly `n` limbs; mirrors `biguint_to_u64_vec`. -/
def toLimbs : Nat → Nat → List Nat
  | 0, _ => []
  | n + 1, v => v % B :: toLimbs n (v / B)

/-- Modelled from the spec: the `ff` crate's `adc(a, b, carry)` full adder,
returning `(a + b + carry) mod 2^64` with the new carry being the overflow. -/
def adc (a b carry : Nat) : Nat × Nat := ((a + b + carry) % B, (a + b + carry) / B)

/-- Modelled from the spec: the `ff` crate's `sbb(a, b, borrow)` full
subtractor, returning `(2^64 + a - (b + borrow)) mod 2^64` together with
the new borrow, which records whether a borrow escaped this limb. -/
def sbb (a b borrow : Nat) : Nat × Nat :=
  ((B + a - (b + borrow)) % B, if a < b + borrow then 1 else 0)

/-- Modelled from the spec: the `ff` crate's `mac_with_carry(acc, a, b, carry)`,
returning `(acc + a * b + carry) mod 2^64` with the new carry being the
overflow. -/
def mac_with_carry (acc a b carry : Nat) : Nat × Nat :=
  ((acc + a * b + carry) % B, (acc + a * b + carry) / B)

/-- Limb-wise addition with carry propagation (`Repr::add_nocarry`); the
second component is the carry that escaped the top limb. -/
def add_nocarry : List Nat → List Nat → Nat → List Nat × Nat
  | x :: xs, y :: ys, c =>
      let s := adc x y c
      let r := add_nocarry xs ys s.2
      (s.1 :: r.1, r.2)
  | xs, _, c => (xs, c)

/-- Limb-wise subtraction with borrow propagation (`Repr::sub_noborrow`);
the second component is the borrow that escaped the top limb. -/
def sub_noborrow : List Nat → List Nat → Nat → List Nat × Nat
  | x :: xs, y :: ys, br =>
      let s := sbb x y br
      let r := sub_noborrow xs ys s.2
      (s.1 :: r.1, r.2)
  | xs, _, br => (xs, br)

/-- Shift right by one bit across the whole limb vector (`Repr::div2`):
each limb is shifted down, receiving the low bit of the next limb. -/
def div2 : List Nat → List Nat
  | [] => []
  | [x] => [x / 2]
  | x :: y :: l => (x / 2 + y % 2 * 2 ^ 63) :: div2 (y :: l)

/-- Shift left by one bit across the whole limb vector (`Repr::mul2`),
threading the carried bit from limb to limb; the second component is the
bit shifted out of the top limb. -/
def mul2 : List Nat → Nat → List Nat × Nat
  | [], last => ([], last)
  | x :: xs, last =>
      let r := mul2 xs (x / 2 ^ 63)
      ((x % 2 ^ 63 * 2 + last) :: r.1, r.2)

/-- Parity test on bit 0 of limb 0 (`Repr::is_odd`). -/
def is_odd (l : List Nat) : Bool := l.headD 0 % 2 == 1

/-- Negated parity test (`Repr::is_even`). -/
def is_even (l : List Nat) : Bool := !is_odd l

/-- All-limbs-zero test (`Repr::is_zero`). -/
def is_zero (l : List Nat) : Bool := l.all (fun x => x == 0)

/-- Limb-vector comparison (`Ord for Repr`): scan limbs from the most
significant down and let the first difference decide. -/
def cmp : List Nat → List Nat → Ordering
  | [], [] => Ordering.eq
  | x :: xs, y :: ys =>
      match cmp xs ys with
      | Ordering.eq => compare x y
      | o => o
  | _, _ => Ordering.eq

/-- Validity check (`is_valid`): the held representation is strictly below
the modulus. -/
def is_valid (M x : List Nat) : Bool := cmp x M == Ordering.lt

/-- Conditional final subtraction (`reduce`): subtract the modulus once when
the representation is not below it. -/
def reduce (M x : List Nat) : List Nat :=
  if is_valid M x then x else (sub_noborrow x M 0).1

/-- Field addition (`add_assign`): limb-wise addition dropping the carry
flag, then one conditional reduction. -/
def add_assign (M a b : List Nat) : List Nat := reduce M (add_nocarry a b 0).1

/-- Field doubling (`double`): one-bit left shift dropping the shifted-out
bit, then one conditional reduction. -/
def double (M a : List Nat) : List Nat := reduce M (mul2 a 0).1

/-- Field subtraction (`sub_assign`): when the subtrahend is larger, first
add the modulus (dropping the carry flag), then subtract limb-wise. -/
def sub_assign (M a b : List Nat) : List Nat :=
  if cmp b a = Ordering.gt then (sub_noborrow (add_nocarry a M 0).1 b 0).1
  else (sub_noborrow a b 0).1

/-- Field negation (`negate`): zero is fixed, any other value is subtracted
from the modulus. -/
def negate (M a : List Nat) : List Nat :=
  if is_zero a then a else (sub_noborrow M a 0).1

/-- One row of the schoolbook product (`mul_impl`): multiply `ai` against
each limb of `b` with `mac_with_carry`, accumulating into the already
computed limbs `acc`; the final carry becomes the next fresh limb. -/
def mulRow (ai : Nat) : List Nat → List Nat → Nat → List Nat
  | [], _, carry => [carry]
  | bj :: bs, acc, carry =>
      let t := mac_with_carry (acc.headD 0) ai bj carry
      t.1 :: mulRow ai bs acc.tail t.2

/-- Row-by-row schoolbook multiplication (`mul_impl` before the Montgomery
reduction): each row emits its lowest limb and passes the rest on to the
next row. -/
def mulAcc : List Nat → List Nat → List Nat → List Nat
  | [], _, acc => acc
  | ai :: arest, b, acc =>
      let r := mulRow ai b acc 0
      r.headD 0 :: mulAcc arest b r.tail

/-- Full double-width schoolbook product of `a` and `b` (`mul_impl`). -/
def mulLimbs (a b : List Nat) : List Nat := mulAcc a b []

/-- Above-diagonal rows of the squaring routine (`sqr_impl`, first loop):
row `i` multiplies limb `i` against the strictly higher limbs only; each
row emits two limbs before the next row continues. -/
def sqrCross : List Nat → List Nat → List Nat
  | ai :: a1 :: arest, acc =>
      let r := mulRow ai (a1 :: arest) acc 0
      r.headD 0 :: r.tail.headD 0 :: sqrCross (a1 :: arest) r.tail.tail
  | _, acc => acc

/-- Mathematical value of the above-diagonal cross terms of a square,
shifted down one limb position. -/
def crossVal : List Nat → Nat
  | [] => 0
  | ai :: arest => ai * val arest + B * B * crossVal arest

/-- Virtual value of the diagonal terms of a square. -/
def diagVal : List Nat → Nat
  | [] => 0
  | ai :: arest => ai * ai + B * B * diagVal arest

/-- Doubling pass of the squaring routine (`sqr_impl`, middle loop): one
left shift across the cross-term accumulator; the bit shifted out of the
last cross limb becomes the top limb of the double-width accumulator. -/
def sqrShift (cl : List Nat) : List Nat :=
  let r := mul2 cl 0
  r.1 ++ [r.2]

/-- Diagonal pass of the squaring routine (`sqr_impl`, final loop): add
`ai * ai` into the doubled cross terms, two limbs per step. -/
def sqrDiag : List Nat → List Nat → Nat → List Nat
  | [], _, _ => []
  | ai :: arest, acc, carry =>
      let t0 := mac_with_carry (acc.headD 0) ai ai carry
      let t1 := adc (acc.tail.headD 0) 0 t0.2
      t0.1 :: t1.1 :: sqrDiag arest acc.tail.tail t1.2

/-- Double-width limb vector computed by the squaring routine (`sqr_impl`)
before its Montgomery reduction: cross terms, doubled by one shift, plus
the diagonal terms. -/
def sqrLimbs (a : List Nat) : List Nat :=
  sqrDiag a (0 :: sqrShift (sqrCross a [])) 0

/-- Multiply-accumulate chain of one Montgomery iteration (`mont_reduce`,
inner loop over `j in 1..limbs`): add `k * m_j` into successive limbs.
Returns the updated prefix, the untouched remainder and the running
carry. -/
def macChain (k : Nat) : List Nat → List Nat → Nat → List Nat × List Nat × Nat
  | [], acc, carry => ([], acc, carry)
  | mj :: ms, acc, carry =>
      let t := mac_with_carry (acc.headD 0) k mj carry
      let r := macChain k ms acc.tail t.2
      (t.1 :: r.1, r.2.1, r.2.2)

/-- One iteration of the Montgomery reduction (`mont_reduce`, outer loop
body): kill the lowest limb with `k = r_i * INV mod 2^64` (its `mac` result
is discarded), propagate the carry through the next `limbs` positions, and
absorb the chained `carry2` with an `adc`, producing the next `carry2`. -/
def montIter (inv : Nat) (m : List Nat) (c2 : Nat) (acc : List Nat) : List Nat × Nat :=
  match m, acc with
  | m0 :: ms, r0 :: rest =>
      let k := r0 * inv % B
      let carry := (r0 + k * m0) / B
      let r := macChain k ms rest carry
      let t := adc (r.2.1.headD 0) c2 r.2.2
      (r.1 ++ t.1 :: r.2.1.tail, t.2)
  | _, acc => (acc.tail, 0)

/-- Full Montgomery reduction loop (`mont_reduce`): one `montIter` per
modulus limb, threading `carry2` between iterations; the last iteration's
outgoing carry is dropped. -/
def montLoop (inv : Nat) (m : List Nat) : Nat → Nat → List Nat → List Nat
  | 0, _, acc => acc
  | j + 1, c2, acc =>
      let r := montIter inv m c2 acc
      montLoop inv m j r.2 r.1

/-- Montgomery reduction of a double-width limb vector followed by the
final conditional subtraction (`mont_reduce`, which ends in `reduce`). -/
def mont_reduce (M : List Nat) (inv : Nat) (t : List Nat) : List Nat :=
  reduce M (montLoop inv M M.length 0 t)

/-- Field multiplication (`mul_assign`): double-width schoolbook product
followed by Montgomery reduction. -/
def mul_assign (M : List Nat) (inv : Nat) (a b : List Nat) : List Nat :=
  mont_reduce M inv (mulLimbs a b)

/-- Field squaring (`square`): the specialised squaring routine followed by
Montgomery reduction. -/
def square (M : List Nat) (inv : Nat) (a : List Nat) : List Nat :=
  mont_reduce M inv (sqrLimbs a)

/-- One round of the derive-time computation of `INV`: square the running
value and multiply by the low modulus limb, with wrapping (`mod 2^64`)
multiplication. -/
def invStep (m0 i : Nat) : Nat := i * i % B * m0 % B

/-- Iterated rounds of the `INV` computation, starting from 1. -/
def invIter (m0 : Nat) : Nat → Nat
  | 0 => 1
  | k + 1 => invStep m0 (invIter m0 k)

/-- The emitted constant `INV`: 63 rounds of `inv = inv * inv * m` followed
by a wrapping negation. -/
def computeInv (m0 : Nat) : Nat := (B - invIter m0 63) % B

/-- Big-endian bit list of one 64-bit limb, most significant bit first
(the inner loop of the `ff` crate's `pow`). -/
def limbBits (e : Nat) : List Bool :=
  (List.range 64).reverse.map (fun i => e / 2 ^ i % 2 == 1)

/-- Square-and-multiply driver shared by the derive-time `exp` and the
runtime `pow`: fold over a most-significant-first bit string, squaring the
accumulator each step and multiplying in the base on set bits. -/
def powBits {α : Type} (mulf : α → α → α) (a : α) : α → List Bool → α
  | acc, [] => acc
  | acc, b :: bs =>
      let s := mulf acc acc
      powBits mulf a (if b then mulf s a else s) bs

/-- Numeric value of a most-significant-first bit string. -/
def bitsVal : List Bool → Nat
  | [] => 0
  | b :: bs => (if b then 1 else 0) * 2 ^ bs.length + bitsVal bs

/-- Concatenated most-significant-first bit string of a little-endian limb
vector, as traversed by the runtime `pow` (limbs from the top down, bits
from the top down within each limb). -/
def limbsBits (e : List Nat) : List Bool :=
  e.foldl (fun acc limb => limbBits limb ++ acc) []

/-- The emitted constant `MODULUS` as a limb vector. -/
def modLimbs (n m : Nat) : List Nat := toLimbs n m

/-- The emitted constant `R = 2^{64 * limbs} mod m`. -/
def Rv (n m : Nat) : Nat := B ^ n % m

/-- The emitted constant `R2 = R * R mod m`. -/
def R2v (n m : Nat) : Nat := Rv n m * Rv n m % m

/-- `Field::zero`: the all-zero representation. -/
def zeroE (n : Nat) : List Nat := toLimbs n 0

/-- `Field::one`: the Montgomery radix `R`. -/
def oneE (n m : Nat) : List Nat := toLimbs n (Rv n m)

/-- Modelled from the spec: the `ff` crate's `Field::pow`, square-and-
multiply over the exponent limbs from the most significant bit down,
with the field squaring and multiplication of the derived type. -/
def pow (M : List Nat) (inv : Nat) (one_ a e : List Nat) : List Nat :=
  powBits (mul_assign M inv) a one_ (limbsBits e)

/-- Derive-time modular exponentiation (`exp` in the macro): square-and-
multiply over the exponent bits, most significant first. -/
def expNat (base e m : Nat) : Nat :=
  powBits (fun x y => x * y % m) base 1
    ((List.range e).reverse.map (fun i => e / 2 ^ i % 2 == 1))

/-- Derive-time 2-adic splitting (the loop computing `S` and the odd `t`
from `m - 1`): returns `(s, t)` with the input equal to `2^s * t`, `t`
odd whenever the input is nonzero. -/
def oddSplit (t : Nat) : Nat × Nat :=
  if h : t ≠ 0 ∧ t % 2 = 0 then
    let r := oddSplit (t / 2)
    (r.1 + 1, r.2)
  else (0, t)
termination_by t
decreasing_by exact Nat.div_lt_self (Nat.pos_of_ne_zero h.1) Nat.one_lt_two

/-- Well-formed field element of an `n`-limb field with modulus `m`:
normalized limbs, exactly `n` of them, value below the modulus. -/
def Fe (n m : Nat) (x : List Nat) : Prop :=
  Norm x ∧ x.length = n ∧ val x < m

/-- `PrimeField::from_repr`: validate the representation, then convert into
Montgomery form by one multiplication with `R2`. -/
def from_repr (n m : Nat) (inv : Nat) (r : List Nat) : Except Unit (List Nat) :=
  if is_valid (modLimbs n m) r then
    Except.ok (mul_assign (modLimbs n m) inv r (toLimbs n (R2v n m)))
  else Except.error ()

/-- `PrimeField::into_repr`: Montgomery-reduce the value padded with
`limb_count` zero high limbs, stripping the `R` factor. -/
def into_repr (n m : Nat) (inv : Nat) (a : List Nat) : List Nat :=
  mont_reduce (modLimbs n m) inv (a ++ List.replicate n 0)

/-- Montgomery decoding against an explicit right inverse `w` of the
radix: the logical field value of the limb vector `x` is `val x * w`. -/
def phiW (p : Nat) (w : ZMod p) (x : List Nat) : ZMod p := (val x : ZMod p) * w

/-- Inner halving loop of the binary inversion (`inverse`): while the
tracked value is even, halve it and halve its coefficient, adding the
modulus first when the coefficient is odd. Fuel-indexed to mirror the
unbounded `while`. -/
def halveLoop (M : List Nat) : Nat → List Nat → List Nat → List Nat × List Nat
  | 0, u, b => (u, b)
  | f + 1, u, b =>
      if is_even u then
        halveLoop M f (div2 u)
          (if is_even b then div2 b else div2 (add_nocarry b M 0).1)
      else (u, b)

/-- Outer loop of the binary extended Euclidean inversion (`inverse`,
GKPP Algorithm 16): halve the even tracked values, then subtract the
smaller pair from the larger, until `u` or `v` reaches 1. -/
def invLoop (M one_ : List Nat) (hf : Nat) :
    Nat → List Nat → List Nat → List Nat → List Nat
    → List Nat × List Nat × List Nat × List Nat
  | 0, u, v, b, c => (u, v, b, c)
  | f + 1, u, v, b, c =>
      if u ≠ one_ ∧ v ≠ one_ then
        if cmp (halveLoop M hf v c).1 (halveLoop M hf u b).1 = Ordering.lt then
          invLoop M one_ hf f
            (sub_noborrow (halveLoop M hf u b).1 (halveLoop M hf v c).1 0).1
            (halveLoop M hf v c).1
            (sub_assign M (halveLoop M hf u b).2 (halveLoop M hf v c).2)
            (halveLoop M hf v c).2
        else
          invLoop M one_ hf f
            (halveLoop M hf u b).1
            (sub_noborrow (halveLoop M hf v c).1 (halveLoop M hf u b).1 0).1
            (halveLoop M hf u b).2
            (sub_assign M (halveLoop M hf v c).2 (halveLoop M hf u b).2)
      else (u, v, b, c)

/-- `Field::inverse`: `None` for zero, otherwise the binary extended
Euclidean algorithm starting from `(u, v) = (repr, MODULUS)` and
`(b, c) = (R2, 0)`, returning whichever coefficient tracks the value
that reached 1. -/
def inverse (n m : Nat) (a : List Nat) : Option (List Nat) :=
  if is_zero a then none
  else
    let r := invLoop (modLimbs n m) (toLimbs n 1) (64 * n) (val a + m)
      a (modLimbs n m) (toLimbs n (R2v n m)) (zeroE n)
    if r.1 = toLimbs n 1 then some r.2.2.1 else some r.2.2.2

/-- Invariant of one tracked pair in the inversion: a well-formed positive
value `u` with a field-element coefficient `b` satisfying
`b · a ≡ u · R2 (mod m)`. -/
def InvSt (n m A : Nat) (u b : List Nat) : Prop :=
  Norm u ∧ u.length = n ∧ 1 ≤ val u ∧ Fe n m b
  ∧ val b * A ≡ val u * R2v n m [MOD m]

/-- The emitted exponent `(m - 3) / 4` for the `m % 4 = 3` square-root
branch (`mod_minus_3_over_4`). -/
def e34 (n m : Nat) : List Nat := toLimbs n ((m - 3) / 4)

/-- The emitted constant `-R`, computed as `m - r` (`rneg`). -/
def rnegL (n m : Nat) : List Nat := toLimbs n (m - Rv n m)

/-- `SqrtField::sqrt` for `m % 4 = 3` (Shank): `a1 = self^((m-3)/4)` and
`a0 = a1^2 * self`; the answer is `None` when `a0 = -R`, else
`Some (a1 * self)`. -/
def sqrt34 (n m inv : Nat) (x : List Nat) : Option (List Nat) :=
  if mul_assign (modLimbs n m) inv
      (square (modLimbs n m) inv (pow (modLimbs n m) inv (oneE n m) x (e34 n m)))
      x = rnegL n m
  then none
  else some (mul_assign (modLimbs n m) inv
    (pow (modLimbs n m) inv (oneE n m) x (e34 n m)) x)

/-- The derive-time constant `S`: the 2-adic valuation of `m - 1`. -/
def sVal (m : Nat) : Nat := (oddSplit (m - 1)).1

/-- The derive-time odd part `t` of `m - 1 = 2^S * t`. -/
def tVal (m : Nat) : Nat := (oddSplit (m - 1)).2

/-- The emitted `ROOT_OF_UNITY`: `generator^t * R mod m`, i.e. the
Montgomery form of `generator^t`. -/
def rootOfUnityL (n m g : Nat) : List Nat :=
  toLimbs n (expNat g (tVal m) m * Rv n m % m)

/-- The emitted exponent `(m - 1) / 2` (`mod_minus_1_over_2`). -/
def e12 (n m : Nat) : List Nat := toLimbs n ((m - 1) / 2)

/-- The emitted exponent `(t + 1) / 2` (`t_plus_1_over_2`). -/
def tp12 (n m : Nat) : List Nat := toLimbs n ((tVal m + 1) / 2)

/-- The emitted exponent `t` (the odd part of `m - 1`). -/
def tL (n m : Nat) : List Nat := toLimbs n (tVal m)

/-- Iterated field squaring (the `for _ in 0..k { c.square(); }` loop). -/
def iterSq (M : List Nat) (inv : Nat) : List Nat → Nat → List Nat
  | x, 0 => x
  | x, k + 1 => iterSq M inv (square M inv x) k

/-- The inner search of the Tonelli-Shanks loop: starting from `t2i = t^2`
and `i = 1`, square until reaching `one`, returning the count `i`; `none`
models the loop not terminating within the fuel. -/
def findI (M one_ : List Nat) (inv : Nat) : Nat → List Nat → Nat → Option Nat
  | 0, _, _ => none
  | f + 1, t2i, i =>
      if t2i = one_ then some i
      else findI M one_ inv f (square M inv t2i) (i + 1)

/-- The Tonelli-Shanks outer loop.  `none` models the three ways the Rust
loop can fail to produce a value: the inner search not terminating, the
unsigned subtraction `m - i - 1` underflowing, and the outer loop not
terminating. -/
def tsLoop (M one_ : List Nat) (inv : Nat) :
    Nat → List Nat → List Nat → List Nat → Nat → Option (List Nat)
  | 0, _, _, _, _ => none
  | f + 1, c, r, t, mm =>
      if t = one_ then some r
      else
        match findI M one_ inv mm (square M inv t) 1 with
        | none => none
        | some i =>
            if mm < i + 1 then none
            else
              tsLoop M one_ inv f
                (square M inv (iterSq M inv c (mm - i - 1)))
                (mul_assign M inv r (iterSq M inv c (mm - i - 1)))
                (mul_assign M inv t (square M inv (iterSq M inv c (mm - i - 1))))
                i

/-- `SqrtField::sqrt` for `m % 16 = 1` (Tonelli-Shanks). -/
def sqrtTS (n m inv g : Nat) (x : List Nat) : Option (List Nat) :=
  if is_zero x then some x
  else if pow (modLimbs n m) inv (oneE n m) x (e12 n m) ≠ oneE n m then none
  else
    tsLoop (modLimbs n m) (oneE n m) inv (sVal m)
      (rootOfUnityL n m g)
      (pow (modLimbs n m) inv (oneE n m) x (tp12 n m))
      (pow (modLimbs n m) inv (oneE n m) x (tL n m))
      (sVal m)

/-- Repeated `div2` (the `for _ in 0..REPR_SHAVE_BITS { tmp.0.div2(); }`
loop of `Rand::rand`). -/
def iterDiv2 : List Nat → Nat → List Nat
  | x, 0 => x
  | x, k + 1 => iterDiv2 (div2 x) k

/-- One attempt of the rejection sampling in `Rand::rand`: shave the top
bits off a raw `Repr` by repeated `div2`, then accept the result only when
`is_valid`. -/
def random_attempt (n m shave : Nat) (raw : List Nat) : Option (List Nat) :=
  if is_valid (modLimbs n m) (iterDiv2 raw shave) then
    some (iterDiv2 raw shave)
  else none


theorem B_pos : 0 < B := by decide

theorem one_lt_B : 1 < B := by decide

@[simp] theorem val_nil : val [] = 0 := rfl

@[simp] theorem val_cons (d : Nat) (l : List Nat) : val (d :: l) = d + B * val l := rfl

@[simp] theorem Norm_nil : Norm [] := by intro x hx; cases hx

theorem Norm_cons {d : Nat} {l : List Nat} : Norm (d :: l) ↔ d < B ∧ Norm l := by
  constructor
  · intro h; exact ⟨h d (List.mem_cons_self _ _), fun x hx => h x (List.mem_cons_of_mem _ hx)⟩
  · rintro ⟨hd, hl⟩ x hx
    rcases List.mem_cons.mp hx with h | h
    · exact h ▸ hd
    · exact hl x h

theorem val_lt {l : List Nat} (h : Norm l) : val l < B ^ l.length := by
  induction l with
  | nil => simp [val]
  | cons d t ih =>
      rcases Norm_cons.mp h with ⟨hd, ht⟩
      have := ih ht
      simp only [val_cons, List.length_cons, pow_succ]
      calc d + B * val t < B + B * val t := by omega
        _ = B * (val t + 1) := by ring
        _ ≤ B * B ^ t.length := by
              have : val t + 1 ≤ B ^ t.length := this
              exact Nat.mul_le_mul_left _ this
        _ = B ^ t.length * B := by ring

theorem val_append (a b : List Nat) :
    val (a ++ b) = val a + B ^ a.length * val b := by
  induction a with
  | nil => simp
  | cons d t ih => simp [val_cons, ih, pow_succ]; ring

@[simp] theorem toLimbs_length (n v : Nat) : (toLimbs n v).length = n := by
  induction n generalizing v with
  | zero => rfl
  | succ n ih => simp [toLimbs, ih]

theorem toLimbs_norm (n v : Nat) : Norm (toLimbs n v) := by
  induction n generalizing v with
  | zero => simp [toLimbs]
  | succ n ih =>
      simp only [toLimbs, Norm_cons]
      exact ⟨Nat.mod_lt _ B_pos, ih _⟩

theorem val_toLimbs (n v : Nat) : val (toLimbs n v) = v % B ^ n := by
  induction n generalizing v with
  | zero => simp [toLimbs, Nat.mod_one]
  | succ n ih =>
      simp only [toLimbs, val_cons, ih, pow_succ]
      rw [mul_comm (B ^ n) B, Nat.mod_mul]

theorem val_toLimbs_of_lt {n v : Nat} (h : v < B ^ n) : val (toLimbs n v) = v := by
  rw [val_toLimbs]; exact Nat.mod_eq_of_lt h

/-- Limb vectors are determined by length and value. -/
theorem toLimbs_val {l : List Nat} (h : Norm l) : toLimbs l.length (val l) = l := by
  induction l with
  | nil => rfl
  | cons d t ih =>
      rcases Norm_cons.mp h with ⟨hd, ht⟩
      simp only [List.length_cons, toLimbs, val_cons]
      rw [Nat.add_mul_mod_self_left, Nat.mod_eq_of_lt hd,
        Nat.add_mul_div_left _ _ B_pos, Nat.div_eq_of_lt hd, Nat.zero_add, ih ht]

theorem val_injective {a b : List Nat} (ha : Norm a) (hb : Norm b)
    (hlen : a.length = b.length) (hval : val a = val b) : a = b := by
  have := toLimbs_val ha
  rw [hval, hlen, toLimbs_val hb] at this
  exact this.symm

theorem B_eq : B = 18446744073709551616 := by norm_num [B]

theorem add_nocarry_spec :
    ∀ (x y : List Nat) (c : Nat), Norm x → Norm y → c ≤ 1 → y.length = x.length →
      val (add_nocarry x y c).1 + B ^ x.length * (add_nocarry x y c).2 = val x + val y + c
      ∧ Norm (add_nocarry x y c).1 ∧ (add_nocarry x y c).1.length = x.length
      ∧ (add_nocarry x y c).2 ≤ 1 := by
  intro x
  induction x with
  | nil => intro y c _ _ hc hlen
           have : y = [] := List.eq_nil_of_length_eq_zero hlen
           subst this
           simp [add_nocarry, hc]
  | cons a xs ih =>
      intro y c hx hy hc hlen
      cases y with
      | nil => simp at hlen
      | cons b ys =>
        rcases Norm_cons.mp hx with ⟨ha, hxs⟩
        rcases Norm_cons.mp hy with ⟨hb, hys⟩
        have hlen' : ys.length = xs.length := by simpa using hlen
        have hB := B_eq
        have hcarry : (a + b + c) / B ≤ 1 := by
          rw [hB]; rw [hB] at ha hb; omega
        obtain ⟨hv, hn, hl, hco⟩ := ih ys ((a + b + c) / B) hxs hys hcarry hlen'
        refine ⟨?_, ?_, ?_, hco⟩
        · simp only [add_nocarry, adc, val_cons, List.length_cons, pow_succ]
          have hshape : B ^ xs.length * B * (add_nocarry xs ys ((a + b + c) / B)).2
              = B * (B ^ xs.length * (add_nocarry xs ys ((a + b + c) / B)).2) := by ring
          rw [hshape]
          have hv2 : B * val (add_nocarry xs ys ((a + b + c) / B)).1
              + B * (B ^ xs.length * (add_nocarry xs ys ((a + b + c) / B)).2)
              = B * (val xs + val ys + (a + b + c) / B) := by
            rw [← Nat.mul_add, hv]
          rw [hB] at hv2 ha hb ⊢
          omega
        · simp only [add_nocarry, adc, Norm_cons]
          exact ⟨Nat.mod_lt _ B_pos, hn⟩
        · simp only [add_nocarry, adc, List.length_cons]
          rw [hl]

theorem sub_noborrow_spec :
    ∀ (x y : List Nat) (c : Nat), Norm x → Norm y → c ≤ 1 → y.length = x.length →
      val (sub_noborrow x y c).1 + val y + c = val x + B ^ x.length * (sub_noborrow x y c).2
      ∧ Norm (sub_noborrow x y c).1 ∧ (sub_noborrow x y c).1.length = x.length
      ∧ (sub_noborrow x y c).2 ≤ 1 := by
  intro x
  induction x with
  | nil => intro y c _ _ hc hlen
           have : y = [] := List.eq_nil_of_length_eq_zero hlen
           subst this
           simp [sub_noborrow, hc]
  | cons a xs ih =>
      intro y c hx hy hc hlen
      cases y with
      | nil => simp at hlen
      | cons b ys =>
        rcases Norm_cons.mp hx with ⟨ha, hxs⟩
        rcases Norm_cons.mp hy with ⟨hb, hys⟩
        have hlen' : ys.length = xs.length := by simpa using hlen
        have hB := B_eq
        have hbr : (if a < b + c then 1 else 0) ≤ 1 := by split <;> omega
        obtain ⟨hv, hn, hl, hco⟩ := ih ys _ hxs hys hbr hlen'
        refine ⟨?_, ?_, ?_, hco⟩
        · simp only [sub_noborrow, sbb, val_cons, List.length_cons, pow_succ]
          have hshape : B ^ xs.length * B * (sub_noborrow xs ys (if a < b + c then 1 else 0)).2
              = B * (B ^ xs.length * (sub_noborrow xs ys (if a < b + c then 1 else 0)).2) := by
            ring
          rw [hshape]
          have hv2 : B * val (sub_noborrow xs ys (if a < b + c then 1 else 0)).1
              + B * (val ys + (if a < b + c then 1 else 0))
              = B * val xs
                + B * (B ^ xs.length * (sub_noborrow xs ys (if a < b + c then 1 else 0)).2) := by
            rw [← Nat.mul_add, ← Nat.mul_add, ← Nat.add_assoc, hv]
          rcases Nat.lt_or_ge a (b + c) with hab | hab
          · simp only [if_pos hab] at hv2 ⊢
            rw [hB] at hv2 ha hb ⊢
            omega
          · simp only [if_neg (Nat.not_lt.mpr hab)] at hv2 ⊢
            rw [hB] at hv2 ha hb ⊢
            omega
        · simp only [sub_noborrow, sbb, Norm_cons]
          exact ⟨Nat.mod_lt _ B_pos, hn⟩
        · simp only [sub_noborrow, sbb, List.length_cons]
          rw [hl]

theorem pow63_eq : (2 : Nat) ^ 63 = 9223372036854775808 := by norm_num

theorem div2_spec :
    ∀ (x : List Nat), Norm x →
      val (div2 x) = val x / 2 ∧ Norm (div2 x) ∧ (div2 x).length = x.length := by
  intro x
  induction x with
  | nil => simp [div2]
  | cons a xs ih =>
      intro hx
      rcases Norm_cons.mp hx with ⟨ha, hxs⟩
      cases xs with
      | nil =>
        refine ⟨?_, ?_, rfl⟩
        · simp only [div2, val_cons, val_nil]
          omega
        · simp only [div2, Norm_cons]
          exact ⟨by rw [B_eq] at ha ⊢; omega, Norm_nil⟩
      | cons b ys =>
        obtain ⟨hv, hn, hl⟩ := ih hxs
        rcases Norm_cons.mp hxs with ⟨hb, hys⟩
        refine ⟨?_, ?_, ?_⟩
        · simp only [div2, val_cons] at hv ⊢
          rw [B_eq] at hv ha hb ⊢
          rw [pow63_eq]
          omega
        · simp only [div2, Norm_cons] at hn ⊢
          refine ⟨?_, hn⟩
          rw [B_eq] at ha hb ⊢
          rw [pow63_eq]
          omega
        · simp only [div2, List.length_cons] at hl ⊢
          rw [hl]

theorem mul2_spec :
    ∀ (x : List Nat) (c : Nat), Norm x → c ≤ 1 →
      val (mul2 x c).1 + B ^ x.length * (mul2 x c).2 = 2 * val x + c
      ∧ Norm (mul2 x c).1 ∧ (mul2 x c).1.length = x.length ∧ (mul2 x c).2 ≤ 1 := by
  intro x
  induction x with
  | nil => intro c _ hc; simpa [mul2] using hc
  | cons a xs ih =>
      intro c hx hc
      rcases Norm_cons.mp hx with ⟨ha, hxs⟩
      have hbit : a / 2 ^ 63 ≤ 1 := by
        rw [pow63_eq]; rw [B_eq] at ha; omega
      obtain ⟨hv, hn, hl, hco⟩ := ih (a / 2 ^ 63) hxs hbit
      refine ⟨?_, ?_, ?_, hco⟩
      · simp only [mul2, val_cons, List.length_cons]
        have hshape : B ^ (xs.length + 1) * (mul2 xs (a / 2 ^ 63)).2
            = B * (B ^ xs.length * (mul2 xs (a / 2 ^ 63)).2) := by ring
        rw [hshape]
        have hv2 : B * val (mul2 xs (a / 2 ^ 63)).1
            + B * (B ^ xs.length * (mul2 xs (a / 2 ^ 63)).2)
            = B * (2 * val xs + a / 2 ^ 63) := by
          rw [← Nat.mul_add, hv]
        rw [B_eq] at hv2 ha ⊢
        rw [pow63_eq] at hv2 ⊢
        omega
      · simp only [mul2, Norm_cons]
        refine ⟨?_, hn⟩
        rw [B_eq] at ha ⊢
        rw [pow63_eq]
        omega
      · simp only [mul2, List.length_cons]
        rw [hl]

theorem is_odd_iff {l : List Nat} : is_odd l = true ↔ val l % 2 = 1 := by
  cases l with
  | nil => simp [is_odd, val]
  | cons a xs =>
      simp only [is_odd, List.headD, val_cons, beq_iff_eq]
      rw [B_eq]
      constructor
      · intro h; omega
      · intro h; omega

theorem is_zero_iff {l : List Nat} : is_zero l = true ↔ val l = 0 := by
  induction l with
  | nil => simp [is_zero, val]
  | cons a xs ih =>
      simp only [is_zero, List.all_cons, Bool.and_eq_true, beq_iff_eq, val_cons] at *
      have := B_pos
      constructor
      · rintro ⟨h1, h2⟩; rw [h1, ih.mp h2]; ring
      · intro h
        have ha : a = 0 := by omega
        have hx : val xs = 0 := by
          have h' : B * val xs = 0 := by omega
          rcases Nat.mul_eq_zero.mp h' with h'' | h''
          · omega
          · exact h''
        exact ⟨ha, ih.mpr hx⟩

theorem cmp_spec :
    ∀ (x y : List Nat), Norm x → Norm y → y.length = x.length →
      cmp x y = compare (val x) (val y) := by
  intro x
  induction x with
  | nil => intro y _ _ hlen
           have : y = [] := List.eq_nil_of_length_eq_zero hlen
           subst this; rfl
  | cons a xs ih =>
      intro y hx hy hlen
      cases y with
      | nil => simp at hlen
      | cons b ys =>
        rcases Norm_cons.mp hx with ⟨ha, hxs⟩
        rcases Norm_cons.mp hy with ⟨hb, hys⟩
        have hlen' : ys.length = xs.length := by simpa using hlen
        have h := ih ys hxs hys hlen'
        simp only [cmp, h, val_cons]
        rcases Nat.lt_trichotomy (val xs) (val ys) with hlt | heq | hgt
        · rw [Nat.compare_eq_lt.mpr hlt]
          have hbig : a + B * val xs < b + B * val ys := by
            have h2 : B * val xs + B ≤ B * val ys := by
              have h1 : val xs + 1 ≤ val ys := hlt
              calc B * val xs + B = B * (val xs + 1) := by ring
                _ ≤ B * val ys := Nat.mul_le_mul_left _ h1
            omega
          rw [Nat.compare_eq_lt.mpr hbig]
        · rw [heq, Nat.compare_eq_eq.mpr rfl]
          rcases Nat.lt_trichotomy a b with h' | h' | h'
          · rw [Nat.compare_eq_lt.mpr h', Nat.compare_eq_lt.mpr (by omega)]
          · rw [h', Nat.compare_eq_eq.mpr rfl, Nat.compare_eq_eq.mpr rfl]
          · rw [Nat.compare_eq_gt.mpr h', Nat.compare_eq_gt.mpr (by omega)]
        · rw [Nat.compare_eq_gt.mpr hgt]
          have hbig : b + B * val ys < a + B * val xs := by
            have h2 : B * val ys + B ≤ B * val xs := by
              have h1 : val ys + 1 ≤ val xs := hgt
              calc B * val ys + B = B * (val ys + 1) := by ring
                _ ≤ B * val xs := Nat.mul_le_mul_left _ h1
            omega
          rw [Nat.compare_eq_gt.mpr hbig]

theorem ordering_beq_iff (o p : Ordering) : (o == p) = true ↔ o = p := by
  cases o <;> cases p <;> decide

theorem is_valid_iff {M x : List Nat} (hM : Norm M) (hx : Norm x)
    (hlen : x.length = M.length) : is_valid M x = true ↔ val x < val M := by
  have h := cmp_spec x M hx hM hlen.symm
  simp only [is_valid, h, ordering_beq_iff]
  exact Nat.compare_eq_lt

theorem reduce_spec {M x : List Nat} (hM : Norm M) (hx : Norm x)
    (hlen : x.length = M.length) (hlt : val x < 2 * val M) :
    Norm (reduce M x) ∧ (reduce M x).length = M.length
    ∧ val (reduce M x) = val x % val M := by
  unfold reduce
  by_cases hv : is_valid M x = true
  · rw [if_pos hv]
    have := (is_valid_iff hM hx hlen).mp hv
    exact ⟨hx, hlen, (Nat.mod_eq_of_lt this).symm⟩
  · rw [if_neg hv]
    have hge : val M ≤ val x := by
      rcases Nat.lt_or_ge (val x) (val M) with h | h
      · exact absurd ((is_valid_iff hM hx hlen).mpr h) hv
      · exact h
    obtain ⟨hveq, hn, hl, hbo⟩ := sub_noborrow_spec x M 0 hx hM (by omega) hlen.symm
    have hxlt : val (sub_noborrow x M 0).1 < B ^ x.length := by
      have := val_lt hn
      rwa [hl] at this
    have hbo0 : (sub_noborrow x M 0).2 = 0 := by
      rcases Nat.le_one_iff_eq_zero_or_eq_one.mp hbo with h1 | h1
      · exact h1
      · exfalso
        rw [h1, Nat.mul_one] at hveq
        omega
    rw [hbo0, Nat.mul_zero, Nat.add_zero] at hveq
    refine ⟨hn, hlen ▸ hl, ?_⟩
    have hsub : val (sub_noborrow x M 0).1 = val x - val M := by omega
    rw [hsub, Nat.mod_eq_sub_mod hge, Nat.mod_eq_of_lt (by omega)]

theorem add_nocarry_no_overflow {M a b : List Nat} (hM : Norm M)
    (ha : Norm a) (hb : Norm b)
    (hal : a.length = M.length) (hbl : b.length = M.length)
    (hva : val a < val M) (hvb : val b < val M)
    (hcap : 2 * val M ≤ B ^ M.length) :
    (add_nocarry a b 0).2 = 0
    ∧ val (add_nocarry a b 0).1 = val a + val b
    ∧ Norm (add_nocarry a b 0).1 ∧ (add_nocarry a b 0).1.length = M.length := by
  obtain ⟨hveq, hn, hl, hco⟩ :=
    add_nocarry_spec a b 0 ha hb (by omega) (by omega)
  rw [hal] at hveq
  have hco0 : (add_nocarry a b 0).2 = 0 := by
    rcases Nat.le_one_iff_eq_zero_or_eq_one.mp hco with h1 | h1
    · exact h1
    · exfalso
      rw [h1, Nat.mul_one] at hveq
      omega
  rw [hco0, Nat.mul_zero, Nat.add_zero] at hveq
  exact ⟨hco0, by omega, hn, by omega⟩

theorem add_assign_spec {M a b : List Nat} (hM : Norm M)
    (ha : Norm a) (hb : Norm b)
    (hal : a.length = M.length) (hbl : b.length = M.length)
    (hva : val a < val M) (hvb : val b < val M)
    (hcap : 2 * val M ≤ B ^ M.length) :
    Norm (add_assign M a b) ∧ (add_assign M a b).length = M.length
    ∧ val (add_assign M a b) = (val a + val b) % val M := by
  unfold add_assign
  obtain ⟨hco0, hveq, hn, hl⟩ := add_nocarry_no_overflow hM ha hb hal hbl hva hvb hcap
  obtain ⟨h1, h2, h3⟩ := reduce_spec hM hn hl (by omega)
  exact ⟨h1, h2, by rw [h3, hveq]⟩

theorem mul2_no_overflow {M a : List Nat} (hM : Norm M) (ha : Norm a)
    (hal : a.length = M.length) (hva : val a < val M)
    (hcap : 2 * val M ≤ B ^ M.length) :
    (mul2 a 0).2 = 0 ∧ val (mul2 a 0).1 = 2 * val a
    ∧ Norm (mul2 a 0).1 ∧ (mul2 a 0).1.length = M.length := by
  obtain ⟨hveq, hn, hl, hco⟩ := mul2_spec a 0 ha (by omega)
  rw [hal] at hveq
  have hco0 : (mul2 a 0).2 = 0 := by
    rcases Nat.le_one_iff_eq_zero_or_eq_one.mp hco with h1 | h1
    · exact h1
    · exfalso
      rw [h1, Nat.mul_one] at hveq
      omega
  rw [hco0, Nat.mul_zero, Nat.add_zero] at hveq
  exact ⟨hco0, by omega, hn, by omega⟩

theorem double_spec {M a : List Nat} (hM : Norm M) (ha : Norm a)
    (hal : a.length = M.length) (hva : val a < val M)
    (hcap : 2 * val M ≤ B ^ M.length) :
    Norm (double M a) ∧ (double M a).length = M.length
    ∧ val (double M a) = (2 * val a) % val M := by
  unfold double
  obtain ⟨hco0, hveq, hn, hl⟩ := mul2_no_overflow hM ha hal hva hcap
  obtain ⟨h1, h2, h3⟩ := reduce_spec hM hn hl (by omega)
  exact ⟨h1, h2, by rw [h3, hveq]⟩

theorem sub_assign_spec {M a b : List Nat} (hM : Norm M)
    (ha : Norm a) (hb : Norm b)
    (hal : a.length = M.length) (hbl : b.length = M.length)
    (hva : val a < val M) (hvb : val b < val M)
    (hcap : 2 * val M ≤ B ^ M.length) :
    Norm (sub_assign M a b) ∧ (sub_assign M a b).length = M.length
    ∧ val (sub_assign M a b) = (val a + val M - val b) % val M := by
  unfold sub_assign
  have hcmp := cmp_spec b a hb ha (by omega)
  by_cases hgt : cmp b a = Ordering.gt
  · rw [if_pos hgt]
    have hba : val a < val b := Nat.compare_eq_gt.mp (hcmp ▸ hgt)
    obtain ⟨hveq, hn, hl, hco⟩ := add_nocarry_spec a M 0 ha hM (by omega) hal.symm
    rw [hal] at hveq
    have hco0 : (add_nocarry a M 0).2 = 0 := by
      rcases Nat.le_one_iff_eq_zero_or_eq_one.mp hco with h1 | h1
      · exact h1
      · exfalso
        rw [h1, Nat.mul_one] at hveq
        omega
    rw [hco0, Nat.mul_zero, Nat.add_zero] at hveq
    obtain ⟨hs, hsn, hsl, hsbo⟩ := sub_noborrow_spec _ b 0 hn hb (by omega) (by omega)
    have hlt2 : val (sub_noborrow (add_nocarry a M 0).1 b 0).1
        < B ^ (add_nocarry a M 0).1.length := by
      have := val_lt hsn
      rwa [hsl] at this
    rw [hl, hal] at hlt2 hs
    have hbo0 : (sub_noborrow (add_nocarry a M 0).1 b 0).2 = 0 := by
      rcases Nat.le_one_iff_eq_zero_or_eq_one.mp hsbo with h1 | h1
      · exact h1
      · exfalso
        rw [h1, Nat.mul_one, hveq] at hs
        omega
    rw [hbo0, Nat.mul_zero, Nat.add_zero, hveq] at hs
    refine ⟨hsn, by omega, ?_⟩
    have hres : val (sub_noborrow (add_nocarry a M 0).1 b 0).1 = val a + val M - val b := by
      omega
    rw [hres, Nat.mod_eq_of_lt]
    omega
  · rw [if_neg hgt]
    have hba : val b ≤ val a := by
      rcases Nat.lt_or_ge (val a) (val b) with h | h
      · exact absurd (hcmp.trans (Nat.compare_eq_gt.mpr h)) hgt
      · exact h
    obtain ⟨hs, hsn, hsl, hsbo⟩ := sub_noborrow_spec a b 0 ha hb (by omega) (by omega)
    have hlt2 : val (sub_noborrow a b 0).1 < B ^ a.length := by
      have := val_lt hsn
      rwa [hsl] at this
    have hva2 : val a < B ^ a.length := val_lt ha
    have hbo0 : (sub_noborrow a b 0).2 = 0 := by
      rcases Nat.le_one_iff_eq_zero_or_eq_one.mp hsbo with h1 | h1
      · exact h1
      · exfalso
        rw [h1, Nat.mul_one] at hs
        omega
    rw [hbo0, Nat.mul_zero, Nat.add_zero] at hs
    refine ⟨hsn, by omega, ?_⟩
    have hres : val (sub_noborrow a b 0).1 = val a - val b := by omega
    rw [hres]
    have h1 : val a + val M - val b = (val a - val b) + val M := by omega
    rw [h1, Nat.add_mod_right, Nat.mod_eq_of_lt (by omega)]

theorem negate_spec {M a : List Nat} (hM : Norm M) (ha : Norm a)
    (hal : a.length = M.length) (hva : val a < val M) :
    Norm (negate M a) ∧ (negate M a).length = M.length
    ∧ val (negate M a) = (val M - val a) % val M := by
  unfold negate
  by_cases hz : is_zero a = true
  · rw [if_pos hz]
    have h0 : val a = 0 := is_zero_iff.mp hz
    refine ⟨ha, hal, ?_⟩
    rw [h0, Nat.sub_zero, Nat.mod_self]
  · rw [if_neg hz]
    have h0 : val a ≠ 0 := fun h => hz (is_zero_iff.mpr h)
    obtain ⟨hs, hsn, hsl, hsbo⟩ := sub_noborrow_spec M a 0 hM ha (by omega) hal
    have hlt2 : val (sub_noborrow M a 0).1 < B ^ M.length := by
      have := val_lt hsn
      rwa [hsl] at this
    have hMlt : val M < B ^ M.length := val_lt hM
    have hbo0 : (sub_noborrow M a 0).2 = 0 := by
      rcases Nat.le_one_iff_eq_zero_or_eq_one.mp hsbo with h1 | h1
      · exact h1
      · exfalso
        rw [h1, Nat.mul_one] at hs
        omega
    rw [hbo0, Nat.mul_zero, Nat.add_zero] at hs
    refine ⟨hsn, hsl, ?_⟩
    have hres : val (sub_noborrow M a 0).1 = val M - val a := by omega
    rw [hres, Nat.mod_eq_of_lt (by omega)]

theorem Norm_tail {l : List Nat} (h : Norm l) : Norm l.tail := by
  cases l with
  | nil => exact h
  | cons a xs => exact (Norm_cons.mp h).2

theorem headD_lt {l : List Nat} (h : Norm l) : l.headD 0 < B := by
  cases l with
  | nil => exact B_pos
  | cons a xs => exact (Norm_cons.mp h).1

theorem val_headD_tail (l : List Nat) : val l = l.headD 0 + B * val l.tail := by
  cases l with
  | nil => simp
  | cons a xs => rfl

theorem mulRow_spec {ai : Nat} (hai : ai < B) :
    ∀ (b acc : List Nat) (carry : Nat), Norm b → Norm acc → carry < B →
      acc.length ≤ b.length →
      val (mulRow ai b acc carry) = val acc + ai * val b + carry
      ∧ Norm (mulRow ai b acc carry) ∧ (mulRow ai b acc carry).length = b.length + 1 := by
  intro b
  induction b with
  | nil =>
      intro acc carry _ _ hcar hlen
      have : acc = [] := List.eq_nil_of_length_eq_zero (by simpa using hlen)
      subst this
      refine ⟨by simp [mulRow], ?_, rfl⟩
      simp only [mulRow, Norm_cons]
      exact ⟨hcar, Norm_nil⟩
  | cons bj bs ih =>
      intro acc carry hb hacc hcar hlen
      rcases Norm_cons.mp hb with ⟨hbj, hbs⟩
      have hh : acc.headD 0 < B := headD_lt hacc
      have hprod : ai * bj ≤ (B - 1) * (B - 1) :=
        Nat.mul_le_mul (by omega) (by omega)
      have hcar2 : (acc.headD 0 + ai * bj + carry) / B < B := by
        rw [B_eq] at hh hcar hprod ⊢
        omega
      have htail : acc.tail.length ≤ bs.length := by
        cases acc <;> simp at hlen ⊢ <;> omega
      obtain ⟨hv, hn, hl⟩ := ih acc.tail _ hbs (Norm_tail hacc) hcar2 htail
      refine ⟨?_, ?_, ?_⟩
      · simp only [mulRow, mac_with_carry, val_cons, hv]
        have hsplit := val_headD_tail acc
        have hdm := Nat.div_add_mod (acc.headD 0 + ai * bj + carry) B
        have hdist : ai * (bj + B * val bs) = ai * bj + B * (ai * val bs) := by ring
        rw [hsplit, hdist]
        have hdist2 : B * (val acc.tail + ai * val bs
            + (acc.headD 0 + ai * bj + carry) / B)
            = B * val acc.tail + B * (ai * val bs)
              + B * ((acc.headD 0 + ai * bj + carry) / B) := by ring
        rw [hdist2]
        omega
      · simp only [mulRow, Norm_cons, mac_with_carry]
        exact ⟨Nat.mod_lt _ B_pos, hn⟩
      · simp only [mulRow, mac_with_carry, List.length_cons]
        rw [hl]

theorem mulAcc_spec :
    ∀ (a b acc : List Nat), Norm a → Norm b → Norm acc → acc.length ≤ b.length →
      val (mulAcc a b acc) = val acc + val a * val b
      ∧ Norm (mulAcc a b acc)
      ∧ (a = [] → mulAcc a b acc = acc)
      ∧ (a ≠ [] → (mulAcc a b acc).length = a.length + b.length) := by
  intro a
  induction a with
  | nil =>
      intro b acc _ _ hacc _
      exact ⟨by simp [mulAcc], hacc, fun _ => rfl, fun h => absurd rfl h⟩
  | cons ai arest ih =>
      intro b acc ha hb hacc hlen
      rcases Norm_cons.mp ha with ⟨hai, harest⟩
      obtain ⟨hrv, hrn, hrl⟩ := mulRow_spec hai b acc 0 hb hacc B_pos hlen
      have htail : (mulRow ai b acc 0).tail.length ≤ b.length := by
        rw [List.length_tail, hrl]; omega
      obtain ⟨hv, hn, hemp, hlen2⟩ := ih b _ harest hb (Norm_tail hrn) htail
      refine ⟨?_, ?_, fun h => by simp at h, fun _ => ?_⟩
      · simp only [mulAcc, val_cons, hv]
        have hsplit := val_headD_tail (mulRow ai b acc 0)
        have hdist : (ai + B * val arest) * val b
            = ai * val b + B * (val arest * val b) := by ring
        have hdist2 : B * (val (mulRow ai b acc 0).tail + val arest * val b)
            = B * val (mulRow ai b acc 0).tail + B * (val arest * val b) := by ring
        rw [hdist, hdist2]
        omega
      · simp only [mulAcc, Norm_cons]
        exact ⟨headD_lt hrn, hn⟩
      · simp only [mulAcc, List.length_cons]
        by_cases h0 : arest = []
        · subst h0
          rw [hemp rfl, List.length_tail, hrl, List.length_nil]
          omega
        · rw [hlen2 h0]
          omega

theorem mulLimbs_spec {a b : List Nat} (ha : Norm a) (hb : Norm b) :
    val (mulLimbs a b) = val a * val b ∧ Norm (mulLimbs a b)
    ∧ (a ≠ [] → (mulLimbs a b).length = a.length + b.length) := by
  obtain ⟨hv, hn, _, hl⟩ := mulAcc_spec a b [] ha hb Norm_nil (by simp)
  exact ⟨by simpa using hv, hn, hl⟩

theorem crossVal_identity :
    ∀ l : List Nat, 2 * (B * crossVal l) + diagVal l = val l * val l := by
  intro l
  induction l with
  | nil => rfl
  | cons ai arest ih =>
      calc 2 * (B * crossVal (ai :: arest)) + diagVal (ai :: arest)
          = (ai * ai + 2 * B * (ai * val arest))
            + B * B * (2 * (B * crossVal arest) + diagVal arest) := by
              simp only [crossVal, diagVal]; ring
        _ = (ai * ai + 2 * B * (ai * val arest)) + B * B * (val arest * val arest) := by
              rw [ih]
        _ = val (ai :: arest) * val (ai :: arest) := by
              simp only [val_cons]; ring

theorem sqrCross_spec :
    ∀ (l acc : List Nat), Norm l → Norm acc → acc.length + 1 ≤ l.length →
      val (sqrCross l acc) = val acc + crossVal l
      ∧ Norm (sqrCross l acc) ∧ (sqrCross l acc).length = 2 * (l.length - 1) := by
  intro l
  induction l with
  | nil => intro acc _ _ hlen; simp at hlen
  | cons ai as ih =>
      intro acc hl hacc hlen
      rcases Norm_cons.mp hl with ⟨hai, has⟩
      cases as with
      | nil =>
          have : acc = [] := List.eq_nil_of_length_eq_zero (by simpa using hlen)
          subst this
          refine ⟨by simp [sqrCross, crossVal], Norm_nil, by simp [sqrCross]⟩
      | cons a1 arest =>
          have hlen2 : acc.length ≤ (a1 :: arest).length := by
            simpa using hlen
          obtain ⟨hrv, hrn, hrl⟩ := mulRow_spec hai (a1 :: arest) acc 0 has hacc B_pos hlen2
          have htail : (mulRow ai (a1 :: arest) acc 0).tail.tail.length + 1
              ≤ (a1 :: arest).length := by
            simp only [List.length_tail, hrl]
            simp
          obtain ⟨hv, hn, hlo⟩ :=
            ih _ has (Norm_tail (Norm_tail hrn)) htail
          refine ⟨?_, ?_, ?_⟩
          · simp only [sqrCross, val_cons, hv]
            have h1 := val_headD_tail (mulRow ai (a1 :: arest) acc 0)
            have h2 := val_headD_tail (mulRow ai (a1 :: arest) acc 0).tail
            simp only [crossVal]
            have hgoal : ∀ r0 r1 t2 va cv : Nat,
                r0 + B * r1 + B * B * t2 = va + ai * val (a1 :: arest) →
                r0 + B * (r1 + B * (t2 + cv))
                = va + (ai * val (a1 :: arest) + B * B * cv) := by
              intro r0 r1 t2 va cv h
              have e1 : r0 + B * (r1 + B * (t2 + cv))
                  = (r0 + B * r1 + B * B * t2) + B * B * cv := by ring
              rw [e1, h]
              ring
            refine hgoal _ _ _ _ _ ?_
            have e2 : val (mulRow ai (a1 :: arest) acc 0)
                = (mulRow ai (a1 :: arest) acc 0).headD 0
                  + B * ((mulRow ai (a1 :: arest) acc 0).tail.headD 0
                    + B * val (mulRow ai (a1 :: arest) acc 0).tail.tail) := by
              rw [h1, h2]
            have e3 : (mulRow ai (a1 :: arest) acc 0).headD 0
                + B * ((mulRow ai (a1 :: arest) acc 0).tail.headD 0
                  + B * val (mulRow ai (a1 :: arest) acc 0).tail.tail)
                = (mulRow ai (a1 :: arest) acc 0).headD 0
                  + B * (mulRow ai (a1 :: arest) acc 0).tail.headD 0
                  + B * B * val (mulRow ai (a1 :: arest) acc 0).tail.tail := by ring
            rw [← e3, ← e2, hrv]
            omega
          · simp only [sqrCross, Norm_cons]
            exact ⟨headD_lt hrn, headD_lt (Norm_tail hrn), hn⟩
          · simp only [sqrCross, List.length_cons, hlo]
            omega

theorem sqrShift_spec {cl : List Nat} (h : Norm cl) :
    val (sqrShift cl) = 2 * val cl ∧ Norm (sqrShift cl)
    ∧ (sqrShift cl).length = cl.length + 1 := by
  obtain ⟨hv, hn, hl, hc⟩ := mul2_spec cl 0 h (by omega)
  unfold sqrShift
  refine ⟨?_, ?_, ?_⟩
  · rw [val_append, hl]
    simp only [val_cons, val_nil, Nat.mul_zero, Nat.add_zero]
    omega
  · intro x hx
    rcases List.mem_append.mp hx with h1 | h1
    · exact hn x h1
    · have : x = (mul2 cl 0).2 := by simpa using h1
      subst this
      have := one_lt_B
      omega
  · simp [hl]

theorem sqrDiag_spec :
    ∀ (l acc : List Nat) (carry : Nat), Norm l → Norm acc → carry < B →
      ∃ co, val (sqrDiag l acc carry) + B ^ (2 * l.length) * co
          = val (acc.take (2 * l.length)) + diagVal l + carry
        ∧ Norm (sqrDiag l acc carry) ∧ (sqrDiag l acc carry).length = 2 * l.length := by
  intro l
  induction l with
  | nil =>
      intro acc carry _ _ _
      exact ⟨carry, by simp [sqrDiag, diagVal], Norm_nil, rfl⟩
  | cons ai arest ih =>
      intro acc carry hl hacc hcar
      rcases Norm_cons.mp hl with ⟨hai, harest⟩
      have hh0 : acc.headD 0 < B := headD_lt hacc
      have hh1 : acc.tail.headD 0 < B := headD_lt (Norm_tail hacc)
      have hprod : ai * ai ≤ (B - 1) * (B - 1) := Nat.mul_le_mul (by omega) (by omega)
      have ht0 : (acc.headD 0 + ai * ai + carry) / B < B := by
        rw [B_eq] at hh0 hcar hprod ⊢
        omega
      have ht1 : (acc.tail.headD 0 + 0 + (acc.headD 0 + ai * ai + carry) / B) / B < B := by
        rw [B_eq] at hh0 hh1 hcar hprod ⊢
        omega
      obtain ⟨co, hv, hn, hlo⟩ := ih acc.tail.tail _ harest (Norm_tail (Norm_tail hacc)) ht1
      refine ⟨co, ?_, ?_, ?_⟩
      · simp only [sqrDiag, mac_with_carry, adc, val_cons, diagVal]
        have e0 : acc.take (2 * (ai :: arest).length)
            = acc.take (2 * arest.length + 2) := by
          simp only [List.length_cons]
          congr 1
        have e1 : (acc.take (2 * arest.length + 2)).headD 0 = acc.headD 0 := by
          cases acc <;> simp
        have e2 : (acc.take (2 * arest.length + 2)).tail
            = acc.tail.take (2 * arest.length + 1) := by
          cases acc <;> simp
        have e3 : (acc.tail.take (2 * arest.length + 1)).headD 0 = acc.tail.headD 0 := by
          cases htl : acc.tail <;> simp
        have e4 : (acc.tail.take (2 * arest.length + 1)).tail
            = acc.tail.tail.take (2 * arest.length) := by
          cases htl : acc.tail <;> simp
        have hsplit : val (acc.take (2 * (ai :: arest).length))
            = acc.headD 0 + B * (acc.tail.headD 0
              + B * val (acc.tail.tail.take (2 * arest.length))) := by
          rw [e0]
          rw [val_headD_tail (acc.take (2 * arest.length + 2)), e1, e2]
          rw [val_headD_tail (acc.tail.take (2 * arest.length + 1)), e3, e4]
        rw [hsplit]
        have hshape : B ^ (2 * (ai :: arest).length) * co
            = B * (B * (B ^ (2 * arest.length) * co)) := by
          simp only [List.length_cons]
          have e5 : 2 * (arest.length + 1) = 2 * arest.length + 2 := by ring
          rw [e5, pow_add]
          ring
        rw [hshape]
        rw [B_eq] at hv hh0 hh1 hcar hprod ⊢
        omega
      · simp only [sqrDiag, Norm_cons, mac_with_carry, adc]
        exact ⟨Nat.mod_lt _ B_pos, Nat.mod_lt _ B_pos, hn⟩
      · simp only [sqrDiag, mac_with_carry, adc, List.length_cons, hlo]
        omega

theorem sqrLimbs_spec {a : List Nat} (ha : Norm a) (hne : a ≠ []) :
    val (sqrLimbs a) = val a * val a ∧ Norm (sqrLimbs a)
    ∧ (sqrLimbs a).length = 2 * a.length := by
  unfold sqrLimbs
  have hlen1 : (1 : Nat) ≤ a.length := by
    cases a
    · exact absurd rfl hne
    · simp
  obtain ⟨hcv, hcn, hcl⟩ := sqrCross_spec a [] ha Norm_nil (by simpa using hlen1)
  obtain ⟨hsv, hsn, hsl⟩ := sqrShift_spec hcn
  have haccn : Norm (0 :: sqrShift (sqrCross a [])) := Norm_cons.mpr ⟨B_pos, hsn⟩
  have haccl : (0 :: sqrShift (sqrCross a [])).length = 2 * a.length := by
    simp only [List.length_cons, hsl, hcl]
    omega
  obtain ⟨co, hv, hn, hl⟩ := sqrDiag_spec a _ 0 ha haccn B_pos
  have htake : (0 :: sqrShift (sqrCross a [])).take (2 * a.length)
      = 0 :: sqrShift (sqrCross a []) := List.take_of_length_le (by omega)
  rw [htake] at hv
  have hval : val (0 :: sqrShift (sqrCross a [])) = 2 * (B * crossVal a) := by
    simp only [val_cons, hsv, hcv]
    simp only [val_nil]
    ring
  rw [hval, Nat.add_zero] at hv
  have hid := crossVal_identity a
  have hsq : val a * val a < B ^ (2 * a.length) := by
    have h1 : val a < B ^ a.length := val_lt ha
    have h2 : B ^ (2 * a.length) = B ^ a.length * B ^ a.length := by
      rw [two_mul, pow_add]
    rw [h2]
    exact Nat.mul_lt_mul_of_lt_of_lt h1 h1
  have hco : co = 0 := by
    rcases Nat.eq_zero_or_pos co with h | h
    · exact h
    · exfalso
      have : B ^ (2 * a.length) ≤ B ^ (2 * a.length) * co :=
        Nat.le_mul_of_pos_right _ h
      omega
  rw [hco, Nat.mul_zero, Nat.add_zero] at hv
  exact ⟨by omega, hn, hl⟩

/-- Key refinement fact: the specialised squaring routine produces exactly
the same double-width limb vector as the general product of `a` with
itself. -/
theorem sqrLimbs_eq_mulLimbs {a : List Nat} (ha : Norm a) (hne : a ≠ []) :
    sqrLimbs a = mulLimbs a a := by
  obtain ⟨h1, h2, h3⟩ := sqrLimbs_spec ha hne
  obtain ⟨h4, h5, h6⟩ := mulLimbs_spec ha ha
  exact val_injective h2 h5 (by rw [h3, h6 hne]; ring) (by rw [h1, h4])

theorem val_take_drop (l : List Nat) (j : Nat) (h : j ≤ l.length) :
    val l = val (l.take j) + B ^ j * val (l.drop j) := by
  conv_lhs => rw [← List.take_append_drop j l]
  rw [val_append, List.length_take, Nat.min_eq_left h]

theorem low_limb_zero {inv m0 : Nat} (hinv : (inv * m0 + 1) % B = 0) (r0 : Nat) :
    (r0 + r0 * inv % B * m0) % B = 0 := by
  have h1 : r0 * inv % B * m0 ≡ r0 * inv * m0 [MOD B] :=
    Nat.ModEq.mul_right m0 (Nat.mod_modEq _ _)
  have h2 : r0 + r0 * inv % B * m0 ≡ r0 + r0 * inv * m0 [MOD B] :=
    Nat.ModEq.add_left r0 h1
  have h3 : r0 + r0 * inv * m0 = r0 * (inv * m0 + 1) := by ring
  have h4 : r0 * (inv * m0 + 1) ≡ r0 * 0 [MOD B] := by
    refine Nat.ModEq.mul_left r0 ?_
    show (inv * m0 + 1) % B = 0 % B
    simpa using hinv
  have h5 : r0 + r0 * inv % B * m0 ≡ 0 [MOD B] := by
    refine h2.trans ?_
    rw [h3]
    simpa using h4
  simpa using h5

theorem macChain_spec {k : Nat} (hk : k < B) :
    ∀ (ms acc : List Nat) (carry : Nat), Norm ms → Norm acc → carry < B →
      ms.length ≤ acc.length →
      val (macChain k ms acc carry).1 + B ^ ms.length * (macChain k ms acc carry).2.2
        = val (acc.take ms.length) + k * val ms + carry
      ∧ (macChain k ms acc carry).2.1 = acc.drop ms.length
      ∧ Norm (macChain k ms acc carry).1
      ∧ (macChain k ms acc carry).1.length = ms.length
      ∧ (macChain k ms acc carry).2.2 < B := by
  intro ms
  induction ms with
  | nil =>
      intro acc carry _ _ hcar _
      refine ⟨by simp [macChain], by simp [macChain], by simp [macChain],
        by simp [macChain], by simpa [macChain] using hcar⟩
  | cons mj ms ih =>
      intro acc carry hms hacc hcar hlen
      rcases Norm_cons.mp hms with ⟨hmj, hms2⟩
      cases acc with
      | nil => simp at hlen
      | cons a0 acc2 =>
        have hlen2 : ms.length ≤ acc2.length := by simpa using hlen
        rcases Norm_cons.mp hacc with ⟨ha0, hacc2⟩
        have hprod : k * mj ≤ (B - 1) * (B - 1) := Nat.mul_le_mul (by omega) (by omega)
        have hcar2 : (a0 + k * mj + carry) / B < B := by
          rw [B_eq] at ha0 hcar hprod ⊢
          omega
        obtain ⟨hv, hdrop, hn, hl, hc⟩ := ih acc2 _ hms2 hacc2 hcar2 hlen2
        refine ⟨?_, ?_, ?_, ?_, hc⟩
        · simp only [macChain, mac_with_carry, List.headD, List.tail_cons, val_cons,
            List.take_succ_cons, List.length_cons]
          have hshape : B ^ (ms.length + 1) * (macChain k ms acc2
              ((a0 + k * mj + carry) / B)).2.2
              = B * (B ^ ms.length * (macChain k ms acc2
                ((a0 + k * mj + carry) / B)).2.2) := by
            rw [pow_succ]
            ring
          rw [hshape]
          have hv2 : B * val (macChain k ms acc2 ((a0 + k * mj + carry) / B)).1
              + B * (B ^ ms.length * (macChain k ms acc2
                ((a0 + k * mj + carry) / B)).2.2)
              = B * (val (acc2.take ms.length) + k * val ms
                + (a0 + k * mj + carry) / B) := by
            rw [← Nat.mul_add, hv]
          have hdist : k * (mj + B * val ms) = k * mj + B * (k * val ms) := by ring
          have hdist2 : B * (val (acc2.take ms.length) + k * val ms
              + (a0 + k * mj + carry) / B)
              = B * val (acc2.take ms.length) + B * (k * val ms)
                + B * ((a0 + k * mj + carry) / B) := by ring
          rw [hdist]
          rw [hdist2] at hv2
          rw [B_eq] at hv2 ⊢
          omega
        · simp only [macChain, mac_with_carry, List.headD, List.tail_cons,
            List.drop_succ_cons]
          exact hdrop
        · simp only [macChain, mac_with_carry, List.headD, List.tail_cons, Norm_cons]
          exact ⟨Nat.mod_lt _ B_pos, hn⟩
        · simp only [macChain, mac_with_carry, List.headD, List.tail_cons,
            List.length_cons]
          rw [hl]

theorem montIter_spec {inv m0 r0 : Nat} {ms rest : List Nat} {c2 : Nat}
    (hm : Norm (m0 :: ms)) (hacc : Norm (r0 :: rest)) (hc2 : c2 ≤ 2)
    (hlen : ms.length + 1 ≤ rest.length)
    (hinv : (inv * m0 + 1) % B = 0) :
    val (r0 :: rest) + r0 * inv % B * val (m0 :: ms) + c2 * B ^ (ms.length + 1)
      = B * val (montIter inv (m0 :: ms) c2 (r0 :: rest)).1
        + (montIter inv (m0 :: ms) c2 (r0 :: rest)).2 * B ^ (ms.length + 2)
    ∧ Norm (montIter inv (m0 :: ms) c2 (r0 :: rest)).1
    ∧ (montIter inv (m0 :: ms) c2 (r0 :: rest)).1.length = rest.length
    ∧ (montIter inv (m0 :: ms) c2 (r0 :: rest)).2 ≤ 2 := by
  have hk : r0 * inv % B < B := Nat.mod_lt _ B_pos
  rcases Norm_cons.mp hm with ⟨hm0, hms⟩
  rcases Norm_cons.mp hacc with ⟨hr0, hrest⟩
  simp only [montIter, adc, val_cons]
  set k := r0 * inv % B with hkdef
  have hprod : k * m0 ≤ (B - 1) * (B - 1) := Nat.mul_le_mul (by omega) (by omega)
  have hcarB : (r0 + k * m0) / B < B := by
    rw [B_eq] at hr0 hprod ⊢
    omega
  set carry := (r0 + k * m0) / B with hcar
  obtain ⟨hv, hdrop, hpn, hpl, hc1⟩ :=
    macChain_spec hk ms rest carry hms hrest hcarB (by omega)
  set mc := macChain k ms rest carry with hmc
  have hlow : (r0 + k * m0) % B = 0 := low_limb_zero hinv r0
  have hdm : B * carry = r0 + k * m0 := by
    have hd := Nat.div_add_mod (r0 + k * m0) B
    rw [← hcar] at hd
    omega
  rw [hdrop]
  have hrn : Norm (rest.drop ms.length) :=
    fun x hx => hrest x (List.drop_subset _ _ hx)
  have hh0 : (rest.drop ms.length).headD 0 < B := headD_lt hrn
  have hdlen : (rest.drop ms.length).length = rest.length - ms.length := by simp
  have ht2 : ((rest.drop ms.length).headD 0 + c2 + mc.2.2) / B ≤ 2 := by
    rw [B_eq] at hh0 hc1 ⊢
    omega
  refine ⟨?_, ?_, ?_, ht2⟩
  · have happ2 : val (mc.1 ++ ((rest.drop ms.length).headD 0 + c2 + mc.2.2) % B
        :: (rest.drop ms.length).tail)
        = val mc.1
          + B ^ ms.length * (((rest.drop ms.length).headD 0 + c2 + mc.2.2) % B)
          + B * (B ^ ms.length * val (rest.drop ms.length).tail) := by
      rw [val_append, hpl, val_cons]
      ring
    rw [happ2]
    have ef2 : B ^ ms.length * (((rest.drop ms.length).headD 0 + c2 + mc.2.2) % B)
        + B * (B ^ ms.length * (((rest.drop ms.length).headD 0 + c2 + mc.2.2) / B))
        = B ^ ms.length * ((rest.drop ms.length).headD 0)
          + B ^ ms.length * c2 + B ^ ms.length * mc.2.2 := by
      have e1 : B ^ ms.length * (((rest.drop ms.length).headD 0 + c2 + mc.2.2) % B)
          + B * (B ^ ms.length * (((rest.drop ms.length).headD 0 + c2 + mc.2.2) / B))
          = B ^ ms.length * (((rest.drop ms.length).headD 0 + c2 + mc.2.2) % B
            + B * (((rest.drop ms.length).headD 0 + c2 + mc.2.2) / B)) := by ring
      rw [e1, Nat.mod_add_div]
      ring
    have hrd : val rest = val (rest.take ms.length)
        + B ^ ms.length * val (rest.drop ms.length) :=
      val_take_drop rest ms.length (by omega)
    have hFsplit : B ^ ms.length * val (rest.drop ms.length)
        = B ^ ms.length * ((rest.drop ms.length).headD 0)
          + B * (B ^ ms.length * val (rest.drop ms.length).tail) := by
      rw [val_headD_tail (rest.drop ms.length)]
      ring
    have hrdB : B * val rest = B * val (rest.take ms.length)
        + B * (B ^ ms.length * val (rest.drop ms.length)) := by
      rw [hrd]
      ring
    have ehv : B * val mc.1 + B * (B ^ ms.length * mc.2.2)
        = B * val (rest.take ms.length) + B * (k * val ms) + B * carry := by
      have e2 : B * val mc.1 + B * (B ^ ms.length * mc.2.2)
          = B * (val mc.1 + B ^ ms.length * mc.2.2) := by ring
      have e3 : B * (val (rest.take ms.length) + k * val ms + carry)
          = B * val (rest.take ms.length) + B * (k * val ms) + B * carry := by ring
      rw [e2, hv, e3]
    have edist : k * (m0 + B * val ms) = k * m0 + B * (k * val ms) := by ring
    have epow1 : c2 * B ^ (ms.length + 1) = B * (B ^ ms.length * c2) := by
      rw [pow_succ]
      ring
    have epow2 : ((rest.drop ms.length).headD 0 + c2 + mc.2.2) / B
          * B ^ (ms.length + 2)
        = B * (B * (B ^ ms.length
          * (((rest.drop ms.length).headD 0 + c2 + mc.2.2) / B))) := by
      rw [pow_succ, pow_succ]
      ring
    rw [edist, epow1, epow2]
    rw [B_eq] at ef2 hFsplit hrdB ehv hdm ⊢
    omega
  · intro x hx
    rcases List.mem_append.mp hx with h1 | h1
    · exact hpn x h1
    · rcases List.mem_cons.mp h1 with h2 | h2
      · subst h2
        exact Nat.mod_lt _ B_pos
      · exact (Norm_tail hrn) x h2
  · simp only [List.length_append, List.length_cons, List.length_tail, hpl, hdlen]
    omega

theorem montLoop_spec {inv m0 : Nat} {ms : List Nat} (hm : Norm (m0 :: ms))
    (hinv : (inv * m0 + 1) % B = 0) :
    ∀ (j : Nat) (c2 : Nat) (acc : List Nat), Norm acc → c2 ≤ 2 →
      acc.length = (m0 :: ms).length + j →
      ∃ K co, K < B ^ j ∧
        B ^ j * (val (montLoop inv (m0 :: ms) j c2 acc) + co * B ^ (m0 :: ms).length)
          = val acc + K * val (m0 :: ms) + c2 * B ^ (m0 :: ms).length
        ∧ Norm (montLoop inv (m0 :: ms) j c2 acc)
        ∧ (montLoop inv (m0 :: ms) j c2 acc).length = (m0 :: ms).length := by
  intro j
  induction j with
  | zero =>
      intro c2 acc hacc hc2 hlen
      refine ⟨0, c2, Nat.one_pos, ?_, hacc, by simpa using hlen⟩
      simp [montLoop]
  | succ j ih =>
      intro c2 acc hacc hc2 hlen
      cases acc with
      | nil =>
          exfalso
          simp only [List.length_nil, List.length_cons] at hlen
          omega
      | cons r0 rest =>
        have hlen2 : ms.length + 1 ≤ rest.length := by
          simp only [List.length_cons] at hlen
          omega
        obtain ⟨heq, hn, hl, hc⟩ := montIter_spec hm hacc hc2 hlen2 hinv
        obtain ⟨K, co, hK, hrec, hrn, hrl⟩ :=
          ih (montIter inv (m0 :: ms) c2 (r0 :: rest)).2
            (montIter inv (m0 :: ms) c2 (r0 :: rest)).1 hn hc
            (by simp only [List.length_cons] at hlen ⊢; omega)
        refine ⟨r0 * inv % B + B * K, co, ?_, ?_, ?_, ?_⟩
        · have h1 : r0 * inv % B < B := Nat.mod_lt _ B_pos
          have h2 : B * K + B ≤ B * B ^ j := by
            have : K + 1 ≤ B ^ j := hK
            calc B * K + B = B * (K + 1) := by ring
              _ ≤ B * B ^ j := Nat.mul_le_mul_left _ this
          rw [pow_succ]
          have h3 : B ^ j * B = B * B ^ j := by ring
          rw [h3]
          omega
        · simp only [montLoop]
          have hstep : B ^ (j + 1) * (val (montLoop inv (m0 :: ms) j
                (montIter inv (m0 :: ms) c2 (r0 :: rest)).2
                (montIter inv (m0 :: ms) c2 (r0 :: rest)).1)
              + co * B ^ (m0 :: ms).length)
              = B * (B ^ j * (val (montLoop inv (m0 :: ms) j
                (montIter inv (m0 :: ms) c2 (r0 :: rest)).2
                (montIter inv (m0 :: ms) c2 (r0 :: rest)).1)
              + co * B ^ (m0 :: ms).length)) := by
            rw [pow_succ]
            ring
          rw [hstep]
          rw [hrec]
          have hdist : (r0 * inv % B + B * K) * val (m0 :: ms)
              = r0 * inv % B * val (m0 :: ms) + B * (K * val (m0 :: ms)) := by
            ring
          rw [hdist]
          have hdist2 : B * (val (montIter inv (m0 :: ms) c2 (r0 :: rest)).1
              + K * val (m0 :: ms)
              + (montIter inv (m0 :: ms) c2 (r0 :: rest)).2 * B ^ (m0 :: ms).length)
              = B * val (montIter inv (m0 :: ms) c2 (r0 :: rest)).1
                + B * (K * val (m0 :: ms))
                + B * ((montIter inv (m0 :: ms) c2 (r0 :: rest)).2
                  * B ^ (m0 :: ms).length) := by
            ring
          rw [hdist2]
          have hshift : (montIter inv (m0 :: ms) c2 (r0 :: rest)).2
                * B ^ (ms.length + 2)
              = B * ((montIter inv (m0 :: ms) c2 (r0 :: rest)).2
                * B ^ (m0 :: ms).length) := by
            simp only [List.length_cons]
            rw [pow_succ]
            ring
          rw [hshift] at heq
          simp only [List.length_cons] at heq ⊢
          omega
        · simpa [montLoop] using hrn
        · simpa [montLoop] using hrl

theorem mont_reduce_spec {M : List Nat} {inv : Nat} {t : List Nat}
    (hM : Norm M) (hMne : M ≠ [])
    (hinv : (inv * M.headD 0 + 1) % B = 0)
    (ht : Norm t) (hlen : t.length = 2 * M.length)
    (hbound : val t < B ^ M.length * val M)
    (hcap : 2 * val M ≤ B ^ M.length) :
    Norm (mont_reduce M inv t) ∧ (mont_reduce M inv t).length = M.length
    ∧ val (mont_reduce M inv t) < val M
    ∧ B ^ M.length * val (mont_reduce M inv t) ≡ val t [MOD val M] := by
  have hMpos : 0 < val M := by
    rcases Nat.eq_zero_or_pos (val M) with h | h
    · rw [h, Nat.mul_zero] at hbound
      omega
    · exact h
  cases M with
  | nil => exact absurd rfl hMne
  | cons m0 ms =>
    unfold mont_reduce
    obtain ⟨K, co, hK, heq, hn, hl⟩ :=
      montLoop_spec hM (by simpa using hinv) (m0 :: ms).length 0 t ht (by omega)
        (by rw [hlen]; ring)
    set L := montLoop inv (m0 :: ms) (m0 :: ms).length 0 t with hL
    have hKM : K * val (m0 :: ms) < B ^ (m0 :: ms).length * val (m0 :: ms) :=
      (Nat.mul_lt_mul_right hMpos).mpr hK
    have hsum : val t + K * val (m0 :: ms)
        < B ^ (m0 :: ms).length * B ^ (m0 :: ms).length := by
      have h2 : B ^ (m0 :: ms).length * (2 * val (m0 :: ms))
          ≤ B ^ (m0 :: ms).length * B ^ (m0 :: ms).length :=
        Nat.mul_le_mul_left _ hcap
      have h3 : val t + K * val (m0 :: ms)
          < 2 * (B ^ (m0 :: ms).length * val (m0 :: ms)) := by omega
      have h4 : 2 * (B ^ (m0 :: ms).length * val (m0 :: ms))
          = B ^ (m0 :: ms).length * (2 * val (m0 :: ms)) := by ring
      omega
    have hlt : val L + co * B ^ (m0 :: ms).length < B ^ (m0 :: ms).length := by
      have h5 : B ^ (m0 :: ms).length * (val L + co * B ^ (m0 :: ms).length)
          < B ^ (m0 :: ms).length * B ^ (m0 :: ms).length := by
        rw [heq]
        omega
      exact Nat.lt_of_mul_lt_mul_left h5
    have hco : co = 0 := by
      rcases Nat.eq_zero_or_pos co with h | h
      · exact h
      · exfalso
        have : B ^ (m0 :: ms).length ≤ co * B ^ (m0 :: ms).length :=
          Nat.le_mul_of_pos_left _ h
        omega
    rw [hco, Nat.zero_mul, Nat.add_zero] at heq hlt
    have hLlt : val L < 2 * val (m0 :: ms) := by
      have h6 : B ^ (m0 :: ms).length * val L
          < B ^ (m0 :: ms).length * (2 * val (m0 :: ms)) := by
        rw [heq]
        have h7 : B ^ (m0 :: ms).length * (2 * val (m0 :: ms))
            = 2 * (B ^ (m0 :: ms).length * val (m0 :: ms)) := by ring
        omega
      exact Nat.lt_of_mul_lt_mul_left h6
    obtain ⟨hrn, hrl, hrv⟩ := reduce_spec hM hn hl hLlt
    refine ⟨hrn, hrl, ?_, ?_⟩
    · rw [hrv]
      exact Nat.mod_lt _ hMpos
    · rw [hrv]
      have h8 : B ^ (m0 :: ms).length * (val L % val (m0 :: ms))
          ≡ B ^ (m0 :: ms).length * val L [MOD val (m0 :: ms)] :=
        Nat.ModEq.mul_left _ (Nat.mod_modEq _ _)
      refine h8.trans ?_
      rw [heq]
      have h9 : val t + K * val (m0 :: ms) ≡ val t + 0 [MOD val (m0 :: ms)] :=
        Nat.ModEq.add_left _ (Nat.modEq_zero_iff_dvd.mpr ⟨K, Nat.mul_comm _ _⟩)
      simpa using h9

theorem square_eq_mul_assign {M : List Nat} {inv : Nat} {a : List Nat}
    (ha : Norm a) (hne : a ≠ []) : square M inv a = mul_assign M inv a a := by
  unfold square mul_assign
  rw [sqrLimbs_eq_mulLimbs ha hne]

theorem mul_assign_spec {M : List Nat} {inv : Nat} {a b : List Nat}
    (hM : Norm M) (hMne : M ≠ [])
    (hinv : (inv * M.headD 0 + 1) % B = 0)
    (hcap : 2 * val M ≤ B ^ M.length)
    (ha : Norm a) (hb : Norm b)
    (hal : a.length = M.length) (hbl : b.length = M.length)
    (hva : val a < val M) (hvb : val b < val M) :
    Norm (mul_assign M inv a b) ∧ (mul_assign M inv a b).length = M.length
    ∧ val (mul_assign M inv a b) < val M
    ∧ B ^ M.length * val (mul_assign M inv a b) ≡ val a * val b [MOD val M] := by
  have hane : a ≠ [] := by
    intro h
    subst h
    simp at hal
    exact hMne (List.eq_nil_of_length_eq_zero hal.symm)
  obtain ⟨hpv, hpn, hpl⟩ := mulLimbs_spec ha hb
  have hMlt : val M ≤ B ^ M.length := by omega
  have hbnd : val (mulLimbs a b) < B ^ M.length * val M := by
    rw [hpv]
    rcases Nat.eq_zero_or_pos (val b) with h | h
    · rw [h, Nat.mul_zero]
      have : 0 < val M := by omega
      exact Nat.mul_pos (by omega) this
    · calc val a * val b < val M * val M := by
            exact Nat.mul_lt_mul_of_lt_of_le hva (by omega) (by omega)
        _ ≤ B ^ M.length * val M := Nat.mul_le_mul_right _ hMlt
  unfold mul_assign
  have := mont_reduce_spec hM hMne hinv hpn (by rw [hpl hane, hal, hbl]; ring) hbnd hcap
  obtain ⟨h1, h2, h3, h4⟩ := this
  exact ⟨h1, h2, h3, by rw [← hpv]; exact h4⟩

theorem invIter_lt (m0 k : Nat) : invIter m0 k < B := by
  cases k with
  | zero => exact one_lt_B
  | succ k => exact Nat.mod_lt _ B_pos

theorem sq_one_bit {a i : Nat} (h : a ≡ 1 [MOD 2 ^ (i + 1)]) :
    a * a ≡ 1 [MOD 2 ^ (i + 2)] := by
  have h1 : ((2 ^ (i + 1) : Nat) : Int) ∣ (1 : Int) - (a : Int) := by
    have := Nat.modEq_iff_dvd.mp h
    simpa using this
  obtain ⟨c, hc⟩ := h1
  have ha : (a : Int) = 1 - 2 ^ (i + 1) * c := by
    push_cast at hc
    linarith
  refine Nat.modEq_iff_dvd.mpr ?_
  refine ⟨c * (1 - 2 ^ i * c), ?_⟩
  push_cast
  rw [ha]
  ring

theorem invIter_spec {m0 : Nat} (hodd : m0 % 2 = 1) :
    ∀ k : Nat, k ≤ 63 → invIter m0 k * m0 ≡ 1 [MOD 2 ^ (k + 1)] := by
  intro k
  induction k with
  | zero =>
      intro _
      simp only [invIter, Nat.one_mul, pow_one]
      show m0 % 2 = 1 % 2
      simpa using hodd
  | succ k ih =>
      intro hk
      have h1 := ih (by omega)
      have h2 : invIter m0 (k + 1) * m0
          ≡ (invIter m0 k * m0) * (invIter m0 k * m0) [MOD B] := by
        simp only [invIter, invStep]
        have e1 : invIter m0 k * invIter m0 k % B * m0 % B * m0
            ≡ invIter m0 k * invIter m0 k % B * m0 * m0 [MOD B] :=
          Nat.ModEq.mul_right _ (Nat.mod_modEq _ _)
        have e2 : invIter m0 k * invIter m0 k % B * m0 * m0
            ≡ invIter m0 k * invIter m0 k * m0 * m0 [MOD B] :=
          Nat.ModEq.mul_right _ (Nat.ModEq.mul_right _ (Nat.mod_modEq _ _))
        have e3 : invIter m0 k * invIter m0 k * m0 * m0
            = (invIter m0 k * m0) * (invIter m0 k * m0) := by ring
        exact (e1.trans e2).trans (by rw [e3])
      have h3 : invIter m0 (k + 1) * m0
          ≡ (invIter m0 k * m0) * (invIter m0 k * m0) [MOD 2 ^ (k + 2)] := by
        refine Nat.ModEq.of_dvd ?_ h2
        show (2 : Nat) ^ (k + 2) ∣ 2 ^ 64
        exact pow_dvd_pow 2 (by omega)
      exact h3.trans (sq_one_bit h1)

theorem computeInv_spec {m0 : Nat} (hodd : m0 % 2 = 1) :
    (computeInv m0 * m0 + 1) % B = 0 := by
  have h1 : invIter m0 63 * m0 ≡ 1 [MOD B] := by
    have h := invIter_spec hodd 63 (le_refl _)
    exact h
  have hlt := invIter_lt m0 63
  have h2 : ((B : Nat) : Int) ∣ (1 : Int) - ((invIter m0 63 * m0 : Nat) : Int) := by
    have := Nat.modEq_iff_dvd.mp h1
    simpa using this
  have h4 : ((B : Nat) : Int) ∣ ((invIter m0 63 : Nat) : Int) * (m0 : Int) - 1 := by
    push_cast at h2
    have := dvd_neg.mpr h2
    simpa using this
  have e1 : computeInv m0 * m0 + 1 ≡ (B - invIter m0 63) * m0 + 1 [MOD B] :=
    Nat.ModEq.add_right 1 (Nat.ModEq.mul_right m0 (Nat.mod_modEq _ _))
  have e2 : (B - invIter m0 63) * m0 + 1 ≡ 0 [MOD B] := by
    refine Nat.modEq_iff_dvd.mpr ?_
    have hcast : (((B - invIter m0 63) * m0 + 1 : Nat) : Int)
        = ((B : Nat) : Int) * (m0 : Int)
          - ((invIter m0 63 : Nat) : Int) * (m0 : Int) + 1 := by
      push_cast [Nat.cast_sub hlt.le]
      ring
    rw [hcast, Nat.cast_zero]
    have e3 : (0 : Int) - (((B : Nat) : Int) * (m0 : Int)
        - ((invIter m0 63 : Nat) : Int) * (m0 : Int) + 1)
        = ((B : Nat) : Int) * (-(m0 : Int))
          + (((invIter m0 63 : Nat) : Int) * (m0 : Int) - 1) := by ring
    rw [e3]
    exact dvd_add (Dvd.intro _ rfl) h4
  have h5 := e1.trans e2
  simpa using h5

theorem bitsVal_lt (bs : List Bool) : bitsVal bs < 2 ^ bs.length := by
  induction bs with
  | nil => simp [bitsVal]
  | cons b bs ih =>
      simp only [bitsVal, List.length_cons, pow_succ]
      rcases b with _ | _ <;> simp <;> omega

theorem bitsVal_append (xs ys : List Bool) :
    bitsVal (xs ++ ys) = bitsVal xs * 2 ^ ys.length + bitsVal ys := by
  induction xs with
  | nil => simp [bitsVal]
  | cons b bs ih =>
      simp only [List.cons_append, bitsVal, List.append_eq, ih]
      have hlen : (bs ++ ys).length = bs.length + ys.length := List.length_append _ _
      rw [hlen, pow_add]
      ring

theorem bitsVal_range_aux (e w : Nat) :
    bitsVal ((List.range w).reverse.map (fun i => e / 2 ^ i % 2 == 1)) = e % 2 ^ w := by
  induction w with
  | zero => simp [bitsVal, Nat.mod_one]
  | succ w ih =>
      rw [List.range_succ, List.reverse_append]
      simp only [List.reverse_singleton, List.singleton_append, List.map_cons]
      simp only [bitsVal, List.length_map, List.length_reverse, List.length_range, ih]
      rw [pow_succ, Nat.mod_mul]
      rcases Nat.mod_two_eq_zero_or_one (e / 2 ^ w) with h | h
      · simp [h]
      · simp [h]
        omega

theorem bitsVal_limbBits {x : Nat} (hx : x < B) : bitsVal (limbBits x) = x := by
  unfold limbBits
  rw [bitsVal_range_aux]
  exact Nat.mod_eq_of_lt hx

@[simp] theorem limbBits_length (x : Nat) : (limbBits x).length = 64 := by
  simp [limbBits]

theorem limbsBits_aux :
    ∀ (e : List Nat) (acc : List Bool), Norm e →
      bitsVal (e.foldl (fun acc limb => limbBits limb ++ acc) acc)
        = val e * 2 ^ acc.length + bitsVal acc := by
  intro e
  induction e with
  | nil => intro acc _; simp
  | cons d rest ih =>
      intro acc he
      rcases Norm_cons.mp he with ⟨hd, hrest⟩
      simp only [List.foldl_cons]
      rw [ih _ hrest]
      rw [bitsVal_append, bitsVal_limbBits hd]
      simp only [List.length_append, limbBits_length, val_cons]
      rw [pow_add]
      have hB : (2 : Nat) ^ 64 = B := rfl
      rw [hB]
      ring

theorem bitsVal_limbsBits {e : List Nat} (he : Norm e) :
    bitsVal (limbsBits e) = val e := by
  unfold limbsBits
  rw [limbsBits_aux e [] he]
  simp [bitsVal]

theorem powBits_spec {α : Type} {M : Type} [CommRing M]
    (mulf : α → α → α) (P : α → Prop) (f : α → M) (a : α) (ha : P a)
    (hP : ∀ x y, P x → P y → P (mulf x y))
    (hf : ∀ x y, P x → P y → f (mulf x y) = f x * f y) :
    ∀ (bits : List Bool) (acc : α), P acc →
      P (powBits mulf a acc bits)
      ∧ f (powBits mulf a acc bits)
        = f acc ^ 2 ^ bits.length * f a ^ bitsVal bits := by
  intro bits
  induction bits with
  | nil =>
      intro acc hacc
      refine ⟨hacc, ?_⟩
      simp [powBits, bitsVal]
  | cons b bs ih =>
      intro acc hacc
      have hs : P (mulf acc acc) := hP _ _ hacc hacc
      have e2 : (2 : Nat) ^ (bs.length + 1) = 2 ^ bs.length + 2 ^ bs.length := by
        rw [pow_succ]
        ring
      rcases b with _ | _
      · obtain ⟨hp, hval⟩ := ih (mulf acc acc) hs
        constructor
        · simpa [powBits] using hp
        · have hstep : powBits mulf a acc (false :: bs)
              = powBits mulf a (mulf acc acc) bs := by
            simp [powBits]
          rw [hstep, hval, hf _ _ hacc hacc]
          simp only [bitsVal, List.length_cons, e2, pow_add]
          simp only [Bool.false_eq_true, if_false, Nat.zero_mul, Nat.zero_add]
          ring
      · have hsa : P (mulf (mulf acc acc) a) := hP _ _ hs ha
        obtain ⟨hp, hval⟩ := ih (mulf (mulf acc acc) a) hsa
        constructor
        · simpa [powBits] using hp
        · have hstep : powBits mulf a acc (true :: bs)
              = powBits mulf a (mulf (mulf acc acc) a) bs := by
            simp [powBits]
          rw [hstep, hval, hf _ _ hs ha, hf _ _ hacc hacc]
          simp only [bitsVal, List.length_cons, e2, pow_add]
          simp only [if_true, Nat.one_mul]
          ring

theorem oddSplit_spec : ∀ t : Nat, t ≠ 0 →
    2 ^ (oddSplit t).1 * (oddSplit t).2 = t ∧ (oddSplit t).2 % 2 = 1 := by
  intro t
  induction t using Nat.strong_induction_on with
  | _ t ih =>
    intro ht
    rw [oddSplit]
    by_cases h : t ≠ 0 ∧ t % 2 = 0
    · rw [dif_pos h]
      have hlt : t / 2 < t := Nat.div_lt_self (Nat.pos_of_ne_zero h.1) Nat.one_lt_two
      have hne : t / 2 ≠ 0 := by omega
      obtain ⟨h1, h2⟩ := ih (t / 2) hlt hne
      refine ⟨?_, h2⟩
      simp only [pow_succ]
      have : 2 ^ (oddSplit (t / 2)).1 * 2 * (oddSplit (t / 2)).2
          = 2 * (2 ^ (oddSplit (t / 2)).1 * (oddSplit (t / 2)).2) := by ring
      rw [this, h1]
      omega
    · rw [dif_neg h]
      refine ⟨by simp, ?_⟩
      omega

theorem modLimbs_spec {n m : Nat} (h : m < B ^ n) :
    Norm (modLimbs n m) ∧ (modLimbs n m).length = n ∧ val (modLimbs n m) = m :=
  ⟨toLimbs_norm n m, toLimbs_length n m, val_toLimbs_of_lt h⟩

theorem m_lt_pow {n m : Nat} (hm1 : 0 < m) (hcap : 2 * m ≤ B ^ n) : m < B ^ n := by
  omega

theorem modLimbs_headD {n m : Nat} (hn : 0 < n) : (modLimbs n m).headD 0 = m % B := by
  cases n with
  | zero => omega
  | succ n => rfl

theorem inv_works {n m : Nat} (hn : 0 < n) (hmodd : m % 2 = 1) :
    (computeInv (m % B) * (modLimbs n m).headD 0 + 1) % B = 0 := by
  rw [modLimbs_headD hn]
  refine computeInv_spec ?_
  have h2 : (2 : Nat) ∣ B := ⟨2 ^ 63, by norm_num [B_eq]⟩
  rw [Nat.mod_mod_of_dvd m h2]
  exact hmodd

theorem val_replicate_zero (n : Nat) : val (List.replicate n 0) = 0 := by
  induction n with
  | zero => rfl
  | succ n ih => simp [List.replicate, val_cons, ih]

theorem Norm_replicate_zero (n : Nat) : Norm (List.replicate n 0) := by
  intro x hx
  have := List.eq_of_mem_replicate hx
  subst this
  exact B_pos

theorem exists_w {p n : Nat} [Fact (Nat.Prime p)] (hodd : p % 2 = 1) :
    ∃ w : ZMod p, (B : ZMod p) ^ n * w = 1 := by
  have hp2 : p ≠ 2 := by
    intro h
    rw [h] at hodd
    omega
  have h2 : (2 : ZMod p) ≠ 0 := by
    have h2n : ((2 : ℕ) : ZMod p) ≠ 0 := by
      rw [Ne, ZMod.natCast_zmod_eq_zero_iff_dvd]
      intro hdvd
      exact hp2 ((Nat.prime_dvd_prime_iff_eq (Fact.out) Nat.prime_two).mp hdvd)
    simpa using h2n
  have hB : (B : ZMod p) = (2 : ZMod p) ^ 64 := by
    rw [B_eq]
    push_cast
    norm_num
  have hR : (B : ZMod p) ^ n ≠ 0 := by
    rw [hB, ← pow_mul]
    exact pow_ne_zero _ h2
  exact (isUnit_iff_ne_zero.mpr hR).exists_right_inv

section Bridge

variable {q n : Nat} {inv : Nat} {w : ZMod q}

theorem Fe_val_cast_inj (hx : Fe n q x) (hy : Fe n q y)
    (h : (val x : ZMod q) = (val y : ZMod q)) : x = y := by
  have h1 : val x ≡ val y [MOD q] := (ZMod.natCast_eq_natCast_iff _ _ _).mp h
  have h2 : val x % q = val y % q := h1
  rw [Nat.mod_eq_of_lt hx.2.2, Nat.mod_eq_of_lt hy.2.2] at h2
  exact val_injective hx.1 hy.1 (by rw [hx.2.1, hy.2.1]) h2

theorem phiW_inj (hw : (B : ZMod q) ^ n * w = 1)
    (hx : Fe n q x) (hy : Fe n q y) (h : phiW q w x = phiW q w y) : x = y := by
  unfold phiW at h
  have hcancel : (val x : ZMod q) = (val y : ZMod q) := by
    have h2 := congrArg (fun z => z * (B : ZMod q) ^ n) h
    simp only at h2
    have e : ∀ v : ZMod q, v * w * (B : ZMod q) ^ n = v := by
      intro v
      calc v * w * (B : ZMod q) ^ n = v * ((B : ZMod q) ^ n * w) := by ring
        _ = v := by rw [hw]; ring
    rw [e, e] at h2
    exact h2
  exact Fe_val_cast_inj hx hy hcancel

theorem Fe_mul (hn : 0 < n) (hodd : q % 2 = 1) (hcap : 2 * q ≤ B ^ n)
    (hinv : (inv * (modLimbs n q).headD 0 + 1) % B = 0)
    (ha : Fe n q a) (hb : Fe n q b) :
    Fe n q (mul_assign (modLimbs n q) inv a b)
    ∧ (B : ZMod q) ^ n * (val (mul_assign (modLimbs n q) inv a b) : ZMod q)
      = (val a : ZMod q) * (val b : ZMod q) := by
  obtain ⟨hMn, hMl, hMv⟩ := modLimbs_spec (m_lt_pow (by omega) hcap)
  have hMne : modLimbs n q ≠ [] := by
    intro h
    have := congrArg List.length h
    rw [hMl] at this
    simp at this
    omega
  obtain ⟨h1, h2, h3, h4⟩ := mul_assign_spec hMn hMne hinv (by rw [hMv, hMl]; exact hcap)
    ha.1 hb.1 (by rw [ha.2.1, hMl]) (by rw [hb.2.1, hMl])
    (by rw [hMv]; exact ha.2.2) (by rw [hMv]; exact hb.2.2)
  rw [hMv] at h3
  rw [hMv, hMl] at h4
  refine ⟨⟨h1, by rw [h2, hMl], h3⟩, ?_⟩
  have hcast := (ZMod.natCast_eq_natCast_iff _ _ _).mpr h4
  push_cast at hcast
  exact hcast

theorem phiW_mul (hn : 0 < n) (hodd : q % 2 = 1) (hcap : 2 * q ≤ B ^ n)
    (hinv : (inv * (modLimbs n q).headD 0 + 1) % B = 0)
    (hw : (B : ZMod q) ^ n * w = 1)
    (ha : Fe n q a) (hb : Fe n q b) :
    phiW q w (mul_assign (modLimbs n q) inv a b) = phiW q w a * phiW q w b := by
  obtain ⟨hfe, hval⟩ := Fe_mul hn hodd hcap hinv ha hb
  unfold phiW
  calc (val (mul_assign (modLimbs n q) inv a b) : ZMod q) * w
      = (val (mul_assign (modLimbs n q) inv a b) : ZMod q) * w
        * ((B : ZMod q) ^ n * w) := by rw [hw]; ring
    _ = ((B : ZMod q) ^ n * (val (mul_assign (modLimbs n q) inv a b) : ZMod q))
        * (w * w) := by ring
    _ = ((val a : ZMod q) * (val b : ZMod q)) * (w * w) := by rw [hval]
    _ = (val a : ZMod q) * w * ((val b : ZMod q) * w) := by ring

theorem Fe_one (hp1 : 1 < q) (hn : 0 < n) (hcap : 2 * q ≤ B ^ n) :
    Fe n q (oneE n q) := by
  refine ⟨toLimbs_norm _ _, toLimbs_length _ _, ?_⟩
  have h1 : Rv n q < q := Nat.mod_lt _ (by omega)
  rw [oneE, val_toLimbs_of_lt (lt_trans h1 (m_lt_pow (by omega) hcap))]
  exact h1

theorem phiW_one (hp1 : 1 < q) (hn : 0 < n) (hcap : 2 * q ≤ B ^ n)
    (hw : (B : ZMod q) ^ n * w = 1) : phiW q w (oneE n q) = 1 := by
  unfold phiW oneE
  have h1 : Rv n q < q := Nat.mod_lt _ (by omega)
  rw [val_toLimbs_of_lt (lt_trans h1 (m_lt_pow (by omega) hcap))]
  have h2 : ((Rv n q : ℕ) : ZMod q) = ((B ^ n : ℕ) : ZMod q) :=
    (ZMod.natCast_eq_natCast_iff _ _ _).mpr (Nat.mod_modEq _ _)
  rw [h2]
  push_cast
  exact hw

theorem Fe_zero (hp1 : 0 < q) (hn : 0 < n) : Fe n q (zeroE n) := by
  refine ⟨toLimbs_norm _ _, toLimbs_length _ _, ?_⟩
  rw [zeroE, val_toLimbs]
  simp
  omega

theorem phiW_zero : phiW q w (zeroE n) = 0 := by
  unfold phiW zeroE
  rw [val_toLimbs]
  simp

theorem pow_spec (hm1 : 1 < q) (hn : 0 < n) (hodd : q % 2 = 1) (hcap : 2 * q ≤ B ^ n)
    (hinv : (inv * (modLimbs n q).headD 0 + 1) % B = 0)
    (hw : (B : ZMod q) ^ n * w = 1)
    (ha : Fe n q a) (he : Norm e) :
    Fe n q (pow (modLimbs n q) inv (oneE n q) a e)
    ∧ phiW q w (pow (modLimbs n q) inv (oneE n q) a e) = phiW q w a ^ val e := by
  have hp1 : 1 < q := hm1
  obtain ⟨hfe, hval⟩ := powBits_spec (mul_assign (modLimbs n q) inv) (Fe n q)
    (phiW q w) a ha
    (fun x y hx hy => (Fe_mul hn hodd hcap hinv hx hy).1)
    (fun x y hx hy => phiW_mul hn hodd hcap hinv hw hx hy)
    (limbsBits e) (oneE n q) (Fe_one hp1 hn hcap)
  refine ⟨hfe, ?_⟩
  rw [pow, hval, phiW_one hp1 hn hcap hw, one_pow, one_mul,
    bitsVal_limbsBits he]

end Bridge

theorem Norm_append {a b : List Nat} (ha : Norm a) (hb : Norm b) : Norm (a ++ b) := by
  intro x hx
  rcases List.mem_append.mp hx with h | h
  · exact ha x h
  · exact hb x h

theorem into_repr_spec {n m inv : Nat} {x : List Nat}
    (hn : 0 < n) (hm1 : 0 < m) (hcap : 2 * m ≤ B ^ n)
    (hinv : (inv * (modLimbs n m).headD 0 + 1) % B = 0)
    (hx : Fe n m x) :
    Norm (into_repr n m inv x) ∧ (into_repr n m inv x).length = n
    ∧ val (into_repr n m inv x) < m
    ∧ B ^ n * val (into_repr n m inv x) ≡ val x [MOD m] := by
  obtain ⟨hMn, hMl, hMv⟩ := modLimbs_spec (m_lt_pow hm1 hcap)
  have hMne : modLimbs n m ≠ [] := by
    intro h
    have := congrArg List.length h
    rw [hMl] at this
    simp at this
    omega
  unfold into_repr
  have htn : Norm (x ++ List.replicate n 0) := Norm_append hx.1 (Norm_replicate_zero n)
  have htl : (x ++ List.replicate n 0).length = 2 * (modLimbs n m).length := by
    simp [hx.2.1, hMl]
    ring
  have htv : val (x ++ List.replicate n 0) = val x := by
    rw [val_append, val_replicate_zero]
    ring
  have hbnd : val (x ++ List.replicate n 0) < B ^ (modLimbs n m).length * val (modLimbs n m) := by
    rw [htv, hMv, hMl]
    have h1 : val x < m := hx.2.2
    have h2 : m ≤ B ^ n * m := Nat.le_mul_of_pos_left m (Nat.pos_pow_of_pos n B_pos)
    omega
  obtain ⟨h1, h2, h3, h4⟩ := mont_reduce_spec hMn hMne hinv htn htl hbnd
    (by rw [hMv, hMl]; exact hcap)
  rw [hMv] at h3
  rw [hMv, hMl, htv] at h4
  exact ⟨h1, by rw [h2, hMl], h3, h4⟩

/-- C5: for every field element `x`, the specialised squaring routine
(above-diagonal cross terms only, doubled by a one-bit left shift across
the double-width accumulator, then the diagonal terms, then Montgomery
reduction) returns exactly the same result as the general Montgomery
multiplication of `x` by itself: `square(x) == x · x`. -/
theorem c5_square_consistency {n m inv : Nat} {x : List Nat}
    (hn : 0 < n) (hx : Fe n m x) :
    square (modLimbs n m) inv x = mul_assign (modLimbs n m) inv x x := by
  refine square_eq_mul_assign hx.1 ?_
  intro h
  have hl := hx.2.1
  rw [h] at hl
  simp at hl
  omega

theorem c5_witness :
    square (modLimbs 1 13) (computeInv (13 % B)) [6]
      = mul_assign (modLimbs 1 13) (computeInv (13 % B)) [6] [6] :=
  c5_square_consistency (by decide) ⟨by decide, rfl, by decide⟩

/-- C7: for every odd modulus `m`, the constant `INV` computed at
derivation time by 63 iterations of `inv = inv² · m (mod 2^64)` followed
by a wrapping negation satisfies `INV · m ≡ −1 (mod 2^64)`, that is,
`INV` is `−m^{−1} mod 2^64` (the computation reads only the lowest limb
`m mod 2^64`). -/
theorem c7_inv_constant (m : Nat) (hodd : m % 2 = 1) :
    (computeInv (m % B) * m + 1) % B = 0 := by
  have h0 : (m % B) % 2 = 1 := by
    have h2 : (2 : Nat) ∣ B := ⟨2 ^ 63, by norm_num [B_eq]⟩
    rw [Nat.mod_mod_of_dvd m h2]
    exact hodd
  have h1 := computeInv_spec h0
  have h2 : computeInv (m % B) * m + 1 ≡ computeInv (m % B) * (m % B) + 1 [MOD B] :=
    Nat.ModEq.add_right 1 (Nat.ModEq.mul_left _ (Nat.mod_modEq m B).symm)
  have h3 : computeInv (m % B) * (m % B) + 1 ≡ 0 [MOD B] := by
    show _ % B = 0 % B
    simpa using h1
  have h4 := h2.trans h3
  simpa using h4

theorem c7_witness : 13 % 2 = 1 ∧ (computeInv (13 % B) * 13 + 1) % B = 0 :=
  ⟨by decide, c7_inv_constant 13 (by decide)⟩

/-- C6: `from_repr` reports an error value exactly when the supplied
representation is at or above the modulus; it is a total pure function
that either returns this error or the successfully converted element, so
the error path performs no partial conversion and cannot panic. -/
theorem c6_from_repr_error {n m inv : Nat} {r : List Nat}
    (hn : 0 < n) (hm : 0 < m) (hcap : 2 * m ≤ B ^ n)
    (hr : Norm r) (hrl : r.length = n) :
    (from_repr n m inv r = Except.error () ↔ m ≤ val r)
    ∧ (from_repr n m inv r = Except.error ()
       ∨ from_repr n m inv r
         = Except.ok (mul_assign (modLimbs n m) inv r (toLimbs n (R2v n m)))) := by
  obtain ⟨hMn, hMl, hMv⟩ := modLimbs_spec (m_lt_pow hm hcap)
  have hvalid := is_valid_iff hMn hr (by rw [hrl, hMl])
  rw [hMv] at hvalid
  unfold from_repr
  by_cases h : is_valid (modLimbs n m) r = true
  · rw [if_pos h]
    have := hvalid.mp h
    constructor
    · constructor
      · intro hcontra
        cases hcontra
      · intro hge
        omega
    · right
      rfl
  · rw [if_neg h]
    have hge : m ≤ val r := by
      rcases Nat.lt_or_ge (val r) m with h1 | h1
      · exact absurd (hvalid.mpr h1) h
      · exact h1
    exact ⟨⟨fun _ => hge, fun _ => rfl⟩, Or.inl rfl⟩

theorem c6_witness :
    (from_repr 1 13 (computeInv (13 % B)) [15] = Except.error () ↔ 13 ≤ val [15])
    ∧ (from_repr 1 13 (computeInv (13 % B)) [15] = Except.error ()
       ∨ from_repr 1 13 (computeInv (13 % B)) [15]
         = Except.ok (mul_assign (modLimbs 1 13) (computeInv (13 % B)) [15]
             (toLimbs 1 (R2v 1 13)))) :=
  c6_from_repr_error (by decide) (by decide) (by decide) (by decide) rfl

/-- C8: for field elements `a`, `b` strictly below the modulus, with `2m`
within the backing capacity, the limb-wise addition of `add_assign`
produces no carry out of the top limb (the dropped flag is zero), and
`double`'s `mul2` shifts no set bit out of the top limb. -/
theorem c8_no_overflow {n m : Nat} {a b : List Nat}
    (hn : 0 < n) (hcap : 2 * m ≤ B ^ n)
    (ha : Fe n m a) (hb : Fe n m b) :
    (add_nocarry a b 0).2 = 0 ∧ (mul2 a 0).2 = 0 := by
  have hm : 0 < m := by
    have := ha.2.2
    omega
  obtain ⟨hMn, hMl, hMv⟩ := modLimbs_spec (m_lt_pow hm hcap)
  have h1 := add_nocarry_no_overflow hMn ha.1 hb.1 (by rw [ha.2.1, hMl])
    (by rw [hb.2.1, hMl]) (by rw [hMv]; exact ha.2.2) (by rw [hMv]; exact hb.2.2)
    (by rw [hMv, hMl]; exact hcap)
  have h2 := mul2_no_overflow hMn ha.1 (by rw [ha.2.1, hMl])
    (by rw [hMv]; exact ha.2.2) (by rw [hMv, hMl]; exact hcap)
  exact ⟨h1.1, h2.1⟩

theorem c8_witness :
    (add_nocarry [9] [12] 0).2 = 0 ∧ (mul2 [9] 0).2 = 0 :=
  c8_no_overflow (n := 1) (m := 13) (by decide) (by decide)
    ⟨by decide, rfl, by decide⟩ ⟨by decide, rfl, by decide⟩

/-- C3: for every canonical integer `a < m`, converting into Montgomery
form with `from_repr` (a multiplication by `R2`) and back with
`into_repr` (the identity Montgomery reduction of the value padded with
`limb_count` zero high limbs) returns the original representation. -/
theorem c3_round_trip {n m inv : Nat} {r : List Nat}
    (hn : 0 < n) (hm1 : 1 < m) (hodd : m % 2 = 1) (hcap : 2 * m ≤ B ^ n)
    (hinv : (inv * (modLimbs n m).headD 0 + 1) % B = 0)
    (hr : Norm r) (hrl : r.length = n) (hrv : val r < m) :
    ∃ x, from_repr n m inv r = Except.ok x ∧ into_repr n m inv x = r := by
  obtain ⟨hMn, hMl, hMv⟩ := modLimbs_spec (m_lt_pow (by omega) hcap)
  have hMne : modLimbs n m ≠ [] := by
    intro h
    have := congrArg List.length h
    rw [hMl] at this
    simp at this
    omega
  have hvalid : is_valid (modLimbs n m) r = true := by
    rw [is_valid_iff hMn hr (by rw [hrl, hMl]), hMv]
    exact hrv
  have hr2lt : R2v n m < m := Nat.mod_lt _ (by omega)
  have hr2v : val (toLimbs n (R2v n m)) = R2v n m :=
    val_toLimbs_of_lt (lt_trans hr2lt (m_lt_pow (by omega) hcap))
  obtain ⟨hx1, hx2, hx3, hx4⟩ := mul_assign_spec hMn hMne hinv
    (by rw [hMv, hMl]; exact hcap) hr (toLimbs_norm n (R2v n m))
    (by rw [hrl, hMl]) (by rw [toLimbs_length, hMl])
    (by rw [hMv]; exact hrv) (by rw [hMv, hr2v]; exact hr2lt)
  rw [hMv, hMl] at hx4
  rw [hr2v] at hx4
  set x := mul_assign (modLimbs n m) inv r (toLimbs n (R2v n m)) with hxdef
  have hxFe : Fe n m x := ⟨hx1, by rw [hx2, hMl], by rw [← hMv]; exact hx3⟩
  obtain ⟨hy1, hy2, hy3, hy4⟩ := into_repr_spec hn (by omega) hcap hinv hxFe
  refine ⟨x, ?_, ?_⟩
  · unfold from_repr
    rw [if_pos hvalid]
  · set y := into_repr n m inv x with hydef
    have step1 : B ^ n * (B ^ n * val y) ≡ B ^ n * val x [MOD m] :=
      Nat.ModEq.mul_left _ hy4
    have step2 : B ^ n * (B ^ n * val y) ≡ val r * R2v n m [MOD m] :=
      step1.trans hx4
    have step3 : R2v n m ≡ B ^ n * (B ^ n) [MOD m] := by
      have ha : Rv n m ≡ B ^ n [MOD m] := Nat.mod_modEq _ _
      have hb : R2v n m ≡ Rv n m * Rv n m [MOD m] := Nat.mod_modEq _ _
      exact hb.trans (ha.mul ha)
    have step4 : val r * R2v n m ≡ val r * (B ^ n * B ^ n) [MOD m] :=
      Nat.ModEq.mul_left _ step3
    have step5 : B ^ n * (B ^ n * val y) ≡ val r * (B ^ n * B ^ n) [MOD m] :=
      step2.trans step4
    have hshape1 : B ^ n * (B ^ n * val y) = B ^ n * B ^ n * val y := by ring
    have hshape2 : val r * (B ^ n * B ^ n) = B ^ n * B ^ n * val r := by ring
    rw [hshape1, hshape2] at step5
    have hco2 : Nat.Coprime 2 m := Nat.coprime_two_left.mpr (Nat.odd_iff.mpr hodd)
    have hcoB : Nat.Coprime B m := by
      have h1 : Nat.Coprime (2 ^ 64) m := Nat.Coprime.pow_left 64 hco2
      exact h1
    have hco : Nat.gcd m (B ^ n * B ^ n) = 1 :=
      (Nat.Coprime.mul (Nat.Coprime.pow_left n hcoB)
        (Nat.Coprime.pow_left n hcoB)).symm
    have hfinal : val y ≡ val r [MOD m] :=
      Nat.ModEq.cancel_left_of_coprime hco step5
    have hmod : val y % m = val r % m := hfinal
    rw [Nat.mod_eq_of_lt hy3, Nat.mod_eq_of_lt hrv] at hmod
    exact val_injective hy1 hr (by rw [hy2, hrl]) hmod

theorem c3_witness :
    ∃ x, from_repr 1 13 (computeInv (13 % B)) [5] = Except.ok x
      ∧ into_repr 1 13 (computeInv (13 % B)) x = [5] :=
  c3_round_trip (by decide) (by decide) (by decide) (by decide)
    (inv_works (by decide) (by decide)) (by decide) rfl (by decide)

theorem is_even_iff {l : List Nat} : is_even l = true ↔ val l % 2 = 0 := by
  unfold is_even
  rw [Bool.not_eq_true']
  constructor
  · intro h
    have : ¬ (is_odd l = true) := by rw [h]; simp
    rw [is_odd_iff] at this
    omega
  · intro h
    have : ¬ (is_odd l = true) := by rw [is_odd_iff]; omega
    simpa using this

theorem eq_one_limbs_iff {n : Nat} {u : List Nat} (hn : 0 < n)
    (hu : Norm u) (hul : u.length = n) : u = toLimbs n 1 ↔ val u = 1 := by
  have h1 : (1 : Nat) < B ^ n := by
    have h2 : B ^ 1 ≤ B ^ n := Nat.pow_le_pow_right (Nat.le_of_lt one_lt_B) hn
    have := one_lt_B
    simp only [pow_one] at h2
    omega
  constructor
  · intro h
    rw [h, val_toLimbs_of_lt h1]
  · intro h
    refine val_injective hu (toLimbs_norm _ _) (by rw [hul, toLimbs_length]) ?_
    rw [h, val_toLimbs_of_lt h1]

theorem sub_exact {x y : List Nat} (hx : Norm x) (hy : Norm y)
    (hlen : y.length = x.length) (hle : val y ≤ val x) :
    val (sub_noborrow x y 0).1 = val x - val y
    ∧ Norm (sub_noborrow x y 0).1 ∧ (sub_noborrow x y 0).1.length = x.length := by
  obtain ⟨hs, hsn, hsl, hsbo⟩ := sub_noborrow_spec x y 0 hx hy (by omega) hlen
  have hlt2 : val (sub_noborrow x y 0).1 < B ^ x.length := by
    have := val_lt hsn
    rwa [hsl] at this
  have hxl : val x < B ^ x.length := val_lt hx
  have hbo0 : (sub_noborrow x y 0).2 = 0 := by
    rcases Nat.le_one_iff_eq_zero_or_eq_one.mp hsbo with h1 | h1
    · exact h1
    · exfalso
      rw [h1, Nat.mul_one] at hs
      omega
  rw [hbo0, Nat.mul_zero, Nat.add_zero] at hs
  exact ⟨by omega, hsn, hsl⟩

theorem add_exact {x y : List Nat} (hx : Norm x) (hy : Norm y)
    (hlen : y.length = x.length) (hsum : val x + val y < B ^ x.length) :
    val (add_nocarry x y 0).1 = val x + val y
    ∧ Norm (add_nocarry x y 0).1 ∧ (add_nocarry x y 0).1.length = x.length := by
  obtain ⟨hveq, hn, hl, hco⟩ := add_nocarry_spec x y 0 hx hy (by omega) hlen
  have hco0 : (add_nocarry x y 0).2 = 0 := by
    rcases Nat.le_one_iff_eq_zero_or_eq_one.mp hco with h1 | h1
    · exact h1
    · exfalso
      rw [h1, Nat.mul_one] at hveq
      omega
  rw [hco0, Nat.mul_zero, Nat.add_zero] at hveq
  exact ⟨by omega, hn, hl⟩

theorem gcd_sub_left {u v : Nat} (h : v ≤ u) : Nat.gcd (u - v) v = Nat.gcd u v := by
  refine Nat.dvd_antisymm ?_ ?_
  · refine Nat.dvd_gcd ?_ (Nat.gcd_dvd_right _ _)
    have h1 : Nat.gcd (u - v) v ∣ u - v := Nat.gcd_dvd_left _ _
    have h2 : Nat.gcd (u - v) v ∣ v := Nat.gcd_dvd_right _ _
    have h3 : Nat.gcd (u - v) v ∣ (u - v) + v := Nat.dvd_add h1 h2
    rwa [Nat.sub_add_cancel h] at h3
  · refine Nat.dvd_gcd ?_ (Nat.gcd_dvd_right _ _)
    exact Nat.dvd_sub' (Nat.gcd_dvd_left _ _) (Nat.gcd_dvd_right _ _)

theorem halveLoop_spec {n m A W : Nat} (hn : 0 < n) (hm1 : 1 < m)
    (hodd : m % 2 = 1) (hcap : 2 * m ≤ B ^ n) :
    ∀ (f : Nat) (u b : List Nat), InvSt n m A u b → Nat.gcd (val u) W = 1 →
      val u < 2 ^ f →
      InvSt n m A (halveLoop (modLimbs n m) f u b).1 (halveLoop (modLimbs n m) f u b).2
      ∧ Nat.gcd (val (halveLoop (modLimbs n m) f u b).1) W = 1
      ∧ val (halveLoop (modLimbs n m) f u b).1 ≤ val u
      ∧ val (halveLoop (modLimbs n m) f u b).1 % 2 = 1 := by
  obtain hm0 : 0 < m := by omega
  obtain ⟨hMn, hMl, hMv⟩ := modLimbs_spec (m_lt_pow hm0 hcap)
  intro f
  induction f with
  | zero =>
      intro u b hst _ hf
      obtain ⟨_, _, hu1, _, _⟩ := hst
      exfalso
      simp only [pow_zero, Nat.lt_one_iff] at hf
      omega
  | succ f ih =>
      intro u b hst hgcd hf
      obtain ⟨hun, hul, hu1, hbFe, hcong⟩ := hst
      by_cases he : is_even u = true
      · have hueven : val u % 2 = 0 := is_even_iff.mp he
        obtain ⟨hdv, hdn, hdl⟩ := div2_spec u hun
        have hu2 : 2 * val (div2 u) = val u := by rw [hdv]; omega
        have hbeq : ∃ b2, (if is_even b then div2 b else div2 (add_nocarry b (modLimbs n m) 0).1) = b2
            ∧ Fe n m b2 ∧ 2 * val b2 ≡ val b [MOD m] := by
          by_cases hbe : is_even b = true
          · have hbev : val b % 2 = 0 := is_even_iff.mp hbe
            obtain ⟨hbv, hbn, hbl⟩ := div2_spec b hbFe.1
            refine ⟨div2 b, by rw [if_pos hbe], ⟨hbn, by rw [hbl, hbFe.2.1], ?_⟩, ?_⟩
            · rw [hbv]
              have := hbFe.2.2
              omega
            · rw [hbv]
              have h2 : 2 * (val b / 2) = val b := by omega
              rw [h2]
          · have hbodd : val b % 2 = 1 := by
              have h1 : ¬ (val b % 2 = 0) := fun h => hbe (is_even_iff.mpr h)
              omega
            obtain ⟨hsv, hsn, hsl⟩ := add_exact hbFe.1 hMn
              (by rw [hMl, hbFe.2.1]) (by
                rw [hMv, hbFe.2.1]
                have := hbFe.2.2
                omega)
            rw [hMv] at hsv
            obtain ⟨hdv2, hdn2, hdl2⟩ := div2_spec _ hsn
            refine ⟨_, by rw [if_neg hbe], ⟨hdn2, by rw [hdl2, hsl, hbFe.2.1], ?_⟩, ?_⟩
            · rw [hdv2, hsv]
              have := hbFe.2.2
              omega
            · rw [hdv2, hsv]
              have hev : (val b + m) % 2 = 0 := by omega
              have h2 : 2 * ((val b + m) / 2) = val b + m := by omega
              rw [h2]
              have hmm : (m : Nat) ≡ 0 [MOD m] := Nat.modEq_zero_iff_dvd.mpr dvd_rfl
              have h3 := Nat.ModEq.add_left (val b) hmm
              simpa using h3
        obtain ⟨b2, hb2eq, hb2Fe, hb2c⟩ := hbeq
        have hcong2 : val b2 * A ≡ val (div2 u) * R2v n m [MOD m] := by
          have e1 : 2 * (val b2 * A) ≡ 2 * (val (div2 u) * R2v n m) [MOD m] := by
            have s1 : 2 * (val b2 * A) = (2 * val b2) * A := by ring
            have s2 : (2 * val b2) * A ≡ val b * A [MOD m] :=
              Nat.ModEq.mul_right _ hb2c
            have s3 : val b * A ≡ val u * R2v n m [MOD m] := hcong
            have s4 : val u * R2v n m = 2 * (val (div2 u) * R2v n m) := by
              rw [← hu2]
              ring
            rw [s1, ← s4]
            exact s2.trans s3
          have hco : Nat.gcd m 2 = 1 :=
            (Nat.coprime_two_left.mpr (Nat.odd_iff.mpr hodd)).symm
          exact Nat.ModEq.cancel_left_of_coprime hco e1
        have hst2 : InvSt n m A (div2 u) b2 :=
          ⟨hdn, by rw [hdl, hul], by omega, hb2Fe, hcong2⟩
        have hgcd2 : Nat.gcd (val (div2 u)) W = 1 := by
          have h1 : Nat.gcd (val (div2 u)) W ∣ Nat.gcd (val u) W := by
            refine Nat.dvd_gcd ?_ (Nat.gcd_dvd_right _ _)
            have h2 : val (div2 u) ∣ val u := ⟨2, by omega⟩
            exact dvd_trans (Nat.gcd_dvd_left _ _) h2
          rw [hgcd] at h1
          exact Nat.eq_one_of_dvd_one h1
        have hfu : val (div2 u) < 2 ^ f := by
          rw [hdv]
          have h2 : (2 : Nat) ^ (f + 1) = 2 * 2 ^ f := by rw [pow_succ]; ring
          omega
        have := ih (div2 u) b2 hst2 hgcd2 hfu
        have hunf : halveLoop (modLimbs n m) (f + 1) u b
            = halveLoop (modLimbs n m) f (div2 u) b2 := by
          rw [halveLoop, if_pos he, hb2eq]
        rw [hunf]
        refine ⟨this.1, this.2.1, ?_, this.2.2.2⟩
        have := this.2.2.1
        omega
      · have hunf : halveLoop (modLimbs n m) (f + 1) u b = (u, b) := by
          rw [halveLoop, if_neg he]
        rw [hunf]
        refine ⟨⟨hun, hul, hu1, hbFe, hcong⟩, hgcd, le_refl _, ?_⟩
        show val u % 2 = 1
        have h1 : ¬ (val u % 2 = 0) := fun h => he (is_even_iff.mpr h)
        omega

theorem invLoop_of_one {M one_ : List Nat} {hf f : Nat} {u v b c : List Nat}
    (h : u = one_) : invLoop M one_ hf f u v b c = (u, v, b, c) := by
  cases f with
  | zero => rfl
  | succ f =>
      rw [invLoop, if_neg]
      simp [h]

theorem invLoop_spec {n m A : Nat} (hn : 0 < n) (hm1 : 1 < m)
    (hodd : m % 2 = 1) (hcap : 2 * m ≤ B ^ n) :
    ∀ (f : Nat) (u v b c : List Nat),
      InvSt n m A u b → InvSt n m A v c → Nat.gcd (val u) (val v) = 1 →
      val u + val v ≤ f + 2 →
      ((invLoop (modLimbs n m) (toLimbs n 1) (64 * n) f u v b c).1 = toLimbs n 1
        ∧ InvSt n m A (invLoop (modLimbs n m) (toLimbs n 1) (64 * n) f u v b c).1
            (invLoop (modLimbs n m) (toLimbs n 1) (64 * n) f u v b c).2.2.1)
      ∨ ((invLoop (modLimbs n m) (toLimbs n 1) (64 * n) f u v b c).1 ≠ toLimbs n 1
        ∧ (invLoop (modLimbs n m) (toLimbs n 1) (64 * n) f u v b c).2.1 = toLimbs n 1
        ∧ InvSt n m A (invLoop (modLimbs n m) (toLimbs n 1) (64 * n) f u v b c).2.1
            (invLoop (modLimbs n m) (toLimbs n 1) (64 * n) f u v b c).2.2.2) := by
  have hpow : (2 : Nat) ^ (64 * n) = B ^ n := by
    rw [pow_mul]
    rfl
  intro f
  induction f with
  | zero =>
      intro u v b c hub hvc hgcd hsum
      have hu1 : val u = 1 := by
        have h1 := hub.2.2.1
        have h2 := hvc.2.2.1
        omega
      left
      refine ⟨?_, hub⟩
      show u = toLimbs n 1
      exact (eq_one_limbs_iff hn hub.1 hub.2.1).mpr hu1
  | succ f ih =>
      intro u v b c hub hvc hgcd hsum
      rw [invLoop]
      by_cases hg : u ≠ toLimbs n 1 ∧ v ≠ toLimbs n 1
      · rw [if_pos hg]
        have hult : val u < 2 ^ (64 * n) := by
          rw [hpow, ← hub.2.1]
          exact val_lt hub.1
        have hvlt : val v < 2 ^ (64 * n) := by
          rw [hpow, ← hvc.2.1]
          exact val_lt hvc.1
        have hv1orig := hvc.2.2.1
        have hu1orig := hub.2.2.1
        obtain ⟨hust, hugcd, hule, huodd⟩ :=
          halveLoop_spec hn hm1 hodd hcap (64 * n) u b hub hgcd hult
        have hgcd2 : Nat.gcd (val v)
            (val (halveLoop (modLimbs n m) (64 * n) u b).1) = 1 := by
          rw [Nat.gcd_comm]
          exact hugcd
        obtain ⟨hvst, hvgcd, hvle, hvodd⟩ :=
          halveLoop_spec hn hm1 hodd hcap (64 * n) v c hvc hgcd2 hvlt
        obtain ⟨hun, hul, hu1, hbFe, hbc⟩ := hust
        obtain ⟨hvn, hvl, hv1, hcFe, hcc⟩ := hvst
        have hgcduv : Nat.gcd (val (halveLoop (modLimbs n m) (64 * n) u b).1)
            (val (halveLoop (modLimbs n m) (64 * n) v c).1) = 1 := by
          rw [Nat.gcd_comm]
          exact hvgcd
        have hcmp := cmp_spec (halveLoop (modLimbs n m) (64 * n) v c).1
          (halveLoop (modLimbs n m) (64 * n) u b).1 hvn hun (by rw [hul, hvl])
        obtain ⟨hMn, hMl, hMv⟩ := modLimbs_spec (m_lt_pow (by omega) hcap)
        have hmm0 : (m : Nat) ≡ 0 [MOD m] := Nat.modEq_zero_iff_dvd.mpr dvd_rfl
        by_cases hlt : val (halveLoop (modLimbs n m) (64 * n) v c).1
            < val (halveLoop (modLimbs n m) (64 * n) u b).1
        · rw [if_pos (by rw [hcmp]; exact Nat.compare_eq_lt.mpr hlt)]
          obtain ⟨hsv, hsn, hsl⟩ := sub_exact hun hvn (by rw [hul, hvl]) (by omega)
          obtain ⟨hb2n, hb2l, hb2v⟩ := sub_assign_spec hMn hbFe.1 hcFe.1
            (by rw [hbFe.2.1, hMl]) (by rw [hcFe.2.1, hMl])
            (by rw [hMv]; exact hbFe.2.2) (by rw [hMv]; exact hcFe.2.2)
            (by rw [hMv, hMl]; exact hcap)
          rw [hMv] at hb2v
          have hb2Fe : Fe n m (sub_assign (modLimbs n m)
              (halveLoop (modLimbs n m) (64 * n) u b).2
              (halveLoop (modLimbs n m) (64 * n) v c).2) := by
            refine ⟨hb2n, by rw [hb2l, hMl], ?_⟩
            rw [hb2v]
            exact Nat.mod_lt _ (by omega)
          have hcong2 : val (sub_assign (modLimbs n m)
                (halveLoop (modLimbs n m) (64 * n) u b).2
                (halveLoop (modLimbs n m) (64 * n) v c).2) * A
              ≡ val (sub_noborrow (halveLoop (modLimbs n m) (64 * n) u b).1
                  (halveLoop (modLimbs n m) (64 * n) v c).1 0).1
                * R2v n m [MOD m] := by
            rw [hsv]
            have h1 : val (sub_assign (modLimbs n m)
                  (halveLoop (modLimbs n m) (64 * n) u b).2
                  (halveLoop (modLimbs n m) (64 * n) v c).2)
                ≡ val (halveLoop (modLimbs n m) (64 * n) u b).2 + m
                  - val (halveLoop (modLimbs n m) (64 * n) v c).2 [MOD m] := by
              rw [hb2v]
              exact Nat.mod_modEq _ _
            have h2 : val (sub_assign (modLimbs n m)
                  (halveLoop (modLimbs n m) (64 * n) u b).2
                  (halveLoop (modLimbs n m) (64 * n) v c).2)
                  + val (halveLoop (modLimbs n m) (64 * n) v c).2
                ≡ val (halveLoop (modLimbs n m) (64 * n) u b).2 [MOD m] := by
              have h2a := h1.add_right (val (halveLoop (modLimbs n m) (64 * n) v c).2)
              have he : val (halveLoop (modLimbs n m) (64 * n) u b).2 + m
                  - val (halveLoop (modLimbs n m) (64 * n) v c).2
                  + val (halveLoop (modLimbs n m) (64 * n) v c).2
                  = val (halveLoop (modLimbs n m) (64 * n) u b).2 + m := by
                have := hcFe.2.2
                omega
              rw [he] at h2a
              refine h2a.trans ?_
              have h2b := Nat.ModEq.add_left
                (val (halveLoop (modLimbs n m) (64 * n) u b).2) hmm0
              simpa using h2b
            have h3 := (h2.mul_right A).trans hbc
            have h4 : (val (halveLoop (modLimbs n m) (64 * n) u b).1
                  - val (halveLoop (modLimbs n m) (64 * n) v c).1) * R2v n m
                  + val (halveLoop (modLimbs n m) (64 * n) v c).1 * R2v n m
                = val (halveLoop (modLimbs n m) (64 * n) u b).1 * R2v n m := by
              rw [← Nat.add_mul, Nat.sub_add_cancel (le_of_lt hlt)]
            rw [Nat.add_mul] at h3
            rw [← h4] at h3
            exact Nat.ModEq.add_right_cancel hcc h3
          refine ih _ _ _ _
            ⟨hsn, by rw [hsl, hul], by omega, hb2Fe, hcong2⟩
            ⟨hvn, hvl, hv1, hcFe, hcc⟩
            ?_ ?_
          · rw [hsv, gcd_sub_left (le_of_lt hlt)]
            exact hgcduv
          · rw [hsv]
            have := Nat.sub_add_cancel (le_of_lt hlt)
            omega
        · rw [if_neg (by rw [hcmp]; intro hc; exact hlt (Nat.compare_eq_lt.mp hc))]
          by_cases hone : (halveLoop (modLimbs n m) (64 * n) u b).1 = toLimbs n 1
          · rw [invLoop_of_one hone]
            left
            exact ⟨hone, hun, hul, hu1, hbFe, hbc⟩
          · have hnot1 : val (halveLoop (modLimbs n m) (64 * n) u b).1 ≠ 1 :=
              fun h => hone ((eq_one_limbs_iff hn hun hul).mpr h)
            have hge : val (halveLoop (modLimbs n m) (64 * n) u b).1
                ≤ val (halveLoop (modLimbs n m) (64 * n) v c).1 := Nat.le_of_not_lt hlt
            have hstrict : val (halveLoop (modLimbs n m) (64 * n) u b).1
                < val (halveLoop (modLimbs n m) (64 * n) v c).1 := by
              rcases Nat.lt_or_ge (val (halveLoop (modLimbs n m) (64 * n) u b).1)
                (val (halveLoop (modLimbs n m) (64 * n) v c).1) with h | h
              · exact h
              · exfalso
                have heq : val (halveLoop (modLimbs n m) (64 * n) u b).1
                    = val (halveLoop (modLimbs n m) (64 * n) v c).1 := by omega
                rw [heq, Nat.gcd_self] at hgcduv
                rw [heq] at hnot1
                exact hnot1 hgcduv
            obtain ⟨hsv, hsn, hsl⟩ := sub_exact hvn hun (by rw [hul, hvl]) hge
            obtain ⟨hc2n, hc2l, hc2v⟩ := sub_assign_spec hMn hcFe.1 hbFe.1
              (by rw [hcFe.2.1, hMl]) (by rw [hbFe.2.1, hMl])
              (by rw [hMv]; exact hcFe.2.2) (by rw [hMv]; exact hbFe.2.2)
              (by rw [hMv, hMl]; exact hcap)
            rw [hMv] at hc2v
            have hc2Fe : Fe n m (sub_assign (modLimbs n m)
                (halveLoop (modLimbs n m) (64 * n) v c).2
                (halveLoop (modLimbs n m) (64 * n) u b).2) := by
              refine ⟨hc2n, by rw [hc2l, hMl], ?_⟩
              rw [hc2v]
              exact Nat.mod_lt _ (by omega)
            have hcong2 : val (sub_assign (modLimbs n m)
                  (halveLoop (modLimbs n m) (64 * n) v c).2
                  (halveLoop (modLimbs n m) (64 * n) u b).2) * A
                ≡ val (sub_noborrow (halveLoop (modLimbs n m) (64 * n) v c).1
                    (halveLoop (modLimbs n m) (64 * n) u b).1 0).1
                  * R2v n m [MOD m] := by
              rw [hsv]
              have h1 : val (sub_assign (modLimbs n m)
                    (halveLoop (modLimbs n m) (64 * n) v c).2
                    (halveLoop (modLimbs n m) (64 * n) u b).2)
                  ≡ val (halveLoop (modLimbs n m) (64 * n) v c).2 + m
                    - val (halveLoop (modLimbs n m) (64 * n) u b).2 [MOD m] := by
                rw [hc2v]
                exact Nat.mod_modEq _ _
              have h2 : val (sub_assign (modLimbs n m)
                    (halveLoop (modLimbs n m) (64 * n) v c).2
                    (halveLoop (modLimbs n m) (64 * n) u b).2)
                    + val (halveLoop (modLimbs n m) (64 * n) u b).2
                  ≡ val (halveLoop (modLimbs n m) (64 * n) v c).2 [MOD m] := by
                have h2a := h1.add_right (val (halveLoop (modLimbs n m) (64 * n) u b).2)
                have he : val (halveLoop (modLimbs n m) (64 * n) v c).2 + m
                    - val (halveLoop (modLimbs n m) (64 * n) u b).2
                    + val (halveLoop (modLimbs n m) (64 * n) u b).2
                    = val (halveLoop (modLimbs n m) (64 * n) v c).2 + m := by
                  have := hbFe.2.2
                  omega
                rw [he] at h2a
                refine h2a.trans ?_
                have h2b := Nat.ModEq.add_left
                  (val (halveLoop (modLimbs n m) (64 * n) v c).2) hmm0
                simpa using h2b
              have h3 := (h2.mul_right A).trans hcc
              have h4 : (val (halveLoop (modLimbs n m) (64 * n) v c).1
                    - val (halveLoop (modLimbs n m) (64 * n) u b).1) * R2v n m
                    + val (halveLoop (modLimbs n m) (64 * n) u b).1 * R2v n m
                  = val (halveLoop (modLimbs n m) (64 * n) v c).1 * R2v n m := by
                rw [← Nat.add_mul, Nat.sub_add_cancel hge]
              rw [Nat.add_mul] at h3
              rw [← h4] at h3
              exact Nat.ModEq.add_right_cancel hbc h3
            refine ih _ _ _ _
              ⟨hun, hul, hu1, hbFe, hbc⟩
              ⟨hsn, by rw [hsl, hvl], by omega, hc2Fe, hcong2⟩
              ?_ ?_
            · rw [hsv, Nat.gcd_comm, gcd_sub_left hge, Nat.gcd_comm]
              exact hgcduv
            · rw [hsv]
              have := Nat.sub_add_cancel hge
              omega
      · rw [if_neg hg]
        by_cases hu2 : u = toLimbs n 1
        · left
          exact ⟨hu2, hub⟩
        · right
          have hv2 : v = toLimbs n 1 := by
            by_contra hv3
            exact hg ⟨hu2, hv3⟩
          exact ⟨hu2, hv2, hvc⟩

/-- C1: `inverse` returns `None` exactly when the element is zero; on every
nonzero well-formed element it returns `Some b` with `x * b = one`, computed
by the binary extended Euclidean algorithm that tracks `(u, v)` starting from
`(x, MODULUS)` and coefficients `(b, c)` starting from `(R2, 0)`. -/
theorem c1_inverse {n m inv : Nat} (hn : 0 < n) (hp : Nat.Prime m)
    (hodd : m % 2 = 1) (hcap : 2 * m ≤ B ^ n)
    (hinv : (inv * (modLimbs n m).headD 0 + 1) % B = 0)
    {x : List Nat} (hx : Fe n m x) :
    (inverse n m x = none ↔ val x = 0)
    ∧ ∀ b, inverse n m x = some b →
        Fe n m b ∧ mul_assign (modLimbs n m) inv x b = oneE n m := by
  have hm1 : 1 < m := hp.one_lt
  obtain ⟨hMn, hMl, hMv⟩ := modLimbs_spec (m_lt_pow (by omega) hcap)
  have hMne : modLimbs n m ≠ [] := by
    intro h
    have := congrArg List.length h
    rw [hMl] at this
    simp at this
    omega
  have hBn1 : (1 : Nat) < B ^ n := by
    have h2 : B ^ 1 ≤ B ^ n := Nat.pow_le_pow_right (Nat.le_of_lt one_lt_B) hn
    have := one_lt_B
    simp only [pow_one] at h2
    omega
  have hR2lt : R2v n m < m := Nat.mod_lt _ (by omega)
  have hRlt : Rv n m < m := Nat.mod_lt _ (by omega)
  have hR2val : val (toLimbs n (R2v n m)) = R2v n m :=
    val_toLimbs_of_lt (lt_trans hR2lt (m_lt_pow (by omega) hcap))
  have hRval : val (toLimbs n (Rv n m)) = Rv n m :=
    val_toLimbs_of_lt (lt_trans hRlt (m_lt_pow (by omega) hcap))
  have key : ∀ bb : List Nat, Fe n m bb →
      val bb * val x ≡ R2v n m [MOD m] →
      mul_assign (modLimbs n m) inv x bb = oneE n m := by
    intro bb hbb hcong
    obtain ⟨hy1, hy2, hy3, hy4⟩ := mul_assign_spec hMn hMne hinv
      (by rw [hMv, hMl]; exact hcap) hx.1 hbb.1
      (by rw [hx.2.1, hMl]) (by rw [hbb.2.1, hMl])
      (by rw [hMv]; exact hx.2.2) (by rw [hMv]; exact hbb.2.2)
    rw [hMv, hMl] at hy4
    have hRmod : (B ^ n : Nat) ≡ Rv n m [MOD m] := (Nat.mod_modEq _ _).symm
    have step : B ^ n * val (mul_assign (modLimbs n m) inv x bb)
        ≡ B ^ n * Rv n m [MOD m] := by
      refine hy4.trans ?_
      have s1 : val x * val bb ≡ R2v n m [MOD m] := by
        rw [Nat.mul_comm]
        exact hcong
      refine s1.trans ?_
      have s2 : R2v n m ≡ Rv n m * Rv n m [MOD m] := Nat.mod_modEq _ _
      refine s2.trans ?_
      exact Nat.ModEq.mul_right _ hRmod.symm
    have hco2 : Nat.Coprime 2 m := Nat.coprime_two_left.mpr (Nat.odd_iff.mpr hodd)
    have hcoB : Nat.Coprime B m := Nat.Coprime.pow_left 64 hco2
    have hco : Nat.gcd m (B ^ n) = 1 := (Nat.Coprime.pow_left n hcoB).symm
    have hfinal : val (mul_assign (modLimbs n m) inv x bb) ≡ Rv n m [MOD m] :=
      Nat.ModEq.cancel_left_of_coprime hco step
    have hmod : val (mul_assign (modLimbs n m) inv x bb) % m = Rv n m % m := hfinal
    rw [Nat.mod_eq_of_lt (by rw [hMv] at hy3; exact hy3),
      Nat.mod_eq_of_lt hRlt] at hmod
    rw [oneE]
    refine val_injective hy1 (toLimbs_norm n (Rv n m)) ?_ ?_
    · rw [hy2, hMl, toLimbs_length]
    · rw [hmod, hRval]
  constructor
  · constructor
    · intro hnone
      by_cases hz : is_zero x
      · exact is_zero_iff.mp hz
      · exfalso
        rw [inverse, if_neg hz] at hnone
        by_cases hc : (invLoop (modLimbs n m) (toLimbs n 1) (64 * n) (val x + m)
            x (modLimbs n m) (toLimbs n (R2v n m)) (zeroE n)).1 = toLimbs n 1
        · rw [if_pos hc] at hnone
          exact Option.noConfusion hnone
        · rw [if_neg hc] at hnone
          exact Option.noConfusion hnone
    · intro hval
      rw [inverse, if_pos (is_zero_iff.mpr hval)]
  · intro b hb
    by_cases hz : is_zero x
    · rw [inverse, if_pos hz] at hb
      exact Option.noConfusion hb
    · rw [inverse, if_neg hz] at hb
      have hx0 : 1 ≤ val x := by
        have hne : val x ≠ 0 := fun h => hz (is_zero_iff.mpr h)
        omega
      have hstU : InvSt n m (val x) x (toLimbs n (R2v n m)) := by
        refine ⟨hx.1, hx.2.1, hx0,
          ⟨toLimbs_norm n _, toLimbs_length n _, by rw [hR2val]; exact hR2lt⟩, ?_⟩
        rw [hR2val, Nat.mul_comm]
      have hstV : InvSt n m (val x) (modLimbs n m) (zeroE n) := by
        refine ⟨hMn, hMl, by omega, ?_, ?_⟩
        · refine ⟨toLimbs_norm n 0, toLimbs_length n 0, ?_⟩
          rw [zeroE, val_toLimbs_of_lt (by omega)]
          omega
        · rw [zeroE, val_toLimbs_of_lt (by omega), hMv]
          have h0 : (0 : Nat) * val x = 0 := by ring
          rw [h0]
          exact (Nat.modEq_zero_iff_dvd.mpr (dvd_mul_right m _)).symm
      have hgcd : Nat.gcd (val x) m = 1 := by
        have hnd : ¬ m ∣ val x := by
          intro hd
          have := Nat.le_of_dvd (by omega) hd
          have := hx.2.2
          omega
        exact Nat.coprime_comm.mp ((Nat.Prime.coprime_iff_not_dvd hp).mpr hnd)
      have hgcd2 : Nat.gcd (val x) (val (modLimbs n m)) = 1 := by
        rw [hMv]
        exact hgcd
      have hsum : val x + val (modLimbs n m) ≤ (val x + m) + 2 := by
        rw [hMv]
        omega
      have hmain := invLoop_spec hn hm1 hodd hcap (val x + m)
        x (modLimbs n m) (toLimbs n (R2v n m)) (zeroE n) hstU hstV hgcd2 hsum
      by_cases hc : (invLoop (modLimbs n m) (toLimbs n 1) (64 * n) (val x + m)
          x (modLimbs n m) (toLimbs n (R2v n m)) (zeroE n)).1 = toLimbs n 1
      · rw [if_pos hc] at hb
        have hbq := Option.some.inj hb
        rcases hmain with ⟨h1, hst⟩ | ⟨h1, h2, hst⟩
        · obtain ⟨hun, hul, hu1, hbFe, hbcong⟩ := hst
          have hval1 : val (invLoop (modLimbs n m) (toLimbs n 1) (64 * n)
              (val x + m) x (modLimbs n m) (toLimbs n (R2v n m)) (zeroE n)).1 = 1 := by
            rw [hc, val_toLimbs_of_lt hBn1]
          rw [hval1, one_mul] at hbcong
          rw [← hbq]
          exact ⟨hbFe, key _ hbFe hbcong⟩
        · exact absurd hc h1
      · rw [if_neg hc] at hb
        have hbq := Option.some.inj hb
        rcases hmain with ⟨h1, hst⟩ | ⟨h1, h2, hst⟩
        · exact absurd h1 hc
        · obtain ⟨hun, hul, hu1, hbFe, hbcong⟩ := hst
          have hval1 : val (invLoop (modLimbs n m) (toLimbs n 1) (64 * n)
              (val x + m) x (modLimbs n m) (toLimbs n (R2v n m)) (zeroE n)).2.1 = 1 := by
            rw [h2, val_toLimbs_of_lt hBn1]
          rw [hval1, one_mul] at hbcong
          rw [← hbq]
          exact ⟨hbFe, key _ hbFe hbcong⟩

theorem c1_witness :
    (inverse 1 13 [5] = none ↔ val [5] = 0)
    ∧ ∀ b, inverse 1 13 [5] = some b →
        Fe 1 13 b ∧ mul_assign (modLimbs 1 13) (computeInv (13 % B)) [5] b
          = oneE 1 13 :=
  c1_inverse (by decide) (by norm_num) (by decide) (by decide)
    (inv_works (by decide) (by decide)) ⟨by decide, rfl, by decide⟩

theorem val_zeroE (n : Nat) : val (zeroE n) = 0 := by
  rw [zeroE, val_toLimbs]
  simp

theorem expNat_cast {g e m : Nat} :
    ((expNat g e m : Nat) : ZMod m) = ((g : Nat) : ZMod m) ^ e := by
  unfold expNat
  obtain ⟨-, h⟩ := powBits_spec (fun x y => x * y % m) (fun _ => True)
    (fun x : Nat => (x : ZMod m)) g trivial (fun _ _ _ _ => trivial)
    (fun x y _ _ => by
      show ((x * y % m : Nat) : ZMod m) = ((x : Nat) : ZMod m) * ((y : Nat) : ZMod m)
      rw [ZMod.natCast_mod, Nat.cast_mul])
    ((List.range e).reverse.map (fun i => e / 2 ^ i % 2 == 1)) 1 trivial
  rw [h, bitsVal_range_aux]
  simp [Nat.mod_eq_of_lt (Nat.lt_two_pow e)]

section SqrtHelpers

variable {q n inv g : Nat} {w : ZMod q}

theorem eq_zeroE_of_val (hq : 0 < q) (hn : 0 < n) (hx : Fe n q x)
    (h : val x = 0) : x = zeroE n := by
  refine val_injective hx.1 (Fe_zero hq hn).1 ?_ ?_
  · rw [hx.2.1, (Fe_zero hq hn).2.1]
  · rw [h, val_zeroE]

theorem phiW_ne_zero (hw : (B : ZMod q) ^ n * w = 1) (hx : Fe n q x)
    (h : val x ≠ 0) : phiW q w x ≠ 0 := by
  intro h0
  unfold phiW at h0
  have h2 : (val x : ZMod q) * w * (B : ZMod q) ^ n = 0 := by rw [h0, zero_mul]
  have hv : ((val x : Nat) : ZMod q) = 0 := by
    calc (val x : ZMod q) = (val x : ZMod q) * ((B : ZMod q) ^ n * w) := by
          rw [hw]; ring
    _ = (val x : ZMod q) * w * (B : ZMod q) ^ n := by ring
    _ = 0 := h2
  rw [ZMod.natCast_zmod_eq_zero_iff_dvd] at hv
  have h3 := Nat.le_of_dvd (Nat.pos_of_ne_zero h) hv
  have h4 := hx.2.2
  omega

theorem phiW_val_zero (h : val x = 0) : phiW q w x = 0 := by
  unfold phiW
  rw [h]
  simp

theorem Rv_pos (hm1 : 1 < q) (hodd : q % 2 = 1) : 1 ≤ Rv n q := by
  by_contra h
  push_neg at h
  have h0 : Rv n q = 0 := by omega
  have hdvd : q ∣ B ^ n := Nat.dvd_of_mod_eq_zero h0
  have hco2 : Nat.Coprime 2 q := Nat.coprime_two_left.mpr (Nat.odd_iff.mpr hodd)
  have hcoB : Nat.Coprime B q := Nat.Coprime.pow_left 64 hco2
  have hcoBn : Nat.Coprime (B ^ n) q := Nat.Coprime.pow_left n hcoB
  have h1 : q ∣ Nat.gcd (B ^ n) q := Nat.dvd_gcd hdvd dvd_rfl
  rw [hcoBn] at h1
  have := Nat.le_of_dvd (by omega) h1
  omega

theorem phiW_rnegL (hm1 : 1 < q) (hn : 0 < n) (hodd : q % 2 = 1)
    (hcap : 2 * q ≤ B ^ n) (hw : (B : ZMod q) ^ n * w = 1) :
    Fe n q (rnegL n q) ∧ phiW q w (rnegL n q) = -1 := by
  have hR : Rv n q < q := Nat.mod_lt _ (by omega)
  have hR1 : 1 ≤ Rv n q := Rv_pos hm1 hodd
  have hv : val (rnegL n q) = q - Rv n q :=
    val_toLimbs_of_lt (by have := m_lt_pow (by omega) hcap; omega)
  refine ⟨⟨toLimbs_norm _ _, toLimbs_length _ _, by rw [hv]; omega⟩, ?_⟩
  unfold phiW
  rw [hv]
  have hcast : ((q - Rv n q : Nat) : ZMod q) = -((Rv n q : Nat) : ZMod q) := by
    rw [Nat.cast_sub (le_of_lt hR), ZMod.natCast_self]
    ring
  have hRB : ((Rv n q : Nat) : ZMod q) = (B : ZMod q) ^ n := by
    show ((B ^ n % q : Nat) : ZMod q) = _
    rw [ZMod.natCast_mod, Nat.cast_pow]
  rw [hcast, hRB]
  calc -((B : ZMod q) ^ n) * w = -((B : ZMod q) ^ n * w) := by ring
  _ = -1 := by rw [hw]

theorem phiW_rootOfUnity (hm1 : 1 < q) (hn : 0 < n) (hcap : 2 * q ≤ B ^ n)
    (hw : (B : ZMod q) ^ n * w = 1) :
    Fe n q (rootOfUnityL n q g)
    ∧ phiW q w (rootOfUnityL n q g) = ((g : Nat) : ZMod q) ^ tVal q := by
  have hlt : expNat g (tVal q) q * Rv n q % q < q := Nat.mod_lt _ (by omega)
  have hv : val (rootOfUnityL n q g) = expNat g (tVal q) q * Rv n q % q :=
    val_toLimbs_of_lt (lt_trans hlt (m_lt_pow (by omega) hcap))
  refine ⟨⟨toLimbs_norm _ _, toLimbs_length _ _, by rw [hv]; exact hlt⟩, ?_⟩
  unfold phiW
  rw [hv]
  have h1 : ((expNat g (tVal q) q * Rv n q % q : Nat) : ZMod q)
      = ((expNat g (tVal q) q : Nat) : ZMod q) * ((Rv n q : Nat) : ZMod q) := by
    rw [ZMod.natCast_mod, Nat.cast_mul]
  have hRB : ((Rv n q : Nat) : ZMod q) = (B : ZMod q) ^ n := by
    show ((B ^ n % q : Nat) : ZMod q) = _
    rw [ZMod.natCast_mod, Nat.cast_pow]
  rw [h1, expNat_cast, hRB]
  calc ((g : Nat) : ZMod q) ^ tVal q * (B : ZMod q) ^ n * w
      = ((g : Nat) : ZMod q) ^ tVal q * ((B : ZMod q) ^ n * w) := by ring
  _ = _ := by rw [hw]; ring

theorem Fe_square (hn : 0 < n) (hodd : q % 2 = 1) (hcap : 2 * q ≤ B ^ n)
    (hinv : (inv * (modLimbs n q).headD 0 + 1) % B = 0)
    (hw : (B : ZMod q) ^ n * w = 1) (ha : Fe n q a) :
    Fe n q (square (modLimbs n q) inv a)
    ∧ phiW q w (square (modLimbs n q) inv a) = phiW q w a ^ 2 := by
  have hane : a ≠ [] := by
    intro h
    rw [h] at ha
    have h2 := ha.2.1
    simp at h2
    omega
  constructor
  · rw [square_eq_mul_assign ha.1 hane]
    exact (Fe_mul hn hodd hcap hinv ha ha).1
  · rw [square_eq_mul_assign ha.1 hane,
      phiW_mul hn hodd hcap hinv hw ha ha, sq]

theorem iterSq_spec (hn : 0 < n) (hodd : q % 2 = 1) (hcap : 2 * q ≤ B ^ n)
    (hinv : (inv * (modLimbs n q).headD 0 + 1) % B = 0)
    (hw : (B : ZMod q) ^ n * w = 1) :
    ∀ (k : Nat) (a : List Nat), Fe n q a →
      Fe n q (iterSq (modLimbs n q) inv a k)
      ∧ phiW q w (iterSq (modLimbs n q) inv a k) = phiW q w a ^ 2 ^ k := by
  intro k
  induction k with
  | zero =>
      intro a ha
      exact ⟨ha, by simp [iterSq]⟩
  | succ k ih =>
      intro a ha
      have hstep : iterSq (modLimbs n q) inv a (k + 1)
          = iterSq (modLimbs n q) inv (square (modLimbs n q) inv a) k := rfl
      obtain ⟨h1, h2⟩ := Fe_square hn hodd hcap hinv hw ha
      obtain ⟨h3, h4⟩ := ih _ h1
      rw [hstep]
      refine ⟨h3, ?_⟩
      rw [h4, h2, ← pow_mul]
      congr 1
      rw [pow_succ]
      ring

theorem findI_spec (hm1 : 1 < q) (hn : 0 < n) (hodd : q % 2 = 1)
    (hcap : 2 * q ≤ B ^ n)
    (hinv : (inv * (modLimbs n q).headD 0 + 1) % B = 0)
    (hw : (B : ZMod q) ^ n * w = 1) (T : ZMod q) :
    ∀ (f i : Nat) (t2i : List Nat), Fe n q t2i →
      phiW q w t2i = T ^ 2 ^ i → 1 ≤ i →
      T ^ 2 ^ (i - 1) ≠ 1 →
      (∃ k, i ≤ k ∧ k < i + f ∧ T ^ 2 ^ k = 1) →
      ∃ j, findI (modLimbs n q) (oneE n q) inv f t2i i = some j
        ∧ i ≤ j ∧ j < i + f ∧ T ^ 2 ^ j = 1 ∧ T ^ 2 ^ (j - 1) ≠ 1 := by
  intro f
  induction f with
  | zero =>
      intro i t2i _ _ _ _ hex
      obtain ⟨k, hk1, hk2, -⟩ := hex
      omega
  | succ f ih =>
      intro i t2i hFe hphi hi hprev hex
      by_cases hone : t2i = oneE n q
      · refine ⟨i, ?_, le_refl i, by omega, ?_, hprev⟩
        · rw [findI, if_pos hone]
        · rw [← hphi, hone]
          exact phiW_one hm1 hn hcap hw
      · have hne1 : T ^ 2 ^ i ≠ 1 := by
          intro h
          apply hone
          refine phiW_inj hw hFe (Fe_one hm1 hn hcap) ?_
          rw [hphi, h, phiW_one hm1 hn hcap hw]
        obtain ⟨k, hk1, hk2, hk3⟩ := hex
        have hki : k ≠ i := by
          intro h
          rw [h] at hk3
          exact hne1 hk3
        obtain ⟨hsqFe, hsqphi⟩ := Fe_square hn hodd hcap hinv hw hFe
        have hphi2 : phiW q w (square (modLimbs n q) inv t2i) = T ^ 2 ^ (i + 1) := by
          rw [hsqphi, hphi, ← pow_mul]
          congr 1
        have hprev2 : T ^ 2 ^ (i + 1 - 1) ≠ 1 := by
          simpa using hne1
        obtain ⟨j, hj0, hj1, hj2, hj3, hj4⟩ := ih (i + 1) _ hsqFe hphi2 (by omega)
          hprev2 ⟨k, by omega, by omega, hk3⟩
        refine ⟨j, ?_, by omega, by omega, hj3, hj4⟩
        rw [findI, if_neg hone]
        exact hj0

end SqrtHelpers

section SqrtLoop

variable {q n inv g : Nat} {w : ZMod q}

theorem tsLoop_spec [Fact (Nat.Prime q)] (hm1 : 1 < q) (hn : 0 < n)
    (hodd : q % 2 = 1) (hcap : 2 * q ≤ B ^ n)
    (hinv : (inv * (modLimbs n q).headD 0 + 1) % B = 0)
    (hw : (B : ZMod q) ^ n * w = 1) (X : ZMod q) :
    ∀ (f mm : Nat) (c r t : List Nat), Fe n q c → Fe n q r → Fe n q t →
      1 ≤ mm → mm ≤ f →
      phiW q w r ^ 2 = X * phiW q w t →
      phiW q w t ^ 2 ^ (mm - 1) = 1 →
      phiW q w c ^ 2 ^ (mm - 1) = -1 →
      ∃ res, tsLoop (modLimbs n q) (oneE n q) inv f c r t mm = some res
        ∧ Fe n q res ∧ phiW q w res ^ 2 = X := by
  intro f
  induction f with
  | zero =>
      intro mm c r t _ _ _ h1 h2 _ _ _
      omega
  | succ f ih =>
      intro mm c r t hc hr ht hmm1 hmmf hI1 hI2 hI3
      by_cases hone : t = oneE n q
      · refine ⟨r, ?_, hr, ?_⟩
        · rw [tsLoop, if_pos hone]
        · rw [hI1, hone, phiW_one hm1 hn hcap hw, mul_one]
      · have hTne : phiW q w t ≠ 1 := by
          intro h
          apply hone
          refine phiW_inj hw ht (Fe_one hm1 hn hcap) ?_
          rw [h, phiW_one hm1 hn hcap hw]
        have hmm2 : 2 ≤ mm := by
          rcases Nat.lt_or_ge mm 2 with h | h
          · exfalso
            have he : mm = 1 := by omega
            rw [he] at hI2
            simp only [Nat.sub_self, pow_zero, pow_one] at hI2
            exact hTne hI2
          · exact h
        obtain ⟨hsqtFe, hsqtphi⟩ := Fe_square hn hodd hcap hinv hw ht
        have hsqt2 : phiW q w (square (modLimbs n q) inv t)
            = phiW q w t ^ 2 ^ 1 := by
          rw [hsqtphi, pow_one]
        have hprev1 : phiW q w t ^ 2 ^ (1 - 1) ≠ 1 := by
          simpa using hTne
        obtain ⟨j, hfind, hj1, hj2, hj3, hj4⟩ := findI_spec hm1 hn hodd hcap hinv hw
          (phiW q w t) mm 1 _ hsqtFe hsqt2 (le_refl 1) hprev1
          ⟨mm - 1, by omega, by omega, hI2⟩
        have hjmm : j < mm := by
          by_contra hge
          push_neg at hge
          have hdecomp : j - 1 = (mm - 1) + (j - mm) := by omega
          apply hj4
          rw [hdecomp, pow_add, pow_mul, hI2, one_pow]
        obtain ⟨hcsFe, hcsphi⟩ := iterSq_spec hn hodd hcap hinv hw (mm - j - 1) c hc
        obtain ⟨hc2Fe, hc2phi⟩ := Fe_square hn hodd hcap hinv hw hcsFe
        have hc2phi' : phiW q w (square (modLimbs n q) inv
              (iterSq (modLimbs n q) inv c (mm - j - 1)))
            = phiW q w c ^ 2 ^ (mm - j) := by
          rw [hc2phi, hcsphi, ← pow_mul]
          congr 1
          rw [← pow_succ]
          congr 1
          omega
        obtain ⟨hr2Fe, -⟩ := Fe_mul hn hodd hcap hinv hr hcsFe
        have hr2phi := phiW_mul hn hodd hcap hinv hw hr hcsFe
        obtain ⟨ht2Fe, -⟩ := Fe_mul hn hodd hcap hinv ht hc2Fe
        have ht2phi := phiW_mul hn hodd hcap hinv hw ht hc2Fe
        have hhalf : phiW q w t ^ 2 ^ (j - 1) = -1 := by
          have hsq : phiW q w t ^ 2 ^ (j - 1) * phiW q w t ^ 2 ^ (j - 1) = 1 := by
            rw [← pow_add]
            have he : (2 : Nat) ^ (j - 1) + 2 ^ (j - 1) = 2 ^ j := by
              have he2 : (2 : Nat) ^ (j - 1) + 2 ^ (j - 1) = 2 ^ (j - 1) * 2 := by
                ring
              rw [he2, ← pow_succ]
              congr 1
              omega
            rw [he, hj3]
          rcases mul_self_eq_one_iff.mp hsq with h | h
          · exact absurd h hj4
          · exact h
        have hexp1 : (2 : Nat) ^ (mm - j) * 2 ^ (j - 1) = 2 ^ (mm - 1) := by
          rw [← pow_add]
          congr 1
          omega
        have hI3' : phiW q w (square (modLimbs n q) inv
              (iterSq (modLimbs n q) inv c (mm - j - 1))) ^ 2 ^ (j - 1) = -1 := by
          rw [hc2phi', ← pow_mul, hexp1, hI3]
        have hI2' : phiW q w (mul_assign (modLimbs n q) inv t
              (square (modLimbs n q) inv
                (iterSq (modLimbs n q) inv c (mm - j - 1)))) ^ 2 ^ (j - 1) = 1 := by
          rw [ht2phi, mul_pow, hhalf, hI3']
          ring
        have hI1' : phiW q w (mul_assign (modLimbs n q) inv r
              (iterSq (modLimbs n q) inv c (mm - j - 1))) ^ 2
            = X * phiW q w (mul_assign (modLimbs n q) inv t
                (square (modLimbs n q) inv
                  (iterSq (modLimbs n q) inv c (mm - j - 1)))) := by
          rw [hr2phi, ht2phi, hc2phi, mul_pow, hI1]
          ring
        obtain ⟨res, hres, hresFe, hresphi⟩ := ih j _ _ _ hc2Fe hr2Fe ht2Fe
          (by omega) (by omega) hI1' hI2' hI3'
        refine ⟨res, ?_, hresFe, hresphi⟩
        rw [tsLoop, if_neg hone]
        simp only [hfind]
        rw [if_neg (by omega)]
        exact hres

end SqrtLoop

theorem sqrt34_correct {n m inv : Nat} (hn : 0 < n) (hp : Nat.Prime m)
    (hm4 : m % 4 = 3) (hcap : 2 * m ≤ B ^ n)
    (hinv : (inv * (modLimbs n m).headD 0 + 1) % B = 0)
    {x : List Nat} (hx : Fe n m x) :
    (∀ r, sqrt34 n m inv x = some r → Fe n m r
        ∧ mul_assign (modLimbs n m) inv r r = x)
    ∧ (sqrt34 n m inv x = none → ∀ r, Fe n m r →
        mul_assign (modLimbs n m) inv r r ≠ x) := by
  haveI : Fact (Nat.Prime m) := ⟨hp⟩
  have hm1 : 1 < m := hp.one_lt
  have hodd : m % 2 = 1 := by omega
  haveI hf2 : Fact (2 < m) := ⟨by omega⟩
  obtain ⟨w, hw⟩ := exists_w (n := n) hodd
  have he34 : val (e34 n m) = (m - 3) / 4 :=
    val_toLimbs_of_lt (by have := m_lt_pow (by omega) hcap; omega)
  obtain ⟨ha1Fe, ha1phi⟩ := pow_spec hm1 hn hodd hcap hinv hw hx
    (show Norm (e34 n m) from toLimbs_norm _ _)
  rw [he34] at ha1phi
  obtain ⟨hsqFe, hsqphi⟩ := Fe_square hn hodd hcap hinv hw ha1Fe
  obtain ⟨ha0Fe, -⟩ := Fe_mul hn hodd hcap hinv hsqFe hx
  have ha0phi := phiW_mul hn hodd hcap hinv hw hsqFe hx
  obtain ⟨hrnFe, hrnphi⟩ := phiW_rnegL hm1 hn hodd hcap hw
  obtain ⟨houtFe, -⟩ := Fe_mul hn hodd hcap hinv ha1Fe hx
  have houtphi := phiW_mul hn hodd hcap hinv hw ha1Fe hx
  have ha0X : phiW m w (mul_assign (modLimbs n m) inv
      (square (modLimbs n m) inv (pow (modLimbs n m) inv (oneE n m) x (e34 n m))) x)
      = phiW m w x ^ ((m - 1) / 2) := by
    rw [ha0phi, hsqphi, ha1phi, ← pow_mul, ← pow_succ]
    congr 1
    omega
  constructor
  · intro r hr
    unfold sqrt34 at hr
    by_cases hcond : mul_assign (modLimbs n m) inv
        (square (modLimbs n m) inv (pow (modLimbs n m) inv (oneE n m) x (e34 n m))) x
        = rnegL n m
    · rw [if_pos hcond] at hr
      exact Option.noConfusion hr
    · rw [if_neg hcond] at hr
      have hreq := Option.some.inj hr
      rw [← hreq]
      refine ⟨houtFe, ?_⟩
      by_cases hx0 : val x = 0
      · apply phiW_inj hw (Fe_mul hn hodd hcap hinv houtFe houtFe).1 hx
        rw [phiW_mul hn hodd hcap hinv hw houtFe houtFe, houtphi, phiW_val_zero hx0]
        ring
      · have hXne := phiW_ne_zero hw hx hx0
        have ha0sq : phiW m w (mul_assign (modLimbs n m) inv
              (square (modLimbs n m) inv (pow (modLimbs n m) inv (oneE n m) x (e34 n m))) x) = 1
            ∨ phiW m w (mul_assign (modLimbs n m) inv
              (square (modLimbs n m) inv (pow (modLimbs n m) inv (oneE n m) x (e34 n m))) x) = -1 := by
          apply mul_self_eq_one_iff.mp
          rw [ha0X, ← pow_add]
          have he : (m - 1) / 2 + (m - 1) / 2 = m - 1 := by omega
          rw [he]
          exact ZMod.pow_card_sub_one_eq_one hXne
        have ha0one : phiW m w (mul_assign (modLimbs n m) inv
            (square (modLimbs n m) inv (pow (modLimbs n m) inv (oneE n m) x (e34 n m))) x) = 1 := by
          rcases ha0sq with h | h
          · exact h
          · exact absurd (phiW_inj hw ha0Fe hrnFe (by rw [h, hrnphi])) hcond
        rw [ha0X] at ha0one
        apply phiW_inj hw (Fe_mul hn hodd hcap hinv houtFe houtFe).1 hx
        rw [phiW_mul hn hodd hcap hinv hw houtFe houtFe, houtphi, ha1phi]
        calc phiW m w x ^ ((m - 3) / 4) * phiW m w x
              * (phiW m w x ^ ((m - 3) / 4) * phiW m w x)
            = phiW m w x ^ ((m - 3) / 4 + 1 + ((m - 3) / 4 + 1)) := by
              ring
        _ = phiW m w x ^ ((m - 1) / 2 + 1) := by
              congr 1
              omega
        _ = phiW m w x := by
              rw [pow_add, ha0one, pow_one, one_mul]
  · intro hnone r hrFe hreq
    unfold sqrt34 at hnone
    by_cases hcond : mul_assign (modLimbs n m) inv
        (square (modLimbs n m) inv (pow (modLimbs n m) inv (oneE n m) x (e34 n m))) x
        = rnegL n m
    · have hx0 : val x ≠ 0 := by
        intro h0
        have h1 : phiW m w (mul_assign (modLimbs n m) inv
            (square (modLimbs n m) inv (pow (modLimbs n m) inv (oneE n m) x (e34 n m))) x) = 0 := by
          rw [ha0phi, phiW_val_zero h0, mul_zero]
        rw [hcond, hrnphi] at h1
        exact one_ne_zero (neg_eq_zero.mp h1)
      have hXne := phiW_ne_zero hw hx hx0
      have hphix : phiW m w x = phiW m w r * phiW m w r := by
        have h2 := congrArg (phiW m w) hreq
        rw [phiW_mul hn hodd hcap hinv hw hrFe hrFe] at h2
        exact h2.symm
      have hrn0 : phiW m w r ≠ 0 := by
        intro h
        rw [h, mul_zero] at hphix
        exact hXne hphix
      have heuler : phiW m w x ^ ((m - 1) / 2) = 1 := by
        rw [hphix, ← pow_two, ← pow_mul]
        have he : 2 * ((m - 1) / 2) = m - 1 := by omega
        rw [he]
        exact ZMod.pow_card_sub_one_eq_one hrn0
      have h1 : (-1 : ZMod m) = 1 := by
        rw [← hrnphi, ← hcond, ha0X]
        exact heuler
      exact ZMod.neg_one_ne_one h1
    · rw [if_neg hcond] at hnone
      exact Option.noConfusion hnone

/-- C9: the `m % 4 = 3` square-root branch performs no explicit zero test,
yet `sqrt zero = some zero`: the chain `a1 = 0^((m-3)/4)`, `a0 = a1^2 * 0`
gives `a0 = zero ≠ -R`, so the branch returns `a1 * zero = zero` rather
than `None`. -/
theorem c9_sqrt_zero {n m inv : Nat} (hn : 0 < n) (hp : Nat.Prime m)
    (hm4 : m % 4 = 3) (hcap : 2 * m ≤ B ^ n)
    (hinv : (inv * (modLimbs n m).headD 0 + 1) % B = 0) :
    sqrt34 n m inv (zeroE n) = some (zeroE n) := by
  haveI : Fact (Nat.Prime m) := ⟨hp⟩
  have hm1 : 1 < m := hp.one_lt
  have hodd : m % 2 = 1 := by omega
  obtain ⟨w, hw⟩ := exists_w (n := n) hodd
  have hz : Fe n m (zeroE n) := Fe_zero (by omega) hn
  obtain ⟨ha1Fe, -⟩ := pow_spec hm1 hn hodd hcap hinv hw hz
    (show Norm (e34 n m) from toLimbs_norm _ _)
  obtain ⟨hsqFe, -⟩ := Fe_square hn hodd hcap hinv hw ha1Fe
  obtain ⟨ha0Fe, -⟩ := Fe_mul hn hodd hcap hinv hsqFe hz
  have ha0phi := phiW_mul hn hodd hcap hinv hw hsqFe hz
  obtain ⟨hrnFe, hrnphi⟩ := phiW_rnegL hm1 hn hodd hcap hw
  have ha0z : phiW m w (mul_assign (modLimbs n m) inv
      (square (modLimbs n m) inv
        (pow (modLimbs n m) inv (oneE n m) (zeroE n) (e34 n m))) (zeroE n)) = 0 := by
    rw [ha0phi, phiW_zero, mul_zero]
  have hcond : ¬ (mul_assign (modLimbs n m) inv
      (square (modLimbs n m) inv
        (pow (modLimbs n m) inv (oneE n m) (zeroE n) (e34 n m))) (zeroE n)
      = rnegL n m) := by
    intro h
    rw [h, hrnphi] at ha0z
    exact one_ne_zero (neg_eq_zero.mp ha0z)
  unfold sqrt34
  rw [if_neg hcond]
  congr 1
  apply phiW_inj hw (Fe_mul hn hodd hcap hinv ha1Fe hz).1 hz
  rw [phiW_mul hn hodd hcap hinv hw ha1Fe hz, phiW_zero, mul_zero]

theorem sqrtTS_pass {n m inv g : Nat} (hn : 0 < n) (hp : Nat.Prime m)
    (hm16 : m % 16 = 1) (hcap : 2 * m ≤ B ^ n)
    (hinv : (inv * (modLimbs n m).headD 0 + 1) % B = 0)
    (hg : ¬ IsSquare ((g : Nat) : ZMod m))
    {x : List Nat} (hx : Fe n m x) (hx0 : val x ≠ 0)
    (hE : pow (modLimbs n m) inv (oneE n m) x (e12 n m) = oneE n m) :
    ∃ res, sqrtTS n m inv g x = some res ∧ Fe n m res
      ∧ mul_assign (modLimbs n m) inv res res = x := by
  haveI : Fact (Nat.Prime m) := ⟨hp⟩
  have hm1 : 1 < m := hp.one_lt
  have hm17 : 17 ≤ m := by
    rcases Nat.lt_or_ge m 17 with h | h
    · interval_cases m <;> omega
    · exact h
  have hodd : m % 2 = 1 := by omega
  haveI : Fact (2 < m) := ⟨by omega⟩
  obtain ⟨w, hw⟩ := exists_w (n := n) hodd
  obtain ⟨hsplit, htodd⟩ := oddSplit_spec (m - 1) (by omega)
  have hsplit' : 2 ^ sVal m * tVal m = m - 1 := hsplit
  have htodd' : tVal m % 2 = 1 := htodd
  have h2s1 : 1 ≤ 2 ^ sVal m := Nat.one_le_two_pow
  have ht_le : tVal m ≤ m - 1 := by
    calc tVal m = 1 * tVal m := (one_mul _).symm
    _ ≤ 2 ^ sVal m * tVal m := Nat.mul_le_mul_right _ h2s1
    _ = m - 1 := hsplit'
  have hs1 : 1 ≤ sVal m := by
    by_contra h
    push_neg at h
    have hs0 : sVal m = 0 := by omega
    rw [hs0, pow_zero, one_mul] at hsplit'
    omega
  have hmB : m < B ^ n := m_lt_pow (by omega) hcap
  have he12 : val (e12 n m) = (m - 1) / 2 := val_toLimbs_of_lt (by omega)
  have htp12 : val (tp12 n m) = (tVal m + 1) / 2 := val_toLimbs_of_lt (by omega)
  have htl : val (tL n m) = tVal m := val_toLimbs_of_lt (by omega)
  have hz : ¬ is_zero x = true := by
    intro h
    exact hx0 (is_zero_iff.mp h)
  obtain ⟨hpeFe, hpephi⟩ := pow_spec hm1 hn hodd hcap hinv hw hx
    (show Norm (e12 n m) from toLimbs_norm _ _)
  have hEuler : phiW m w x ^ ((m - 1) / 2) = 1 := by
    have h2 := hpephi
    rw [hE, phiW_one hm1 hn hcap hw, he12] at h2
    exact h2.symm
  obtain ⟨hcFe, hcphi⟩ := phiW_rootOfUnity hm1 hn hcap hw (g := g)
  obtain ⟨hrFe, hrphi⟩ := pow_spec hm1 hn hodd hcap hinv hw hx
    (show Norm (tp12 n m) from toLimbs_norm _ _)
  obtain ⟨htFe, htphi⟩ := pow_spec hm1 hn hodd hcap hinv hw hx
    (show Norm (tL n m) from toLimbs_norm _ _)
  rw [htp12] at hrphi
  rw [htl] at htphi
  have hg0 : ((g : Nat) : ZMod m) ≠ 0 := by
    intro h
    exact hg ⟨0, by rw [h]; ring⟩
  have hgE : ((g : Nat) : ZMod m) ^ ((m - 1) / 2) = -1 := by
    have hsq : ((g : Nat) : ZMod m) ^ ((m - 1) / 2)
        * ((g : Nat) : ZMod m) ^ ((m - 1) / 2) = 1 := by
      rw [← pow_add]
      have he : (m - 1) / 2 + (m - 1) / 2 = m - 1 := by omega
      rw [he]
      exact ZMod.pow_card_sub_one_eq_one hg0
    rcases mul_self_eq_one_iff.mp hsq with h | h
    · exfalso
      apply hg
      rw [ZMod.euler_criterion m hg0]
      have he : m / 2 = (m - 1) / 2 := by omega
      rw [he]
      exact h
    · exact h
  have hexps : tVal m * 2 ^ (sVal m - 1) = (m - 1) / 2 := by
    have h2 : 2 ^ sVal m = 2 * 2 ^ (sVal m - 1) := by
      have hs : sVal m - 1 + 1 = sVal m := by omega
      conv_lhs => rw [← hs]
      rw [pow_succ]
      ring
    rw [h2] at hsplit'
    have h3 : 2 * 2 ^ (sVal m - 1) * tVal m
        = 2 * (tVal m * 2 ^ (sVal m - 1)) := by ring
    rw [h3] at hsplit'
    omega
  have hI3 : phiW m w (rootOfUnityL n m g) ^ 2 ^ (sVal m - 1) = -1 := by
    rw [hcphi, ← pow_mul, hexps, hgE]
  have hI2 : phiW m w (pow (modLimbs n m) inv (oneE n m) x (tL n m))
      ^ 2 ^ (sVal m - 1) = 1 := by
    rw [htphi, ← pow_mul, hexps, hEuler]
  have hI1 : phiW m w (pow (modLimbs n m) inv (oneE n m) x (tp12 n m)) ^ 2
      = phiW m w x * phiW m w (pow (modLimbs n m) inv (oneE n m) x (tL n m)) := by
    rw [hrphi, htphi, ← pow_mul]
    have he : (tVal m + 1) / 2 * 2 = tVal m + 1 := by omega
    rw [he, pow_succ]
    ring
  obtain ⟨res, hres, hresFe, hresphi⟩ := tsLoop_spec hm1 hn hodd hcap hinv hw
    (phiW m w x) (sVal m) (sVal m) _ _ _ hcFe hrFe htFe hs1 (le_refl _) hI1 hI2 hI3
  refine ⟨res, ?_, hresFe, ?_⟩
  · unfold sqrtTS
    rw [if_neg hz, if_neg (not_not.mpr hE)]
    exact hres
  · apply phiW_inj hw (Fe_mul hn hodd hcap hinv hresFe hresFe).1 hx
    rw [phiW_mul hn hodd hcap hinv hw hresFe hresFe, ← sq]
    exact hresphi

theorem sqrtTS_correct {n m inv g : Nat} (hn : 0 < n) (hp : Nat.Prime m)
    (hm16 : m % 16 = 1) (hcap : 2 * m ≤ B ^ n)
    (hinv : (inv * (modLimbs n m).headD 0 + 1) % B = 0)
    (hg : ¬ IsSquare ((g : Nat) : ZMod m))
    {x : List Nat} (hx : Fe n m x) :
    (∀ r, sqrtTS n m inv g x = some r → Fe n m r
        ∧ mul_assign (modLimbs n m) inv r r = x)
    ∧ (sqrtTS n m inv g x = none → ∀ r, Fe n m r →
        mul_assign (modLimbs n m) inv r r ≠ x) := by
  haveI : Fact (Nat.Prime m) := ⟨hp⟩
  have hm1 : 1 < m := hp.one_lt
  have hodd : m % 2 = 1 := by omega
  obtain ⟨w, hw⟩ := exists_w (n := n) hodd
  have hmB : m < B ^ n := m_lt_pow (by omega) hcap
  have he12 : val (e12 n m) = (m - 1) / 2 := val_toLimbs_of_lt (by omega)
  by_cases hx0 : val x = 0
  · have hz : is_zero x = true := is_zero_iff.mpr hx0
    have hred : sqrtTS n m inv g x = some x := by
      unfold sqrtTS
      rw [if_pos hz]
    constructor
    · intro r hr
      rw [hred] at hr
      have hrx := Option.some.inj hr
      rw [← hrx]
      refine ⟨hx, ?_⟩
      apply phiW_inj hw (Fe_mul hn hodd hcap hinv hx hx).1 hx
      rw [phiW_mul hn hodd hcap hinv hw hx hx, phiW_val_zero hx0]
      ring
    · intro hnone
      rw [hred] at hnone
      exact Option.noConfusion hnone
  · have hz : ¬ is_zero x = true := by
      intro h
      exact hx0 (is_zero_iff.mp h)
    have hXne := phiW_ne_zero hw hx hx0
    obtain ⟨hpeFe, hpephi⟩ := pow_spec hm1 hn hodd hcap hinv hw hx
      (show Norm (e12 n m) from toLimbs_norm _ _)
    by_cases hE : pow (modLimbs n m) inv (oneE n m) x (e12 n m) = oneE n m
    · obtain ⟨res, hres, hresFe, hresmul⟩ :=
        sqrtTS_pass hn hp hm16 hcap hinv hg hx hx0 hE
      constructor
      · intro r hr
        rw [hres] at hr
        have hrx := Option.some.inj hr
        rw [← hrx]
        exact ⟨hresFe, hresmul⟩
      · intro hnone
        rw [hres] at hnone
        exact Option.noConfusion hnone
    · have hred : sqrtTS n m inv g x = none := by
        unfold sqrtTS
        rw [if_neg hz, if_pos hE]
      constructor
      · intro r hr
        rw [hred] at hr
        exact Option.noConfusion hr
      · intro _ r hrFe hreq
        apply hE
        have hphix : phiW m w x = phiW m w r * phiW m w r := by
          have h2 := congrArg (phiW m w) hreq
          rw [phiW_mul hn hodd hcap hinv hw hrFe hrFe] at h2
          exact h2.symm
        have hrn0 : phiW m w r ≠ 0 := by
          intro h
          rw [h, mul_zero] at hphix
          exact hXne hphix
        have heuler : phiW m w x ^ ((m - 1) / 2) = 1 := by
          rw [hphix, ← pow_two, ← pow_mul]
          have he : 2 * ((m - 1) / 2) = m - 1 := by omega
          rw [he]
          exact ZMod.pow_card_sub_one_eq_one hrn0
        refine phiW_inj hw hpeFe (Fe_one hm1 hn hcap) ?_
        rw [hpephi, he12, heuler, phiW_one hm1 hn hcap hw]

/-- C2: total correctness of the generated `sqrt` in both branches.  In
the `m % 4 = 3` exponentiation branch and in the `m % 16 = 1`
Tonelli-Shanks branch alike, a `Some r` answer satisfies `r * r = x` and a
`None` answer means no field element squares to `x` (for the second branch
under the macro's precondition that the generator is a quadratic
nonresidue). -/
theorem c2_sqrt_total {n m inv g : Nat} (hn : 0 < n) (hp : Nat.Prime m)
    (hcap : 2 * m ≤ B ^ n)
    (hinv : (inv * (modLimbs n m).headD 0 + 1) % B = 0)
    (hg : ¬ IsSquare ((g : Nat) : ZMod m))
    {x : List Nat} (hx : Fe n m x) :
    (m % 4 = 3 →
      (∀ r, sqrt34 n m inv x = some r → Fe n m r
          ∧ mul_assign (modLimbs n m) inv r r = x)
      ∧ (sqrt34 n m inv x = none → ∀ r, Fe n m r →
          mul_assign (modLimbs n m) inv r r ≠ x))
    ∧ (m % 16 = 1 →
      (∀ r, sqrtTS n m inv g x = some r → Fe n m r
          ∧ mul_assign (modLimbs n m) inv r r = x)
      ∧ (sqrtTS n m inv g x = none → ∀ r, Fe n m r →
          mul_assign (modLimbs n m) inv r r ≠ x)) :=
  ⟨fun hm4 => sqrt34_correct hn hp hm4 hcap hinv hx,
   fun hm16 => sqrtTS_correct hn hp hm16 hcap hinv hg hx⟩

theorem c2_witness :
    (17 % 4 = 3 →
      (∀ r, sqrt34 1 17 (computeInv (17 % B)) [13] = some r → Fe 1 17 r
          ∧ mul_assign (modLimbs 1 17) (computeInv (17 % B)) r r = [13])
      ∧ (sqrt34 1 17 (computeInv (17 % B)) [13] = none → ∀ r, Fe 1 17 r →
          mul_assign (modLimbs 1 17) (computeInv (17 % B)) r r ≠ [13]))
    ∧ (17 % 16 = 1 →
      (∀ r, sqrtTS 1 17 (computeInv (17 % B)) 3 [13] = some r → Fe 1 17 r
          ∧ mul_assign (modLimbs 1 17) (computeInv (17 % B)) r r = [13])
      ∧ (sqrtTS 1 17 (computeInv (17 % B)) 3 [13] = none → ∀ r, Fe 1 17 r →
          mul_assign (modLimbs 1 17) (computeInv (17 % B)) r r ≠ [13])) :=
  c2_sqrt_total (by decide) (by norm_num) (by decide)
    (inv_works (by decide) (by decide))
    (by
      intro h
      obtain ⟨r, hr⟩ := h
      exact (by decide : ∀ s : ZMod 17, ¬ ((3 : Nat) : ZMod 17) = s * s) r hr)
    ⟨by decide, rfl, by decide⟩

theorem c9_witness :
    sqrt34 1 7 (computeInv (7 % B)) (zeroE 1) = some (zeroE 1) :=
  c9_sqrt_zero (by decide) (by norm_num) (by decide) (by decide)
    (inv_works (by decide) (by decide))

/-- C10: once the Euler-criterion test `self^((m-1)/2) = one` has passed
on a nonzero input, the Tonelli-Shanks loop always reaches `Some`.  Since
`tsLoop` answers `none` exactly when the inner search for the least `i`
with `t^(2^i) = 1` fails to stop, when the unsigned subtraction
`m - i - 1` would underflow (`i + 1 > m`), or when the outer loop fails to
stop, a `some` answer certifies that every outer iteration finds its index
`i` strictly below the current 2-adic exponent and that both loops
terminate. -/
theorem c10_ts_terminates {n m inv g : Nat} (hn : 0 < n) (hp : Nat.Prime m)
    (hm16 : m % 16 = 1) (hcap : 2 * m ≤ B ^ n)
    (hinv : (inv * (modLimbs n m).headD 0 + 1) % B = 0)
    (hg : ¬ IsSquare ((g : Nat) : ZMod m))
    {x : List Nat} (hx : Fe n m x) (hx0 : val x ≠ 0)
    (hE : pow (modLimbs n m) inv (oneE n m) x (e12 n m) = oneE n m) :
    ∃ r, sqrtTS n m inv g x = some r := by
  obtain ⟨res, hres, -, -⟩ := sqrtTS_pass hn hp hm16 hcap hinv hg hx hx0 hE
  exact ⟨res, hres⟩

set_option maxRecDepth 4000 in
theorem c10_witness :
    ∃ r, sqrtTS 1 17 (computeInv (17 % B)) 3 [13] = some r :=
  c10_ts_terminates (by decide) (by norm_num) (by decide) (by decide)
    (inv_works (by decide) (by decide))
    (by
      intro h
      obtain ⟨r, hr⟩ := h
      exact (by decide : ∀ s : ZMod 17, ¬ ((3 : Nat) : ZMod 17) = s * s) r hr)
    ⟨by decide, rfl, by decide⟩ (by decide) (by decide)

theorem iterDiv2_spec : ∀ (k : Nat) (x : List Nat), Norm x →
    Norm (iterDiv2 x k) ∧ (iterDiv2 x k).length = x.length := by
  intro k
  induction k with
  | zero =>
      intro x hx
      exact ⟨hx, rfl⟩
  | succ k ih =>
      intro x hx
      obtain ⟨h1, h2, h3⟩ := div2_spec x hx
      obtain ⟨h4, h5⟩ := ih _ h2
      have hstep : iterDiv2 x (k + 1) = iterDiv2 (div2 x) k := rfl
      rw [hstep]
      exact ⟨h4, by rw [h5, h3]⟩

theorem tsLoop_Fe {q n inv : Nat} {w : ZMod q} (hn : 0 < n) (hodd : q % 2 = 1)
    (hcap : 2 * q ≤ B ^ n)
    (hinv : (inv * (modLimbs n q).headD 0 + 1) % B = 0)
    (hw : (B : ZMod q) ^ n * w = 1) :
    ∀ (f mm : Nat) (c r t res : List Nat), Fe n q c → Fe n q r → Fe n q t →
      tsLoop (modLimbs n q) (oneE n q) inv f c r t mm = some res →
      Fe n q res := by
  intro f
  induction f with
  | zero =>
      intro mm c r t res _ _ _ h
      exact Option.noConfusion h
  | succ f ih =>
      intro mm c r t res hc hr ht h
      rw [tsLoop] at h
      by_cases hone : t = oneE n q
      · rw [if_pos hone] at h
        rw [← Option.some.inj h]
        exact hr
      · rw [if_neg hone] at h
        cases hfi : findI (modLimbs n q) (oneE n q) inv mm
            (square (modLimbs n q) inv t) 1 with
        | none =>
            simp only [hfi] at h
            exact Option.noConfusion h
        | some i =>
            simp only [hfi] at h
            by_cases hi : mm < i + 1
            · rw [if_pos hi] at h
              exact Option.noConfusion h
            · rw [if_neg hi] at h
              refine ih i _ _ _ res ?_ ?_ ?_ h
              · exact (Fe_square hn hodd hcap hinv hw
                  (iterSq_spec hn hodd hcap hinv hw (mm - i - 1) c hc).1).1
              · exact (Fe_mul hn hodd hcap hinv hr
                  (iterSq_spec hn hodd hcap hinv hw (mm - i - 1) c hc).1).1
              · exact (Fe_mul hn hodd hcap hinv ht
                  (Fe_square hn hodd hcap hinv hw
                    (iterSq_spec hn hodd hcap hinv hw (mm - i - 1) c hc).1).1).1

theorem inverse_Fe {n m : Nat} (hn : 0 < n) (hp : Nat.Prime m)
    (hodd : m % 2 = 1) (hcap : 2 * m ≤ B ^ n)
    {x : List Nat} (hx : Fe n m x) :
    ∀ b, inverse n m x = some b → Fe n m b := by
  have hm1 : 1 < m := hp.one_lt
  obtain ⟨hMn, hMl, hMv⟩ := modLimbs_spec (m_lt_pow (by omega) hcap)
  have hR2lt : R2v n m < m := Nat.mod_lt _ (by omega)
  have hR2val : val (toLimbs n (R2v n m)) = R2v n m :=
    val_toLimbs_of_lt (lt_trans hR2lt (m_lt_pow (by omega) hcap))
  intro b hb
  by_cases hz : is_zero x
  · rw [inverse, if_pos hz] at hb
    exact Option.noConfusion hb
  · rw [inverse, if_neg hz] at hb
    have hx0 : 1 ≤ val x := by
      have hne : val x ≠ 0 := fun h => hz (is_zero_iff.mpr h)
      omega
    have hstU : InvSt n m (val x) x (toLimbs n (R2v n m)) := by
      refine ⟨hx.1, hx.2.1, hx0,
        ⟨toLimbs_norm n _, toLimbs_length n _, by rw [hR2val]; exact hR2lt⟩, ?_⟩
      rw [hR2val, Nat.mul_comm]
    have hstV : InvSt n m (val x) (modLimbs n m) (zeroE n) := by
      refine ⟨hMn, hMl, by omega, ?_, ?_⟩
      · refine ⟨toLimbs_norm n 0, toLimbs_length n 0, ?_⟩
        rw [zeroE, val_toLimbs_of_lt (by omega)]
        omega
      · rw [zeroE, val_toLimbs_of_lt (by omega), hMv]
        have h0 : (0 : Nat) * val x = 0 := by ring
        rw [h0]
        exact (Nat.modEq_zero_iff_dvd.mpr (dvd_mul_right m _)).symm
    have hgcd2 : Nat.gcd (val x) (val (modLimbs n m)) = 1 := by
      rw [hMv]
      have hnd : ¬ m ∣ val x := by
        intro hd
        have h5 := Nat.le_of_dvd (by omega) hd
        have h6 := hx.2.2
        omega
      exact Nat.coprime_comm.mp ((Nat.Prime.coprime_iff_not_dvd hp).mpr hnd)
    have hsum : val x + val (modLimbs n m) ≤ (val x + m) + 2 := by
      rw [hMv]
      omega
    have hmain := invLoop_spec hn hm1 hodd hcap (val x + m)
      x (modLimbs n m) (toLimbs n (R2v n m)) (zeroE n) hstU hstV hgcd2 hsum
    by_cases hc : (invLoop (modLimbs n m) (toLimbs n 1) (64 * n) (val x + m)
        x (modLimbs n m) (toLimbs n (R2v n m)) (zeroE n)).1 = toLimbs n 1
    · rw [if_pos hc] at hb
      rcases hmain with ⟨-, hst⟩ | ⟨h1, -, -⟩
      · rw [← Option.some.inj hb]
        exact hst.2.2.2.1
      · exact absurd hc h1
    · rw [if_neg hc] at hb
      rcases hmain with ⟨h1, -⟩ | ⟨-, -, hst⟩
      · exact absurd h1 hc
      · rw [← Option.some.inj hb]
        exact hst.2.2.2.1

/-- C4: every representation produced or mutated by the public operations
(`zero`, `one`, `add_assign`, `double`, `sub_assign`, `negate`,
`mul_assign`, `square`, `inverse`, both `sqrt` branches, `from_repr`, and
an accepted `rand` sample) is strictly below the modulus; in particular
`sub_assign` and `negate`, which perform no final `reduce`, stay below the
modulus whenever their inputs do. -/
theorem c4_validity {n m inv g : Nat} (hn : 0 < n) (hp : Nat.Prime m)
    (hodd : m % 2 = 1) (hcap : 2 * m ≤ B ^ n)
    (hinv : (inv * (modLimbs n m).headD 0 + 1) % B = 0)
    {a b : List Nat} (ha : Fe n m a) (hb : Fe n m b) :
    Fe n m (zeroE n)
    ∧ Fe n m (oneE n m)
    ∧ Fe n m (add_assign (modLimbs n m) a b)
    ∧ Fe n m (double (modLimbs n m) a)
    ∧ Fe n m (sub_assign (modLimbs n m) a b)
    ∧ Fe n m (negate (modLimbs n m) a)
    ∧ Fe n m (mul_assign (modLimbs n m) inv a b)
    ∧ Fe n m (square (modLimbs n m) inv a)
    ∧ (∀ y, inverse n m a = some y → Fe n m y)
    ∧ (∀ y, sqrt34 n m inv a = some y → Fe n m y)
    ∧ (∀ y, sqrtTS n m inv g a = some y → Fe n m y)
    ∧ (∀ r y, Norm r → r.length = n →
        from_repr n m inv r = Except.ok y → Fe n m y)
    ∧ (∀ shave raw y, Norm raw → raw.length = n →
        random_attempt n m shave raw = some y → Fe n m y) := by
  haveI : Fact (Nat.Prime m) := ⟨hp⟩
  have hm1 : 1 < m := hp.one_lt
  obtain ⟨w, hw⟩ := exists_w (n := n) hodd
  obtain ⟨hMn, hMl, hMv⟩ := modLimbs_spec (m_lt_pow (by omega) hcap)
  have hcapM : 2 * val (modLimbs n m) ≤ B ^ (modLimbs n m).length := by
    rw [hMv, hMl]
    exact hcap
  refine ⟨Fe_zero (by omega) hn, Fe_one hm1 hn hcap,
    ?_, ?_, ?_, ?_, ?_, ?_, ?_, ?_, ?_, ?_, ?_⟩
  · obtain ⟨h1, h2, h3⟩ := add_assign_spec hMn ha.1 hb.1
      (by rw [ha.2.1, hMl]) (by rw [hb.2.1, hMl])
      (by rw [hMv]; exact ha.2.2) (by rw [hMv]; exact hb.2.2) hcapM
    refine ⟨h1, by rw [h2, hMl], ?_⟩
    rw [h3, hMv]
    exact Nat.mod_lt _ (by omega)
  · obtain ⟨h1, h2, h3⟩ := double_spec hMn ha.1
      (by rw [ha.2.1, hMl]) (by rw [hMv]; exact ha.2.2) hcapM
    refine ⟨h1, by rw [h2, hMl], ?_⟩
    rw [h3, hMv]
    exact Nat.mod_lt _ (by omega)
  · obtain ⟨h1, h2, h3⟩ := sub_assign_spec hMn ha.1 hb.1
      (by rw [ha.2.1, hMl]) (by rw [hb.2.1, hMl])
      (by rw [hMv]; exact ha.2.2) (by rw [hMv]; exact hb.2.2) hcapM
    refine ⟨h1, by rw [h2, hMl], ?_⟩
    rw [h3, hMv]
    exact Nat.mod_lt _ (by omega)
  · obtain ⟨h1, h2, h3⟩ := negate_spec hMn ha.1
      (by rw [ha.2.1, hMl]) (by rw [hMv]; exact ha.2.2)
    refine ⟨h1, by rw [h2, hMl], ?_⟩
    rw [h3, hMv]
    exact Nat.mod_lt _ (by omega)
  · exact (Fe_mul hn hodd hcap hinv ha hb).1
  · exact (Fe_square hn hodd hcap hinv hw ha).1
  · exact inverse_Fe hn hp hodd hcap ha
  · intro y hy
    unfold sqrt34 at hy
    by_cases hcond : mul_assign (modLimbs n m) inv
        (square (modLimbs n m) inv (pow (modLimbs n m) inv (oneE n m) a (e34 n m))) a
        = rnegL n m
    · rw [if_pos hcond] at hy
      exact Option.noConfusion hy
    · rw [if_neg hcond] at hy
      rw [← Option.some.inj hy]
      exact (Fe_mul hn hodd hcap hinv
        (pow_spec hm1 hn hodd hcap hinv hw ha
          (show Norm (e34 n m) from toLimbs_norm _ _)).1 ha).1
  · intro y hy
    unfold sqrtTS at hy
    by_cases hz : is_zero a
    · rw [if_pos hz] at hy
      rw [← Option.some.inj hy]
      exact ha
    · rw [if_neg hz] at hy
      by_cases hE : pow (modLimbs n m) inv (oneE n m) a (e12 n m) = oneE n m
      · rw [if_neg (not_not.mpr hE)] at hy
        refine tsLoop_Fe hn hodd hcap hinv hw (sVal m) (sVal m) _ _ _ y ?_ ?_ ?_ hy
        · exact (phiW_rootOfUnity hm1 hn hcap hw).1
        · exact (pow_spec hm1 hn hodd hcap hinv hw ha
            (show Norm (tp12 n m) from toLimbs_norm _ _)).1
        · exact (pow_spec hm1 hn hodd hcap hinv hw ha
            (show Norm (tL n m) from toLimbs_norm _ _)).1
      · rw [if_pos hE] at hy
        exact Option.noConfusion hy
  · intro r y hr hrl hy
    unfold from_repr at hy
    by_cases hv : is_valid (modLimbs n m) r
    · rw [if_pos hv] at hy
      have hrv : val r < m := by
        rw [← hMv]
        exact (is_valid_iff hMn hr (by rw [hrl, hMl])).mp hv
      have hR2lt : R2v n m < m := Nat.mod_lt _ (by omega)
      have hFeR2 : Fe n m (toLimbs n (R2v n m)) :=
        ⟨toLimbs_norm _ _, toLimbs_length _ _, by
          rw [val_toLimbs_of_lt (lt_trans hR2lt (m_lt_pow (by omega) hcap))]
          exact hR2lt⟩
      rw [← Except.ok.inj hy]
      exact (Fe_mul hn hodd hcap hinv ⟨hr, hrl, hrv⟩ hFeR2).1
    · rw [if_neg hv] at hy
      exact Except.noConfusion hy
  · intro shave raw y hraw hrawl hacc
    unfold random_attempt at hacc
    by_cases hv : is_valid (modLimbs n m) (iterDiv2 raw shave)
    · rw [if_pos hv] at hacc
      obtain ⟨hN, hL⟩ := iterDiv2_spec shave raw hraw
      rw [← Option.some.inj hacc]
      refine ⟨hN, by rw [hL, hrawl], ?_⟩
      rw [← hMv]
      exact (is_valid_iff hMn hN (by rw [hL, hrawl, hMl])).mp hv
    · rw [if_neg hv] at hacc
      exact Option.noConfusion hacc

theorem c4_witness :
    Fe 1 13 (zeroE 1)
    ∧ Fe 1 13 (oneE 1 13)
    ∧ Fe 1 13 (add_assign (modLimbs 1 13) [5] [7])
    ∧ Fe 1 13 (double (modLimbs 1 13) [5])
    ∧ Fe 1 13 (sub_assign (modLimbs 1 13) [5] [7])
    ∧ Fe 1 13 (negate (modLimbs 1 13) [5])
    ∧ Fe 1 13 (mul_assign (modLimbs 1 13) (computeInv (13 % B)) [5] [7])
    ∧ Fe 1 13 (square (modLimbs 1 13) (computeInv (13 % B)) [5])
    ∧ (∀ y, inverse 1 13 [5] = some y → Fe 1 13 y)
    ∧ (∀ y, sqrt34 1 13 (computeInv (13 % B)) [5] = some y → Fe 1 13 y)
    ∧ (∀ y, sqrtTS 1 13 (computeInv (13 % B)) 2 [5] = some y → Fe 1 13 y)
    ∧ (∀ r y, Norm r → r.length = 1 →
        from_repr 1 13 (computeInv (13 % B)) r = Except.ok y → Fe 1 13 y)
    ∧ (∀ shave raw y, Norm raw → raw.length = 1 →
        random_attempt 1 13 shave raw = some y → Fe 1 13 y) :=
  c4_validity (by decide) (by norm_num) (by decide) (by decide)
    (inv_works (by decide) (by decide))
    ⟨by decide, rfl, by decide⟩ ⟨by decide, rfl, by decide⟩


end FF
